import Mathlib

/-!
# go-snark (BLS381 port): field, polynomial field and R1CS builder

A shallow embedding of `amcl/BLS381/FP.go`, `fields/fq.go`, `r1csqap/r1csqap.go`
and `circuitcompiler/circuit.go`.

An `FP` value is represented by the residue it denotes.  The limb arithmetic
(`BIG`, `DBIG`), the Montgomery constants and the constant `Modulus` live in
files that are not part of the sources at hand; the modulus is therefore a
parameter `p` of every definition, and the limb-level primitives are modelled
as exact arithmetic modulo `p`.
-/

namespace BLS381

/-- Modelled from the spec: the limb type `BIG` and the constant `Modulus`
are absent.  A field element `FP` is the residue modulo the parameter `p`
(standing for `Modulus`) that the pair `(x, XES)` denotes. -/
abbrev FP (p : Nat) : Type := ZMod p

/-- Modelled from the spec: `NewBIGint` and the Montgomery conversion behind
`nres` are absent.  `NewFPint(a)` is the field element of the machine
integer `a`, of either sign. -/
def NewFPint (p : Nat) (a : Int) : FP p := (a : ZMod p)

/-- `NewFPcopy`: a fresh element with the same value. -/
def NewFPcopy {p : Nat} (a : FP p) : FP p := a

/-- `FP.reduce`: full reduction; it does not change the residue. -/
def FP.reduce {p : Nat} (F : FP p) : FP p := F

/-- `FP.norm`: limb normalisation; it does not change the residue. -/
def FP.norm {p : Nat} (F : FP p) : FP p := F

/-- `FP.Add`: `this += b`; the limb addition and the conditional `reduce`
keep the residue exact. -/
def FP.Add {p : Nat} (F b : FP p) : FP p := F + b

/-- `FP.Neg`: `this = -this mod Modulus`. -/
def FP.Neg {p : Nat} (F : FP p) : FP p := -F

/-- `FP.Sub`: `n := copy(b); n.Neg(); this.Add(n)`. -/
def FP.Sub {p : Nat} (F b : FP p) : FP p :=
  let n := NewFPcopy b
  let n := FP.Neg n
  FP.Add F n

/-- `FP.Mul`: `this *= b mod Modulus` (limb product and Montgomery reduction
taken as the exact product of residues). -/
def FP.Mul {p : Nat} (F b : FP p) : FP p := F * b

/-- `FP.sqr`: `this *= this mod Modulus`. -/
def FP.sqr {p : Nat} (F : FP p) : FP p := F * F

/-- Halving loop of `BIG.nbits` (`for c != 0 { c /= 2; bts++ }`), with the
number of iterations bounded by the first argument. -/
def nbitsLoop : Nat → Nat → Nat
  | 0, _ => 0
  | fuel + 1, c => if c = 0 then 0 else nbitsLoop fuel (c / 2) + 1

/-- `BIG.nbits`: number of significant bits of a normalised `BIG`; the
exponent of `Pow` is represented by its value. -/
def nbits (e : Nat) : Nat := nbitsLoop e e

/-- First loop of `FP.Pow`: the `nb` four-bit windows of the exponent, least
significant first (`lastbits(4)`, `dec`, `norm`, `fshr(4)`). -/
def powWindows : Nat → Nat → List Nat
  | 0, _ => []
  | nb + 1, t =>
    let lsbs := t % 16
    let t := t - lsbs
    let t := t / 16
    lsbs :: powWindows nb t

/-- Table of `FP.Pow`: `tb[0] = 1`, `tb[1] = F`, `tb[i] = tb[i-1] * F` for
`2 <= i < 16`. -/
def powTable {p : Nat} (F : FP p) : List (FP p) :=
  (List.range 14).foldl
    (fun tb i => tb ++ [FP.Mul (NewFPcopy (tb.getD (i + 1) 0)) F])
    [NewFPint p 1, NewFPcopy F]

/-- `FP.Pow`: fixed four-bit window exponentiation. -/
def FP.Pow {p : Nat} (F : FP p) (e : Nat) : FP p :=
  let F := FP.norm F
  let nb := 1 + (nbits e + 3) / 4
  let w := powWindows nb e
  let tb := powTable F
  let r := NewFPcopy (tb.getD (w.getD (nb - 1) 0) 0)
  let r := ((List.range (nb - 1)).reverse).foldl
    (fun r i => FP.Mul (FP.sqr (FP.sqr (FP.sqr (FP.sqr r)))) (tb.getD (w.getD i 0) 0)) r
  FP.reduce r

/-- `FP.Inverse` (branch `MODTYPE = NOT_SPECIAL`): `this = this^(Modulus-2)`. -/
def FP.Inverse {p : Nat} (F : FP p) : FP p := FP.Pow F (p - 2)

/-- `FP.Equals`: compare the fully reduced values. -/
def FP.Equals {p : Nat} (F a : FP p) : Bool :=
  let f := NewFPcopy F
  let s := NewFPcopy a
  decide (FP.reduce s = FP.reduce f)

end BLS381

namespace fields

open BLS381

/-- The record `Fq`: it stores `Q` and nothing else. -/
structure Fq where
  Q : Nat
deriving Repr

/-- `NewFq`. -/
def NewFq (q : Nat) : Fq := { Q := q }

/-- `Fq.Add`. -/
def Fq.Add {p : Nat} (_fq : Fq) (a b : FP p) : FP p :=
  let r := NewFPcopy a
  FP.Add r b

/-- `Fq.Sub`. -/
def Fq.Sub {p : Nat} (_fq : Fq) (a b : FP p) : FP p :=
  let r := NewFPcopy a
  FP.Sub r b

/-- `Fq.Mul`. -/
def Fq.Mul {p : Nat} (_fq : Fq) (a b : FP p) : FP p :=
  let r := NewFPcopy a
  FP.Mul r b

/-- `Fq.Inverse`. -/
def Fq.Inverse {p : Nat} (_fq : Fq) (a : FP p) : FP p :=
  let r := NewFPcopy a
  FP.Inverse r

/-- `Fq.Div`: `fq.Mul(a, fq.Inverse(b))`. -/
def Fq.Div {p : Nat} (fq : Fq) (a b : FP p) : FP p :=
  fq.Mul a (fq.Inverse b)

/-- `Fq.Exp`: `res := copy(base); res.Pow(e); return res`.  `FP.Pow` builds
its result in a fresh element and returns it; the call statement drops that
result, and `res` is returned. -/
def Fq.Exp {p : Nat} (_fq : Fq) (base : FP p) (e : Nat) : FP p :=
  let res := NewFPcopy base
  let _dropped := FP.Pow res e
  res

end fields

open BLS381 fields

/-- The 64-bit two's complement value of an integer: what a Go `int` (on
a 64-bit platform) holds after an arithmetic operation whose exact result
is `x`. -/
def wrapInt (x : Int) : Int := (x + 2 ^ 63) % 2 ^ 64 - 2 ^ 63

/-- Run-time failures of the Go code: an index or slice bound out of range,
the two explicit panics of the R1CS builder, a `big.Int` division by zero,
the iteration bound of a modelled `for` loop being used up, and the
`os.Exit(1)` of the trusted setup. -/
inductive Fault where
  | indexOutOfRange
  | fuelExhausted
  | useBeforeSet
  | outAlreadyUsed
  | divisionByZero
  | processExit
deriving DecidableEq, Repr

namespace r1csqap

/-- Indexing `s[i]` of a Go slice. -/
def index {α : Type} (s : List α) (i : Int) : Except Fault α :=
  if i < 0 then .error .indexOutOfRange
  else match s.get? i.toNat with
    | some x => .ok x
    | none => .error .indexOutOfRange

/-- `Transpose`: row `i` of the result collects `matrix[j][i]` for all `j`;
the number of result rows is `len(matrix[0])`. -/
def Transpose {p : Nat} (matrix : List (List (FP p))) : Except Fault (List (List (FP p))) := do
  let row0 ← index matrix 0
  (List.range row0.length).mapM fun i =>
    (List.range matrix.length).mapM fun j => do
      let rowj ← index matrix (Int.ofNat j)
      index rowj (Int.ofNat i)

/-- `ArrayOfBigZeros`: `num` zeros; no element when `num <= 0`. -/
def ArrayOfBigZeros (p : Nat) (num : Int) : List (FP p) :=
  let blsZero := NewFPint p 0
  (List.range num.toNat).foldl (fun r _ => r ++ [blsZero]) []

/-- `BigArraysEqual`. -/
def BigArraysEqual {p : Nat} (a b : List (FP p)) : Bool :=
  if a.length ≠ b.length then false
  else (List.range a.length).all fun i => FP.Equals (a.getD i 0) (b.getD i 0)

/-- The record `PolynomialField`. -/
structure PolynomialField where
  F : Fq
deriving Repr

/-- `NewPolynomialField`. -/
def NewPolynomialField (f : Fq) : PolynomialField := { F := f }

/-- `PolynomialField.Mul`.  Every index `i + j` read and written lies inside
`r`, whose length is `len(a) + len(b) - 1`. -/
def PolynomialField.Mul {p : Nat} (pf : PolynomialField) (a b : List (FP p)) : List (FP p) :=
  let r := ArrayOfBigZeros p ((a.length : Int) + (b.length : Int) - 1)
  (List.range a.length).foldl (fun r i =>
    (List.range b.length).foldl (fun r j =>
      r.set (i + j) (pf.F.Add (r.getD (i + j) 0) (pf.F.Mul (a.getD i 0) (b.getD j 0)))) r) r

/-- The helper `max`. -/
def max (a b : Int) : Int := if a > b then a else b

/-- `PolynomialField.Add`. -/
def PolynomialField.Add {p : Nat} (pf : PolynomialField) (a b : List (FP p)) : List (FP p) :=
  let r := ArrayOfBigZeros p (max a.length b.length)
  let r := (List.range a.length).foldl
    (fun r i => r.set i (pf.F.Add (r.getD i 0) (a.getD i 0))) r
  (List.range b.length).foldl
    (fun r i => r.set i (pf.F.Add (r.getD i 0) (b.getD i 0))) r

/-- `PolynomialField.Sub`. -/
def PolynomialField.Sub {p : Nat} (pf : PolynomialField) (a b : List (FP p)) : List (FP p) :=
  let r := ArrayOfBigZeros p (max a.length b.length)
  let r := (List.range a.length).foldl
    (fun r i => r.set i (pf.F.Add (r.getD i 0) (a.getD i 0))) r
  (List.range b.length).foldl
    (fun r i => r.set i (pf.F.Sub (r.getD i 0) (b.getD i 0))) r

/-- Loop of `PolynomialField.Div`, state `(r, rem)`; the first argument
bounds the number of iterations. -/
def PolynomialField.DivLoop {p : Nat} (pf : PolynomialField) (b : List (FP p)) :
    Nat → List (FP p) → List (FP p) → Except Fault (List (FP p) × List (FP p))
  | 0, _, _ => .error .fuelExhausted
  | fuel + 1, r, rem =>
    if rem.length ≥ b.length then do
      let remTop ← index rem ((rem.length : Int) - 1)
      let bTop ← index b ((b.length : Int) - 1)
      let l := pf.F.Div remTop bTop
      let pos := rem.length - b.length
      if pos ≥ r.length then .error .indexOutOfRange
      else
        let r := r.set pos l
        let aux := ArrayOfBigZeros p pos
        let aux1 := aux ++ [l]
        let aux2 := pf.Sub rem (pf.Mul b aux1)
        if aux2.length = 0 then .error .indexOutOfRange
        else
          let rem := aux2.take (aux2.length - 1)
          PolynomialField.DivLoop pf b fuel r rem
    else .ok (r, rem)

/-- `PolynomialField.Div`: quotient and remainder.  The loop shortens `rem`
by one coefficient per iteration, so `len(a) + 1` iterations are allowed. -/
def PolynomialField.Div {p : Nat} (pf : PolynomialField) (a b : List (FP p)) :
    Except Fault (List (FP p) × List (FP p)) :=
  let r := ArrayOfBigZeros p ((a.length : Int) - (b.length : Int) + 1)
  let rem := a
  pf.DivLoop b (a.length + 1) r rem

/-- `PolynomialField.Eval`. -/
def PolynomialField.Eval {p : Nat} (pf : PolynomialField) (v : List (FP p)) (x : FP p) : FP p :=
  (List.range v.length).foldl (fun r i =>
    let xi := pf.F.Exp x i
    let elem := pf.F.Mul (v.getD i 0) xi
    pf.F.Add r elem) (NewFPint p 0)

/-- The values `1, 2, ..., totalPoints` taken by the loop variable of
`for i := 1; i < totalPoints+1; i++`. -/
def pointRange (totalPoints : Int) : List Int :=
  (List.range totalPoints.toNat).map fun i => Int.ofNat i + 1

/-- `PolynomialField.NewPolZeroAt`; `fac` is a machine `int`. -/
def PolynomialField.NewPolZeroAt {p : Nat} (pf : PolynomialField)
    (pointPos totalPoints : Int) (height : FP p) : List (FP p) :=
  let fac := (pointRange totalPoints).foldl
    (fun fac i => if i ≠ pointPos then wrapInt (fac * (pointPos - i)) else fac) 1
  let facBls := NewFPint p fac
  let hf := pf.F.Div height facBls
  (pointRange totalPoints).foldl (fun r i =>
    if i ≠ pointPos then
      let ineg := NewFPint p (-i)
      let b1 := NewFPint p 1
      pf.Mul r [ineg, b1]
    else r) [hf]

/-- `PolynomialField.LagrangeInterpolation`. -/
def PolynomialField.LagrangeInterpolation {p : Nat} (pf : PolynomialField)
    (v : List (FP p)) : List (FP p) :=
  (List.range v.length).foldl
    (fun r i => pf.Add r (pf.NewPolZeroAt (Int.ofNat i + 1) (Int.ofNat v.length) (v.getD i 0))) []

/-- `PolynomialField.R1CSToQAP`. -/
def PolynomialField.R1CSToQAP {p : Nat} (pf : PolynomialField) (a b c : List (List (FP p))) :
    Except Fault (List (List (FP p)) × List (List (FP p)) × List (List (FP p)) × List (FP p)) := do
  let aT ← Transpose a
  let bT ← Transpose b
  let cT ← Transpose c
  let alphas := aT.map pf.LagrangeInterpolation
  let betas := bT.map pf.LagrangeInterpolation
  let gammas := cT.map pf.LagrangeInterpolation
  let aT0 ← index aT 0
  let z := (pointRange aT0.length).foldl (fun z i =>
    let ineg := NewFPint p (-i)
    let b1 := NewFPint p 1
    pf.Mul z [ineg, b1]) [NewFPint p 1]
  return (alphas, betas, gammas, z)

/-- One of the three accumulation loops of `CombinePolynomials`. -/
def PolynomialField.combineLoop {p : Nat} (pf : PolynomialField) (r : List (FP p))
    (ap : List (List (FP p))) : Except Fault (List (FP p)) :=
  (List.range r.length).foldlM (fun alpha i => do
    let api ← index ap (Int.ofNat i)
    let m := pf.Mul [r.getD i 0] api
    return pf.Add alpha m) []

/-- `PolynomialField.CombinePolynomials`. -/
def PolynomialField.CombinePolynomials {p : Nat} (pf : PolynomialField) (r : List (FP p))
    (ap bp cp : List (List (FP p))) :
    Except Fault (List (FP p) × List (FP p) × List (FP p) × List (FP p)) := do
  let alpha ← pf.combineLoop r ap
  let beta ← pf.combineLoop r bp
  let gamma ← pf.combineLoop r cp
  let px := pf.Sub (pf.Mul alpha beta) gamma
  return (alpha, beta, gamma, px)

/-- `PolynomialField.DivisorPolynomial`: the quotient of `Div`; the remainder
is dropped. -/
def PolynomialField.DivisorPolynomial {p : Nat} (pf : PolynomialField) (px z : List (FP p)) :
    Except Fault (List (FP p)) := do
  let (quo, _) ← pf.Div px z
  return quo

end r1csqap

open r1csqap

namespace circuitcompiler

/-- The record `Constraint` of a flat code operation, `v1 op v2 = out`. -/
structure Constraint where
  Op : String
  V1 : String
  V2 : String
  Out : String
  Literal : String := ""
  Inputs : List String := []
deriving DecidableEq, Repr

/-- The record `Circuit`; matrices and witness hold `big.Int` values. -/
structure Circuit where
  NVars : Int := 0
  NPublic : Int := 0
  NSignals : Int := 0
  Inputs : List String := []
  Signals : List String := []
  PublicSignals : List String := []
  Witness : List Int := []
  Constraints : List Constraint := []
  R1CS : List (List Int) × List (List Int) × List (List Int) := ([], [], [])
deriving Repr

/-- Indexing `s[i]` of a Go slice. -/
def index {α : Type} (s : List α) (i : Int) : Except Fault α :=
  if i < 0 then .error .indexOutOfRange
  else match s.get? i.toNat with
    | some x => .ok x
    | none => .error .indexOutOfRange

/-- Assignment `s[i] = x` to a Go slice. -/
def setIndex {α : Type} (s : List α) (i : Int) (x : α) : Except Fault (List α) :=
  if i < 0 then .error .indexOutOfRange
  else if i.toNat < s.length then .ok (s.set i.toNat x)
  else .error .indexOutOfRange

/-- The `big.Int` flavour of `ArrayOfBigZeros` that the circuit compiler is
written against. -/
def ArrayOfBigZeros (num : Int) : List Int :=
  (List.range num.toNat).foldl (fun r _ => r ++ [0]) []

/-- `indexInArray`: position of the first occurrence, `-1` when absent. -/
def indexInArray (arr : List String) (e : String) : Int :=
  match arr.indexOf? e with
  | some i => Int.ofNat i
  | none => -1

/-- Go library function `strconv.Atoi`: an optional sign followed by one or
more decimal digits, with a value that fits a 64-bit `int`; anything else is
an error. -/
def Atoi (s : String) : Option Int :=
  let cs := s.toList
  let signed : Bool × List Char :=
    match cs with
    | '-' :: t => (true, t)
    | '+' :: t => (false, t)
    | _ => (false, cs)
  let ds := signed.2
  if ds.isEmpty then none
  else if ds.all Char.isDigit then
    let n : Nat := ds.foldl (fun acc c => 10 * acc + (c.toNat - '0'.toNat)) 0
    let v : Int := if signed.1 then -(n : Int) else (n : Int)
    if -(2 : Int) ^ 63 ≤ v ∧ v < (2 : Int) ^ 63 then some v else none
  else none

/-- `isValue`. -/
def isValue (a : String) : Bool × Int :=
  match Atoi a with
  | none => (false, 0)
  | some v => (true, v)

/-- Common body of `insertVar` (`delta = 1`) and `insertVarNeg`
(`delta = -1`); the map `used` is the list of names set to `true`. -/
def insertVarWith (delta : Int) (arr : List Int) (signals : List String) (v : String)
    (used : List String) : Except Fault (List Int × List String) :=
  let (isVal, value) := isValue v
  let valueBigInt : Int := value
  if isVal then do
    let x ← index arr 0
    let arr ← setIndex arr 0 (x + valueBigInt)
    return (arr, used)
  else
    if !used.contains v then .error .useBeforeSet
    else do
      let x ← index arr (indexInArray signals v)
      let arr ← setIndex arr (indexInArray signals v) (x + delta)
      return (arr, used)

/-- `insertVar`. -/
def insertVar (arr : List Int) (signals : List String) (v : String) (used : List String) :
    Except Fault (List Int × List String) :=
  insertVarWith 1 arr signals v used

/-- `insertVarNeg`. -/
def insertVarNeg (arr : List Int) (signals : List String) (v : String) (used : List String) :
    Except Fault (List Int × List String) :=
  insertVarWith (-1) arr signals v used

/-- State of the loop of `GenerateR1CS`: the matrices `a`, `b`, `c` built so
far and the map `used`. -/
structure R1CSState where
  a : List (List Int) := []
  b : List (List Int) := []
  c : List (List Int) := []
  used : List String := []
deriving Repr

/-- Body of the loop of `GenerateR1CS` for one constraint. -/
def Circuit.GenerateR1CSStep (circ : Circuit) (st : R1CSState) (constraint : Constraint) :
    Except Fault R1CSState := do
  let aConstraint := ArrayOfBigZeros circ.Signals.length
  let bConstraint := ArrayOfBigZeros circ.Signals.length
  let cConstraint := ArrayOfBigZeros circ.Signals.length
  let used := st.used
  if used.contains constraint.Out then .error .outAlreadyUsed
  else
    let used := constraint.Out :: used
    if constraint.Op = "in" then do
      let (_, _, used) ← (List.range constraint.Inputs.length).foldlM
        (fun (acc : List Int × List Int × List String) _ => do
          let (aConstraint, bConstraint, used) := acc
          let k := indexInArray circ.Signals constraint.Out
          let x ← index aConstraint k
          let aConstraint ← setIndex aConstraint k (x + 1)
          let (aConstraint, used) ← insertVar aConstraint circ.Signals constraint.Out used
          let bConstraint ← setIndex bConstraint 0 1
          return (aConstraint, bConstraint, used))
        (aConstraint, bConstraint, used)
      return { st with used := used }
    else do
      let (aConstraint, bConstraint, cConstraint, used) ←
        (if constraint.Op = "+" then do
          let cConstraint ← setIndex cConstraint (indexInArray circ.Signals constraint.Out) 1
          let (aConstraint, used) ← insertVar aConstraint circ.Signals constraint.V1 used
          let (aConstraint, used) ← insertVar aConstraint circ.Signals constraint.V2 used
          let bConstraint ← setIndex bConstraint 0 1
          return (aConstraint, bConstraint, cConstraint, used)
        else if constraint.Op = "-" then do
          let cConstraint ← setIndex cConstraint (indexInArray circ.Signals constraint.Out) 1
          let (aConstraint, used) ← insertVarNeg aConstraint circ.Signals constraint.V1 used
          let (aConstraint, used) ← insertVarNeg aConstraint circ.Signals constraint.V2 used
          let bConstraint ← setIndex bConstraint 0 1
          return (aConstraint, bConstraint, cConstraint, used)
        else if constraint.Op = "*" then do
          let cConstraint ← setIndex cConstraint (indexInArray circ.Signals constraint.Out) 1
          let (aConstraint, used) ← insertVar aConstraint circ.Signals constraint.V1 used
          let (bConstraint, used) ← insertVar bConstraint circ.Signals constraint.V2 used
          return (aConstraint, bConstraint, cConstraint, used)
        else if constraint.Op = "/" then do
          let (cConstraint, used) ← insertVar cConstraint circ.Signals constraint.V1 used
          let cConstraint ← setIndex cConstraint (indexInArray circ.Signals constraint.Out) 1
          let (bConstraint, used) ← insertVar bConstraint circ.Signals constraint.V2 used
          return (aConstraint, bConstraint, cConstraint, used)
        else
          return (aConstraint, bConstraint, cConstraint, used)
          : Except Fault (List Int × List Int × List Int × List String))
      return { a := st.a ++ [aConstraint], b := st.b ++ [bConstraint],
               c := st.c ++ [cConstraint], used := used }

/-- `Circuit.GenerateR1CS`: the matrices `(a, b, c)`, or the panic raised. -/
def Circuit.GenerateR1CS (circ : Circuit) :
    Except Fault (List (List Int) × List (List Int) × List (List Int)) := do
  let st ← circ.Constraints.foldlM circ.GenerateR1CSStep {}
  return (st.a, st.b, st.c)

/-- `grabVar`. -/
def grabVar (signals : List String) (w : List Int) (vStr : String) : Except Fault Int :=
  let (isVal, v) := isValue vStr
  let vBig : Int := v
  if isVal then .ok vBig
  else index w (indexInArray signals vStr)

/-- Body of the constraint loop of `CalculateWitness`.  The right-hand side
is evaluated before the element of `w` is assigned; `big.Int.Div` is
Euclidean division and panics on a zero divisor. -/
def Circuit.CalculateWitnessStep (circ : Circuit) (w : List Int) (constraint : Constraint) :
    Except Fault (List Int) :=
  if constraint.Op = "in" then .ok w
  else if constraint.Op = "+" then do
    let x ← grabVar circ.Signals w constraint.V1
    let y ← grabVar circ.Signals w constraint.V2
    setIndex w (indexInArray circ.Signals constraint.Out) (x + y)
  else if constraint.Op = "-" then do
    let x ← grabVar circ.Signals w constraint.V1
    let y ← grabVar circ.Signals w constraint.V2
    setIndex w (indexInArray circ.Signals constraint.Out) (x - y)
  else if constraint.Op = "*" then do
    let x ← grabVar circ.Signals w constraint.V1
    let y ← grabVar circ.Signals w constraint.V2
    setIndex w (indexInArray circ.Signals constraint.Out) (x * y)
  else if constraint.Op = "/" then do
    let x ← grabVar circ.Signals w constraint.V1
    let y ← grabVar circ.Signals w constraint.V2
    if y = 0 then .error .divisionByZero
    else setIndex w (indexInArray circ.Signals constraint.Out) (Int.ediv x y)
  else .ok w

/-- `Circuit.CalculateWitness`: the pair `(witness, error)` it returns
(`some msg` for a non-nil error), or the panic raised. -/
def Circuit.CalculateWitness (circ : Circuit) (inputs : List Int) :
    Except Fault (List Int × Option String) :=
  if inputs.length ≠ circ.Inputs.length then
    .ok ([], some "given inputs != circuit.Inputs")
  else do
    let w := ArrayOfBigZeros circ.Signals.length
    let w ← setIndex w 0 1
    let w ← (List.range inputs.length).foldlM
      (fun w i => setIndex w (Int.ofNat i + 2) (inputs.getD i 0)) w
    let w ← circ.Constraints.foldlM circ.CalculateWitnessStep w
    return (w, none)

end circuitcompiler

/-- The test helper `hornerPolyEval` of `snark_test.go`, on `big.Int`;
`big.Int.Mod` is the Euclidean modulus. -/
def hornerPolyEval (poly : List Int) (x m : Int) : Int :=
  (List.range poly.length).reverse.foldl (fun res i =>
    let res := res * x
    let res := Int.emod res m
    let res := res + poly.getD i 0
    Int.emod res m) 0

/-- Abstraction used in the proofs: the polynomial whose coefficient of
`x^i` is the `i`-th entry of the coefficient sequence. -/
def toPoly {p : Nat} (l : List (FP p)) : Polynomial (FP p) := ⟨l.toFinsupp⟩

/-- Reference value of a coefficient sequence at `x`: the sum of
`c_i * x^i`. -/
def polyValue {p : Nat} (c : List (FP p)) (x : FP p) : FP p :=
  ((List.range c.length).map fun i => c.getD i 0 * x ^ i).sum

/-- Dot product `row · w` of two sequences of field elements. -/
def dot {p : Nat} (row w : List (FP p)) : FP p :=
  (List.zipWith (fun x y => x * y) row w).sum

/-- Dot product of two `big.Int` sequences. -/
def dotInt (row w : List Int) : Int :=
  (List.zipWith (fun x y => x * y) row w).sum

/-- The base-field modulus of BLS12-381, the value of the constant `Modulus`
for this curve (`MODBITS = 381`, `MOD8 = 3`). -/
def Modulus381 : Nat :=
  4002409555221667393417789825735904156556882819939007885332058136124031650490837864442687629129015664037894272559787

/-- The polynomial field built as in the tests: `NewFq(Modulus)`. -/
def testPF : PolynomialField := NewPolynomialField (NewFq Modulus381)

/-- A small prime modulus for worked examples. -/
def smallModulus : Nat := 101

/-- Matrix `a` of the hard-coded R1CS of `TestZkFromHardcodedR1CS`. -/
def hardcodedA : List (List (FP smallModulus)) :=
  [[0, 0, 1, 0, 0, 0], [0, 0, 0, 1, 0, 0], [0, 0, 1, 0, 1, 0], [5, 0, 0, 0, 0, 1]]

/-- Matrix `b` of the hard-coded R1CS of `TestZkFromHardcodedR1CS`. -/
def hardcodedB : List (List (FP smallModulus)) :=
  [[0, 0, 1, 0, 0, 0], [0, 0, 1, 0, 0, 0], [1, 0, 0, 0, 0, 0], [1, 0, 0, 0, 0, 0]]

/-- Matrix `c` of the hard-coded R1CS of `TestZkFromHardcodedR1CS`. -/
def hardcodedC : List (List (FP smallModulus)) :=
  [[0, 0, 0, 1, 0, 0], [0, 0, 0, 0, 1, 0], [0, 0, 0, 0, 0, 1], [0, 1, 0, 0, 0, 0]]

/-- Witness `[1, 35, 3, 9, 27, 30]` of scenario S1. -/
def hardcodedW : List (FP smallModulus) := [1, 35, 3, 9, 27, 30]

/-- The circuit of the flat code `func test(x, y): out = x - y`. -/
def subCircuit : circuitcompiler.Circuit :=
  { NVars := 4
    NPublic := 1
    NSignals := 4
    Inputs := ["x", "y"]
    Signals := ["one", "out", "x", "y"]
    Constraints := [
      { Op := "in", V1 := "", V2 := "", Out := "x" },
      { Op := "in", V1 := "", V2 := "", Out := "y" },
      { Op := "-", V1 := "x", V2 := "y", Out := "out" }] }

namespace circuitcompiler

/-- Column `idx(v)` of a signal name in `Signals`. -/
def idx (signals : List String) (v : String) : Nat := (indexInArray signals v).toNat

/-- Row update `X[k, idx(v)] += delta` of the row rules, where an operand
that is a decimal literal adds its integer value to column 0 instead. -/
def addOperand (row : List Int) (signals : List String) (v : String) (delta : Int) : List Int :=
  if (isValue v).1 then row.set 0 (row.getD 0 0 + (isValue v).2)
  else row.set (idx signals v) (row.getD (idx signals v) 0 + delta)

/-- The per-constraint row rules as the specification words them, starting
from all-zero rows of `A`, `B`, `C`; an op outside the table leaves the
rows zero. -/
def specRowRule (signals : List String) (con : Constraint) :
    List Int × List Int × List Int :=
  let zero : List Int := List.replicate signals.length 0
  if con.Op = "+" then
    (addOperand (addOperand zero signals con.V1 1) signals con.V2 1,
     zero.set 0 1, zero.set (idx signals con.Out) 1)
  else if con.Op = "-" then
    (addOperand (addOperand zero signals con.V1 (-1)) signals con.V2 (-1),
     zero.set 0 1, zero.set (idx signals con.Out) 1)
  else if con.Op = "*" then
    (addOperand zero signals con.V1 1, addOperand zero signals con.V2 1,
     zero.set (idx signals con.Out) 1)
  else if con.Op = "/" then
    (zero, addOperand zero signals con.V2 1,
     (addOperand zero signals con.V1 1).set (idx signals con.Out) 1)
  else (zero, zero, zero)

end circuitcompiler

/-- The circuit of scenario S1: `aux = x*x; y = aux*x; z = x + y;
out = z + 5` with input `x`. -/
def circuitS1 : circuitcompiler.Circuit :=
  { NVars := 6
    NPublic := 1
    NSignals := 6
    Inputs := ["x"]
    Signals := ["one", "out", "x", "aux", "y", "z"]
    Constraints := [
      { Op := "in", V1 := "", V2 := "", Out := "x" },
      { Op := "*", V1 := "x", V2 := "x", Out := "aux" },
      { Op := "*", V1 := "aux", V2 := "x", Out := "y" },
      { Op := "+", V1 := "x", V2 := "y", Out := "z" },
      { Op := "+", V1 := "z", V2 := "5", Out := "out" }] }

/-- The circuit of the flat code `func test(x, y): out = x / y`. -/
def divCircuit : circuitcompiler.Circuit :=
  { NVars := 4
    NPublic := 1
    NSignals := 4
    Inputs := ["x", "y"]
    Signals := ["one", "out", "x", "y"]
    Constraints := [
      { Op := "in", V1 := "", V2 := "", Out := "x" },
      { Op := "in", V1 := "", V2 := "", Out := "y" },
      { Op := "/", V1 := "x", V2 := "y", Out := "out" }] }

/-- A circuit with two public signals and one input: `NPublic = 2`,
`Signals = [one, out1, out2, x]`. -/
def twoPublicCircuit : circuitcompiler.Circuit :=
  { NVars := 4
    NPublic := 2
    NSignals := 4
    Inputs := ["x"]
    Signals := ["one", "out1", "out2", "x"]
    Constraints := [{ Op := "in", V1 := "", V2 := "", Out := "x" }] }

/-- A circuit with no public signal and one input: `NPublic = 0`,
`Signals = [one, x]`. -/
def noPublicCircuit : circuitcompiler.Circuit :=
  { NVars := 2
    NPublic := 0
    NSignals := 2
    Inputs := ["x"]
    Signals := ["one", "x"]
    Constraints := [{ Op := "in", V1 := "", V2 := "", Out := "x" }] }

/-- A circuit whose only constraint reads its own output: `x = x + x`. -/
def selfRefCircuit : circuitcompiler.Circuit :=
  { NVars := 2
    NPublic := 1
    NSignals := 2
    Signals := ["one", "x"]
    Constraints := [{ Op := "+", V1 := "x", V2 := "x", Out := "x" }] }

/-- A circuit in which two constraints name the output `a`, the first of
them reading the signal `b` that nothing sets. -/
def lateDoubleCircuit : circuitcompiler.Circuit :=
  { NVars := 3
    NPublic := 1
    NSignals := 3
    Signals := ["one", "a", "b"]
    Constraints := [
      { Op := "+", V1 := "b", V2 := "1", Out := "a" },
      { Op := "+", V1 := "1", V2 := "1", Out := "a" }] }

/-- A circuit in which the input declaration and a later constraint both
name the output `x`. -/
def doubleOutCircuit : circuitcompiler.Circuit :=
  { NVars := 3
    NPublic := 1
    NSignals := 3
    Inputs := ["x"]
    Signals := ["one", "out", "x"]
    Constraints := [
      { Op := "in", V1 := "", V2 := "", Out := "x" },
      { Op := "+", V1 := "1", V2 := "1", Out := "x" }] }

namespace circuitcompiler

/-- Value denoted by an operand of a constraint: a decimal literal denotes
its integer, a symbolic operand the current entry `w[idx(operand)]`. -/
def operandValue (signals : List String) (w : List Int) (v : String) : Int :=
  if (isValue v).1 then (isValue v).2 else w.getD (idx signals v) 0

/-- Exact integer result `value(v1) op value(v2)` for the ops `+`, `-`, `*`. -/
def opResult (op : String) (x y : Int) : Int :=
  if op = "+" then x + y else if op = "-" then x - y else x * y

end circuitcompiler

/-- Matrix `a` of `TestTranspose`: four rows, six columns. -/
def transposeTestMatrix : List (List (FP Modulus381)) :=
  [[0, 1, 0, 0, 0, 0],
   [0, 0, 0, 1, 0, 0],
   [0, 1, 0, 0, 1, 0],
   [5, 0, 0, 0, 0, 1]]

/-- Expected result of `TestTranspose`: six rows, four columns. -/
def transposeTestExpected : List (List (FP Modulus381)) :=
  [[0, 0, 0, 5],
   [1, 0, 1, 0],
   [0, 0, 0, 0],
   [0, 1, 0, 0],
   [0, 0, 1, 0],
   [0, 0, 0, 1]]

namespace snark

/-- The package `bn128` is not among the sources.  Its two curve groups, the
target group, the generators, the group operations and the pairing are the
fields of this record, so that every statement about `snark.go` holds for
whatever they are.  Scalars are the field elements `Fq` works on. -/
structure Bn128 (p : Nat) where
  /-- Points of `Bn.G1`. -/
  G1 : Type
  /-- Points of `Bn.G2`. -/
  G2 : Type
  /-- Elements of `Bn.Fq12`, the values of the pairing. -/
  GT : Type
  /-- Order `Bn.R`, handed to `NewFq` by `prepareUtils`. -/
  R : Nat
  /-- Generator `Bn.G1.G`. -/
  G1G : G1
  /-- Generator `Bn.G2.G`. -/
  G2G : G2
  /-- The point `[F.Zero(), F.Zero(), F.Zero()]` the sums in `G1` start from. -/
  G1Zero : G1
  /-- The point `Bn.Fq6.Zero()` the sum in `G2` starts from. -/
  G2Zero : G2
  /-- `Bn.G1.Add`. -/
  G1Add : G1 → G1 → G1
  /-- `Bn.G2.Add`. -/
  G2Add : G2 → G2 → G2
  /-- `Bn.G1.MulScalar`. -/
  G1MulScalar : G1 → FP p → G1
  /-- `Bn.G2.MulScalar`. -/
  G2MulScalar : G2 → FP p → G2
  /-- `Bn.G1.Affine`. -/
  G1Affine : G1 → G1
  /-- `Bn.Fq2.Equal`, as applied to two affine points of `G1`. -/
  Fq2Equal : G1 → G1 → Bool
  /-- `Bn.Pairing`. -/
  Pairing : G1 → G2 → GT
  /-- `Bn.Fq12.Mul`. -/
  Fq12Mul : GT → GT → GT
  /-- `Bn.Fq12.Equal`. -/
  Fq12Equal : GT → GT → Bool

/-- The record `utils`. -/
structure utils (p : Nat) where
  Bn : Bn128 p
  FqR : Fq
  PF : PolynomialField

/-- `prepareUtils`, for a given result of `bn128.NewBn128()`. -/
def prepareUtils {p : Nat} (bn : Bn128 p) : utils p :=
  let fqR := NewFq bn.R
  let pf := NewPolynomialField fqR
  { Bn := bn, FqR := fqR, PF := pf }

/-- The sub-record `Setup.Toxic`. -/
structure Toxic (p : Nat) where
  T : FP p
  Ka : FP p
  Kb : FP p
  Kc : FP p
  Kbeta : FP p
  Kgamma : FP p
  RhoA : FP p
  RhoB : FP p
  RhoC : FP p

/-- The sub-record `Setup.Pk`. -/
structure Pk {p : Nat} (bn : Bn128 p) where
  A : List bn.G1 := []
  B : List bn.G2 := []
  C : List bn.G1 := []
  Kp : List bn.G1 := []
  Ap : List bn.G1 := []
  Bp : List bn.G1 := []
  Cp : List bn.G1 := []

/-- The sub-record `Setup.Vk`. -/
structure Vk {p : Nat} (bn : Bn128 p) where
  Vka : bn.G2
  Vkb : bn.G1
  Vkc : bn.G2
  A : List bn.G1
  G1Kbg : bn.G1
  G2Kbg : bn.G2
  G2Kg : bn.G2
  Vkz : bn.G2

/-- The record `Setup`. -/
structure Setup {p : Nat} (bn : Bn128 p) where
  Toxic : Toxic p
  G1T : List bn.G1
  G2T : List bn.G2
  Pk : Pk bn
  Vk : Vk bn

/-- The record `Proof`. -/
structure Proof {p : Nat} (bn : Bn128 p) where
  PiA : bn.G1
  PiAp : bn.G1
  PiB : bn.G2
  PiBp : bn.G1
  PiC : bn.G1
  PiCp : bn.G1
  PiH : bn.G1
  PiKp : bn.G1
  PublicSignals : List (FP p)

/-- The eight values `GenerateTrustedSetup` draws with `Utils.FqR.Rand()`, in
the order of the calls.  `Fq.Rand` always returns a nil error, so the draws
are an argument of the model and the error returns are never taken. -/
structure Samples (p : Nat) where
  t : FP p
  ka : FP p
  kb : FP p
  kc : FP p
  kbeta : FP p
  kgamma : FP p
  rhoA : FP p
  rhoB : FP p

end snark

namespace snark

/-- The first loop of `GenerateTrustedSetup`: `gt1` and `gt2` collect the
generators multiplied by `Exp(T, i)` for `i < witnessLength`. -/
def encryptPowers {p : Nat} (bn : Bn128 p) (T : FP p) (witnessLength : Int) :
    List bn.G1 × List bn.G2 :=
  (List.range witnessLength.toNat).foldl (fun (gt : List bn.G1 × List bn.G2) i =>
    let tPow := (prepareUtils bn).FqR.Exp T i
    let tEncr1 := bn.G1MulScalar bn.G1G tPow
    let gt1 := gt.1 ++ [tEncr1]
    let tEncr2 := bn.G2MulScalar bn.G2G tPow
    let gt2 := gt.2 ++ [tEncr2]
    (gt1, gt2)) ([], [])

/-- Body of the loop `for i := 0; i < circuit.NVars; i++` of
`GenerateTrustedSetup`; the state is `setup.Pk` and `setup.Vk.A`.  A failed
check `Fq2.Equal(k, ktest)` ends the process with `os.Exit(1)`. -/
def keyStep {p : Nat} (bn : Bn128 p) (circuit : circuitcompiler.Circuit) (tox : Toxic p)
    (alphas betas gammas : List (List (FP p))) (st : Pk bn × List bn.G1) (i : Nat) :
    Except Fault (Pk bn × List bn.G1) := do
  let pk := st.1
  let vkA := st.2
  let alphai ← r1csqap.index alphas (Int.ofNat i)
  let aT := (prepareUtils bn).PF.Eval alphai tox.T
  let a := bn.G1MulScalar bn.G1G aT
  let pkA := pk.A ++ [a]
  let vkA := if Int.ofNat i ≤ circuit.NPublic then vkA ++ [a] else vkA
  let betai ← r1csqap.index betas (Int.ofNat i)
  let bT := (prepareUtils bn).PF.Eval betai tox.T
  let bg1 := bn.G1MulScalar bn.G1G bT
  let bg2 := bn.G2MulScalar bn.G2G bT
  let pkB := pk.B ++ [bg2]
  let gammai ← r1csqap.index gammas (Int.ofNat i)
  let cT := (prepareUtils bn).PF.Eval gammai tox.T
  let c := bn.G1MulScalar bn.G1G cT
  let pkC := pk.C ++ [c]
  let kt := (prepareUtils bn).FqR.Add ((prepareUtils bn).FqR.Add aT bT) cT
  let k := bn.G1Affine (bn.G1MulScalar bn.G1G kt)
  let ktest := bn.G1Affine (bn.G1Add (bn.G1Add a bg1) c)
  if !bn.Fq2Equal k ktest then .error .processExit
  else
    let pkAp := pk.Ap ++ [bn.G1MulScalar a tox.Ka]
    let pkBp := pk.Bp ++ [bn.G1MulScalar bg1 tox.Kb]
    let pkCp := pk.Cp ++ [bn.G1MulScalar c tox.Kc]
    let k_ := bn.G1MulScalar bn.G1G kt
    let pkKp := pk.Kp ++ [bn.G1MulScalar k_ tox.Kbeta]
    return ({ A := pkA, B := pkB, C := pkC, Kp := pkKp, Ap := pkAp, Bp := pkBp, Cp := pkCp }, vkA)

/-- `GenerateTrustedSetup`.  The polynomials are sequences of the field
elements that `r1csqap` produces; `s` holds the eight random draws.  The
result is the `Setup` returned with a nil error, or the panic or exit
raised. -/
def GenerateTrustedSetup {p : Nat} (bn : Bn128 p) (s : Samples p) (witnessLength : Int)
    (circuit : circuitcompiler.Circuit) (alphas betas gammas : List (List (FP p)))
    (zx : List (FP p)) : Except Fault (Setup bn) := do
  let tox : Toxic p :=
    { T := s.t, Ka := s.ka, Kb := s.kb, Kc := s.kc, Kbeta := s.kbeta, Kgamma := s.kgamma,
      RhoA := s.rhoA, RhoB := s.rhoB, RhoC := (prepareUtils bn).FqR.Mul s.rhoA s.rhoB }
  let gt := encryptPowers bn tox.T witnessLength
  let vka := bn.G2MulScalar bn.G2G tox.Ka
  let vkb := bn.G1MulScalar bn.G1G tox.Kb
  let vkc := bn.G2MulScalar bn.G2G tox.Kc
  let kbg := (prepareUtils bn).FqR.Mul tox.Kbeta tox.Kgamma
  let g1Kbg := bn.G1MulScalar bn.G1G kbg
  let g2Kbg := bn.G2MulScalar bn.G2G kbg
  let g2Kg := bn.G2MulScalar bn.G2G tox.Kgamma
  let keys ← (List.range circuit.NVars.toNat).foldlM
    (keyStep bn circuit tox alphas betas gammas) ({}, [])
  let vkz := bn.G2MulScalar bn.G2G ((prepareUtils bn).PF.Eval zx tox.T)
  return { Toxic := tox, G1T := gt.1, G2T := gt.2, Pk := keys.1,
           Vk := { Vka := vka, Vkb := vkb, Vkc := vkc, A := keys.2, G1Kbg := g1Kbg,
                   G2Kbg := g2Kbg, G2Kg := g2Kg, Vkz := vkz } }

/-- The slice expression `w[1:2]`, with the capacity of `w` taken to be its
length. -/
def sliceOneTwo {α : Type} (w : List α) : Except Fault (List α) :=
  if 2 ≤ w.length then .ok ((w.drop 1).take 1) else .error .indexOutOfRange

/-- `GenerateProofs`: the `Proof` returned with a nil error, or the panic
raised. -/
def GenerateProofs {p : Nat} (bn : Bn128 p) (circuit : circuitcompiler.Circuit)
    (setup : Setup bn) (hx w : List (FP p)) : Except Fault (Proof bn) := do
  let first := circuit.NPublic + 1
  let pA ← (List.range (circuit.NVars - first).toNat).foldlM
    (fun (acc : bn.G1 × bn.G1) k => do
      let i := first + Int.ofNat k
      let pkAi ← r1csqap.index setup.Pk.A i
      let wi ← r1csqap.index w i
      let piA := bn.G1Add acc.1 (bn.G1MulScalar pkAi wi)
      let pkApi ← r1csqap.index setup.Pk.Ap i
      let piAp := bn.G1Add acc.2 (bn.G1MulScalar pkApi wi)
      return (piA, piAp)) (bn.G1Zero, bn.G1Zero)
  let pB ← (List.range circuit.NVars.toNat).foldlM
    (fun (acc : bn.G2 × bn.G1 × bn.G1 × bn.G1 × bn.G1) i => do
      let pkBi ← r1csqap.index setup.Pk.B (Int.ofNat i)
      let wi ← r1csqap.index w (Int.ofNat i)
      let piB := bn.G2Add acc.1 (bn.G2MulScalar pkBi wi)
      let pkBpi ← r1csqap.index setup.Pk.Bp (Int.ofNat i)
      let piBp := bn.G1Add acc.2.1 (bn.G1MulScalar pkBpi wi)
      let pkCi ← r1csqap.index setup.Pk.C (Int.ofNat i)
      let piC := bn.G1Add acc.2.2.1 (bn.G1MulScalar pkCi wi)
      let pkCpi ← r1csqap.index setup.Pk.Cp (Int.ofNat i)
      let piCp := bn.G1Add acc.2.2.2.1 (bn.G1MulScalar pkCpi wi)
      let pkKpi ← r1csqap.index setup.Pk.Kp (Int.ofNat i)
      let piKp := bn.G1Add acc.2.2.2.2 (bn.G1MulScalar pkKpi wi)
      return (piB, piBp, piC, piCp, piKp))
    (bn.G2Zero, bn.G1Zero, bn.G1Zero, bn.G1Zero, bn.G1Zero)
  let piH ← (List.range hx.length).foldlM
    (fun (acc : bn.G1) i => do
      let g1Ti ← r1csqap.index setup.G1T (Int.ofNat i)
      return bn.G1Add acc (bn.G1MulScalar g1Ti (hx.getD i 0))) bn.G1Zero
  let publicSignals ← sliceOneTwo w
  return { PiA := pA.1, PiAp := pA.2, PiB := pB.1, PiBp := pB.2.1, PiC := pB.2.2.1,
           PiCp := pB.2.2.2.1, PiH := piH, PiKp := pB.2.2.2.2,
           PublicSignals := publicSignals }

/-- The loop of `VerifyProof` that adds the public signals to `Vk.A[0]`. -/
def vkxLoop {p : Nat} (bn : Bn128 p) (setup : Setup bn) (proof : Proof bn) :
    Except Fault bn.G1 := do
  let vkA0 ← r1csqap.index setup.Vk.A 0
  (List.range proof.PublicSignals.length).foldlM
    (fun (vkxpia : bn.G1) i => do
      let vkAi ← r1csqap.index setup.Vk.A (Int.ofNat i + 1)
      return bn.G1Add vkxpia (bn.G1MulScalar vkAi (proof.PublicSignals.getD i 0))) vkA0

/-- `VerifyProof`: the boolean returned, or the panic raised.  The lines
printed under `printVer` are not part of the result. -/
def VerifyProof {p : Nat} (bn : Bn128 p) (_circuit : circuitcompiler.Circuit)
    (setup : Setup bn) (proof : Proof bn) (_printVer : Bool) : Except Fault Bool :=
  let pairingPiaVa := bn.Pairing proof.PiA setup.Vk.Vka
  let pairingPiapG2 := bn.Pairing proof.PiAp bn.G2G
  if !bn.Fq12Equal pairingPiaVa pairingPiapG2 then .ok false
  else
    let pairingVbPib := bn.Pairing setup.Vk.Vkb proof.PiB
    let pairingPibpG2 := bn.Pairing proof.PiBp bn.G2G
    if !bn.Fq12Equal pairingVbPib pairingPibpG2 then .ok false
    else
      let pairingPicVc := bn.Pairing proof.PiC setup.Vk.Vkc
      let pairingPicpG2 := bn.Pairing proof.PiCp bn.G2G
      if !bn.Fq12Equal pairingPicVc pairingPicpG2 then .ok false
      else do
        let vkxpia ← vkxLoop bn setup proof
        if !bn.Fq12Equal
            (bn.Pairing (bn.G1Add vkxpia proof.PiA) proof.PiB)
            (bn.Fq12Mul (bn.Pairing proof.PiH setup.Vk.Vkz)
              (bn.Pairing proof.PiC bn.G2G)) then return false
        else
          let piApiC := bn.G1Add (bn.G1Add vkxpia proof.PiA) proof.PiC
          let pairingPiACG2Kbg := bn.Pairing piApiC setup.Vk.G2Kbg
          let pairingG1KbgPiB := bn.Pairing setup.Vk.G1Kbg proof.PiB
          let pairingL := bn.Fq12Mul pairingPiACG2Kbg pairingG1KbgPiB
          let pairingR := bn.Pairing proof.PiKp setup.Vk.G2Kg
          if !bn.Fq12Equal pairingL pairingR then return false
          else return true

end snark

namespace snark

/-- A bilinear group written by discrete logarithms: a point is its
logarithm to the generator, so both generators are `1`, adding points adds
logarithms, a scalar multiple multiplies the logarithm, the pairing
multiplies the two logarithms and the product in the target group adds
them. -/
@[reducible]
def exponentGroup (p : Nat) : Bn128 p :=
  { G1 := FP p
    G2 := FP p
    GT := FP p
    R := p
    G1G := 1
    G2G := 1
    G1Zero := 0
    G2Zero := 0
    G1Add := fun a b => a + b
    G2Add := fun a b => a + b
    G1MulScalar := fun a k => a * k
    G2MulScalar := fun a k => a * k
    G1Affine := fun a => a
    Fq2Equal := fun a b => decide (a = b)
    Pairing := fun a b => a * b
    Fq12Mul := fun a b => a + b
    Fq12Equal := fun a b => decide (a = b) }

/-- The steps of `TestZkMultiplication` and `TestZkFromFlatCircuitCode`
after parsing: witness, R1CS, QAP, combined polynomials, divisor polynomial,
trusted setup, proof, verification.  The `big.Int` values of the circuit
compiler enter the field through `NewFPint`.  A non-nil error of
`CalculateWitness` ends the test before the proof system runs, which the
model records as `none`. -/
def proveAndVerify {p : Nat} (bn : Bn128 p) (s : Samples p)
    (circuit : circuitcompiler.Circuit) (inputs : List Int) : Except Fault (Option Bool) := do
  let wr ← circuit.CalculateWitness inputs
  match wr.2 with
  | some _ => return none
  | none =>
    let w := wr.1.map (NewFPint p)
    let abc ← circuit.GenerateR1CS
    let a := abc.1.map fun row => row.map (NewFPint p)
    let b := abc.2.1.map fun row => row.map (NewFPint p)
    let c := abc.2.2.map fun row => row.map (NewFPint p)
    let qap ← (prepareUtils bn).PF.R1CSToQAP a b c
    let alphas := qap.1
    let betas := qap.2.1
    let gammas := qap.2.2.1
    let zx := qap.2.2.2
    let comb ← (prepareUtils bn).PF.CombinePolynomials w alphas betas gammas
    let px := comb.2.2.2
    let hx ← (prepareUtils bn).PF.DivisorPolynomial px zx
    let setup ← GenerateTrustedSetup bn s (Int.ofNat w.length) circuit alphas betas gammas zx
    let proof ← GenerateProofs bn circuit setup hx w
    let ok ← VerifyProof bn circuit setup proof false
    return some ok

end snark

/-- The circuit of scenario S2: `func test(a, b): out = a * b`. -/
def circuitS2 : circuitcompiler.Circuit :=
  { NVars := 4
    NPublic := 1
    NSignals := 4
    Inputs := ["a", "b"]
    Signals := ["one", "out", "a", "b"]
    Constraints := [
      { Op := "in", V1 := "", V2 := "", Out := "a" },
      { Op := "in", V1 := "", V2 := "", Out := "b" },
      { Op := "*", V1 := "a", V2 := "b", Out := "out" }] }

/-- Toxic-waste draws used in the worked examples: `t = 2` and pairwise
different small values for the other seven. -/
def sampleDraws (p : Nat) : snark.Samples p :=
  { t := 2, ka := 3, kb := 5, kc := 7, kbeta := 11, kgamma := 13, rhoA := 17, rhoB := 19 }

/-- The point `Vkx` in the spec's words: `Vk.A[0]` plus the sum over `j` of
`PublicSignals[j] · Vk.A[j+1]`, added from the left in the order of `j`. -/
def snark.specVkx {p : Nat} (bn : snark.Bn128 p) (setup : snark.Setup bn)
    (proof : snark.Proof bn) : bn.G1 :=
  (List.range proof.PublicSignals.length).foldl
    (fun acc j => bn.G1Add acc
      (bn.G1MulScalar (setup.Vk.A.getD (j + 1) bn.G1Zero) (proof.PublicSignals.getD j 0)))
    (setup.Vk.A.getD 0 bn.G1Zero)

/-- A setup over the logarithm group with verification key `A = [2, 3]`, and
a proof built to satisfy the five equations of `VerifyProof` with the public
signal `4`: `Vkx = 2 + 3 · 4 = 14`. -/
def verifierSetup : snark.Setup (snark.exponentGroup smallModulus) :=
  { Toxic := { T := 0, Ka := 0, Kb := 0, Kc := 0, Kbeta := 0, Kgamma := 0,
               RhoA := 0, RhoB := 0, RhoC := 0 }
    G1T := []
    G2T := []
    Pk := {}
    Vk := { Vka := 3, Vkb := 5, Vkc := 7, A := [2, 3], G1Kbg := 11, G2Kbg := 11,
            G2Kg := 13, Vkz := 6 } }

/-- A proof accepted by `VerifyProof` under `verifierSetup`. -/
def verifierProof : snark.Proof (snark.exponentGroup smallModulus) :=
  { PiA := 1, PiAp := 3, PiB := 2, PiBp := 10, PiC := 6, PiCp := 42, PiH := 4, PiKp := 35,
    PublicSignals := [4] }

/-- A setup over the logarithm group with four entries in every list of the
proving key, as `twoPublicCircuit` (`NVars = 4`) needs. -/
def twoPublicSetup : snark.Setup (snark.exponentGroup Modulus381) :=
  { Toxic := { T := 0, Ka := 0, Kb := 0, Kc := 0, Kbeta := 0, Kgamma := 0,
               RhoA := 0, RhoB := 0, RhoC := 0 }
    G1T := []
    G2T := []
    Pk := { A := [1, 1, 1, 1], B := [1, 1, 1, 1], C := [1, 1, 1, 1], Kp := [1, 1, 1, 1],
            Ap := [1, 1, 1, 1], Bp := [1, 1, 1, 1], Cp := [1, 1, 1, 1] }
    Vk := { Vka := 0, Vkb := 0, Vkc := 0, A := [1, 1, 1], G1Kbg := 0, G2Kbg := 0,
            G2Kg := 0, Vkz := 0 } }

/-- The proof `GenerateProofs` returns for `twoPublicCircuit`,
`twoPublicSetup`, `hx = []` and the witness `[1, 7, 8, 9]`. -/
def twoPublicProof : snark.Proof (snark.exponentGroup Modulus381) :=
  { PiA := 9, PiAp := 9, PiB := 25, PiBp := 25, PiC := 25, PiCp := 25, PiH := 0, PiKp := 25,
    PublicSignals := [7] }

/-- The setup `GenerateTrustedSetup` returns for scenario S2 over the
logarithm group modulo 101 with the draws `sampleDraws`. -/
def setupS2 : snark.Setup (snark.exponentGroup smallModulus) :=
  { Toxic := { T := 2, Ka := 3, Kb := 5, Kc := 7, Kbeta := 11, Kgamma := 13,
               RhoA := 17, RhoB := 19, RhoC := 20 }
    G1T := [2, 2, 2, 2]
    G2T := [2, 2, 2, 2]
    Pk := { A := [0, 0, 2, 0], B := [0, 0, 0, 2], C := [0, 2, 0, 0], Kp := [0, 22, 22, 22],
            Ap := [0, 0, 6, 0], Bp := [0, 0, 0, 10], Cp := [0, 14, 0, 0] }
    Vk := { Vka := 3, Vkb := 5, Vkc := 7, A := [0, 0], G1Kbg := 42, G2Kbg := 42,
            G2Kg := 13, Vkz := 0 } }

namespace r1csqap

/-- The loop of `Div` with a log added: every run of the loop body appends
the entry `(pos, len(Mul(b, aux1)), len(rem))`, with `rem` as it is when the
body starts.  Everything else is the loop of `PolynomialField.DivLoop`. -/
def PolynomialField.DivLoopLog {p : Nat} (pf : PolynomialField) (b : List (FP p)) :
    Nat → List (FP p) → List (FP p) → List (Nat × Nat × Nat) →
      Except Fault (List (FP p) × List (FP p) × List (Nat × Nat × Nat))
  | 0, _, _, _ => .error .fuelExhausted
  | fuel + 1, r, rem, log =>
    if rem.length ≥ b.length then do
      let remTop ← index rem ((rem.length : Int) - 1)
      let bTop ← index b ((b.length : Int) - 1)
      let l := pf.F.Div remTop bTop
      let pos := rem.length - b.length
      if pos ≥ r.length then .error .indexOutOfRange
      else
        let r := r.set pos l
        let aux := ArrayOfBigZeros p pos
        let aux1 := aux ++ [l]
        let prod := pf.Mul b aux1
        let aux2 := pf.Sub rem prod
        if aux2.length = 0 then .error .indexOutOfRange
        else
          let log := log ++ [(pos, prod.length, rem.length)]
          let rem := aux2.take (aux2.length - 1)
          PolynomialField.DivLoopLog pf b fuel r rem log
    else .ok (r, rem, log)

/-- `PolynomialField.Div` with the log of its loop. -/
def PolynomialField.DivLog {p : Nat} (pf : PolynomialField) (a b : List (FP p)) :
    Except Fault (List (FP p) × List (FP p) × List (Nat × Nat × Nat)) :=
  let r := ArrayOfBigZeros p ((a.length : Int) - (b.length : Int) + 1)
  let rem := a
  pf.DivLoopLog b (a.length + 1) r rem []

end r1csqap

/-! ## Field layer -/

section FieldLayer

variable {p : Nat}

theorem BLS381.nbitsLoop_spec : ∀ (fuel c : Nat), c ≤ fuel → c < 2 ^ nbitsLoop fuel c := by
  intro fuel
  induction fuel with
  | zero =>
    intro c hc
    have : c = 0 := by omega
    subst this
    simp [nbitsLoop]
  | succ n ih =>
    intro c hc
    unfold nbitsLoop
    by_cases h0 : c = 0
    · simp [h0]
    · simp only [h0, if_false]
      have h1 : c / 2 ≤ n := by omega
      have h2 := ih (c / 2) h1
      rw [pow_succ]
      omega

theorem BLS381.lt_two_pow_nbits (e : Nat) : e < 2 ^ nbits e :=
  BLS381.nbitsLoop_spec e e le_rfl

theorem BLS381.powWindows_length : ∀ (nb t : Nat), (powWindows nb t).length = nb := by
  intro nb
  induction nb with
  | zero => intro t; simp [powWindows]
  | succ n ih => intro t; simp [powWindows, ih]

theorem BLS381.powWindows_getD_lt : ∀ (nb t i : Nat), (powWindows nb t).getD i 0 < 16 := by
  intro nb
  induction nb with
  | zero => intro t i; simp [powWindows]
  | succ n ih =>
    intro t i
    cases i with
    | zero => simp only [powWindows, List.getD_cons_zero]; omega
    | succ j => simp only [powWindows, List.getD_cons_succ]; exact ih _ j

theorem BLS381.powWindows_sum : ∀ (nb t : Nat),
    (∑ i in Finset.range nb, (powWindows nb t).getD i 0 * 16 ^ i) = t % 16 ^ nb := by
  intro nb
  induction nb with
  | zero => intro t; simp [Nat.mod_one]
  | succ n ih =>
    intro t
    rw [Finset.sum_range_succ']
    simp only [powWindows, List.getD_cons_succ, List.getD_cons_zero, pow_zero, mul_one]
    have h16 : (t - t % 16) / 16 = t / 16 := by omega
    rw [h16]
    have hstep : ∀ i, (powWindows n (t / 16)).getD i 0 * 16 ^ (i + 1)
        = 16 * ((powWindows n (t / 16)).getD i 0 * 16 ^ i) := by
      intro i; ring
    simp only [hstep]
    rw [← Finset.mul_sum, ih (t / 16), pow_succ', Nat.mod_mul]
    ring

theorem BLS381.powTable_eq (F : FP p) :
    powTable F = [1, F, F ^ 2, F ^ 3, F ^ 4, F ^ 5, F ^ 6, F ^ 7, F ^ 8, F ^ 9, F ^ 10,
      F ^ 11, F ^ 12, F ^ 13, F ^ 14, F ^ 15] := by
  simp only [powTable, NewFPint, NewFPcopy, FP.Mul, List.range_succ, List.range_zero,
    List.nil_append, List.cons_append, List.foldl_cons, List.foldl_nil, List.getD_cons_succ,
    List.getD_cons_zero, Int.cast_one, List.append_assoc]
  simp only [pow_succ, pow_zero, one_mul]

theorem BLS381.powTable_getD (F : FP p) (d : Nat) (hd : d < 16) :
    (powTable F).getD d 0 = F ^ d := by
  rw [BLS381.powTable_eq]
  interval_cases d <;> simp

theorem BLS381.pow_fold (F : FP p) (w : List Nat) (hw : ∀ i, w.getD i 0 < 16) :
    ∀ (k : Nat) (r : FP p),
      ((List.range k).reverse).foldl
        (fun r i => FP.Mul (FP.sqr (FP.sqr (FP.sqr (FP.sqr r))))
          ((powTable F).getD (w.getD i 0) 0)) r
      = r ^ (16 ^ k) * F ^ (∑ i in Finset.range k, w.getD i 0 * 16 ^ i) := by
  intro k
  induction k with
  | zero => intro r; simp
  | succ n ih =>
    intro r
    rw [List.range_succ, List.reverse_append, List.reverse_singleton, List.singleton_append,
      List.foldl_cons, ih, BLS381.powTable_getD F _ (hw n), Finset.sum_range_succ]
    simp only [FP.Mul, FP.sqr]
    have key : r * r * (r * r) * (r * r * (r * r)) * (r * r * (r * r) * (r * r * (r * r)))
        = r ^ 16 := by ring
    rw [key, mul_pow, ← pow_mul, ← pow_mul, pow_succ' 16 n]
    ring

/-- The windowed exponentiation `FP.Pow` computes the power `F ^ e`. -/
theorem BLS381.FP.Pow_eq (F : FP p) (e : Nat) : FP.Pow F e = F ^ e := by
  unfold FP.Pow
  simp only [FP.norm, FP.reduce, NewFPcopy]
  set nb := 1 + (nbits e + 3) / 4 with hnb
  have hw := BLS381.powWindows_getD_lt nb e
  rw [BLS381.pow_fold F (powWindows nb e) hw, BLS381.powTable_getD F _ (hw _), ← pow_mul,
    ← pow_add]
  congr 1
  have hsum := BLS381.powWindows_sum nb e
  have hnb1 : nb = (nb - 1) + 1 := by omega
  rw [hnb1, Finset.sum_range_succ] at hsum
  have hlt : e < 16 ^ nb := by
    have h1 := BLS381.lt_two_pow_nbits e
    have h2 : (16 : Nat) ^ nb = 2 ^ (4 * nb) := by
      rw [pow_mul]; norm_num
    rw [h2]
    refine lt_of_lt_of_le h1 (Nat.pow_le_pow_right (by norm_num) ?_)
    omega
  rw [Nat.mod_eq_of_lt (by rw [← hnb1]; exact hlt)] at hsum
  rw [← hnb1] at hsum
  omega

/-- For a prime modulus, `FP.Inverse` is the field inverse of a non-zero
element (Fermat), and it maps zero to zero. -/
theorem BLS381.FP.Inverse_mul (hp : p.Prime) (F : FP p) (hF : F ≠ 0) :
    FP.Inverse F * F = 1 := by
  haveI := Fact.mk hp
  rw [FP.Inverse, BLS381.FP.Pow_eq]
  have h2 : 2 ≤ p := hp.two_le
  have := ZMod.pow_card_sub_one_eq_one hF
  calc F ^ (p - 2) * F = F ^ (p - 2 + 1) := by rw [pow_succ]
    _ = F ^ (p - 1) := by congr 1; omega
    _ = 1 := this

theorem fields.Fq.Div_mul_cancel (hp : p.Prime) (fq : Fq) (a b : FP p) (hb : b ≠ 0) :
    fq.Div a b * b = a := by
  simp only [Fq.Div, Fq.Mul, Fq.Inverse, NewFPcopy, FP.Mul]
  rw [mul_assoc, BLS381.FP.Inverse_mul hp b hb, mul_one]

end FieldLayer

/-! ## Coefficient sequences -/

section PolyLayer

variable {p : Nat}

theorem toPoly_coeff (l : List (FP p)) (i : Nat) : (toPoly l).coeff i = l.getD i 0 := by
  simp [toPoly, Polynomial.coeff]

theorem toPoly_eq_iff (l1 l2 : List (FP p)) :
    toPoly l1 = toPoly l2 ↔ ∀ i, l1.getD i 0 = l2.getD i 0 := by
  constructor
  · intro h i
    rw [← toPoly_coeff, ← toPoly_coeff, h]
  · intro h
    ext i
    rw [toPoly_coeff, toPoly_coeff, h]

theorem list_eq_of_getD (l1 l2 : List (FP p)) (hlen : l1.length = l2.length)
    (h : ∀ i, l1.getD i 0 = l2.getD i 0) : l1 = l2 := by
  apply List.ext_get hlen
  intro n h1 h2
  have := h n
  rw [List.getD_eq_getElem _ _ h1, List.getD_eq_getElem _ _ h2] at this
  simpa using this

theorem r1csqap.ArrayOfBigZeros_eq (num : Int) :
    ArrayOfBigZeros p num = List.replicate num.toNat 0 := by
  unfold ArrayOfBigZeros
  simp only [NewFPint, Int.cast_zero]
  generalize num.toNat = n
  induction n with
  | zero => simp
  | succ k ih =>
    rw [List.range_succ, List.foldl_append, ih]
    simp [List.replicate_succ']

theorem r1csqap.ArrayOfBigZeros_length (num : Int) :
    (ArrayOfBigZeros p num).length = num.toNat := by
  simp [r1csqap.ArrayOfBigZeros_eq]

theorem r1csqap.ArrayOfBigZeros_getD (num : Int) (i : Nat) :
    (ArrayOfBigZeros p num).getD i 0 = 0 := by
  rw [r1csqap.ArrayOfBigZeros_eq, List.getD_eq_getElem?_getD]
  by_cases h : i < num.toNat
  · simp [List.getElem?_replicate, h]
  · simp [List.getElem?_replicate, h]

theorem getD_set (r : List (FP p)) (k i : Nat) (v : FP p) :
    (r.set k v).getD i 0 = if i = k ∧ k < r.length then v else r.getD i 0 := by
  simp only [List.getD_eq_getElem?_getD, List.getElem?_set]
  by_cases h : k = i
  · subst h
    by_cases h2 : k < r.length
    · simp [h2]
    · simp [h2]
      rw [List.getElem?_eq_none (by omega)]
      rfl
  · have h' : ¬ i = k := fun e => h e.symm
    simp [h, h']

/-- A loop `for i < n { r[off+i] = g(r[off+i], i) }` changes exactly the
entries `off .. off+n-1`. -/
theorem foldl_set_offset (g : FP p → Nat → FP p) (off : Nat) :
    ∀ (n : Nat) (r : List (FP p)), off + n ≤ r.length →
      ((List.range n).foldl (fun r i => r.set (off + i) (g (r.getD (off + i) 0) i)) r).length
          = r.length ∧
      ∀ i, ((List.range n).foldl
          (fun r i => r.set (off + i) (g (r.getD (off + i) 0) i)) r).getD i 0
        = if off ≤ i ∧ i < off + n then g (r.getD i 0) (i - off) else r.getD i 0 := by
  intro n
  induction n with
  | zero =>
    intro r _
    refine ⟨by simp, ?_⟩
    intro i
    have : ¬ (off ≤ i ∧ i < off + 0) := by omega
    rw [if_neg this]
    rfl
  | succ n ih =>
    intro r hr
    have hr' : off + n ≤ r.length := by omega
    obtain ⟨hlen, hget⟩ := ih r hr'
    rw [List.range_succ, List.foldl_append]
    simp only [List.foldl_cons, List.foldl_nil, List.length_set]
    refine ⟨hlen, ?_⟩
    intro i
    rw [getD_set, hlen, hget, hget]
    by_cases h1 : i = off + n
    · subst h1
      have hA : off + n < r.length := by omega
      have hB : ¬ (off ≤ off + n ∧ off + n < off + n) := by omega
      have hC : off ≤ off + n ∧ off + n < off + (n + 1) := by omega
      simp [hA, hB, hC]
    · by_cases h2 : off ≤ i ∧ i < off + n
      · have hC : off ≤ i ∧ i < off + (n + 1) := by omega
        simp [h1, h2, hC]
      · have hC : ¬ (off ≤ i ∧ i < off + (n + 1)) := by omega
        simp [h1, h2, hC]

end PolyLayer

section PolyOps

variable {p : Nat}

theorem foldl_set_zero (g : FP p → Nat → FP p) (n : Nat) (r : List (FP p)) (hn : n ≤ r.length) :
    ((List.range n).foldl (fun r i => r.set i (g (r.getD i 0) i)) r).length = r.length ∧
    ∀ i, ((List.range n).foldl (fun r i => r.set i (g (r.getD i 0) i)) r).getD i 0
      = if i < n then g (r.getD i 0) i else r.getD i 0 := by
  have h := foldl_set_offset g 0 n r (by omega)
  simp only [Nat.zero_add, Nat.zero_le, true_and, Nat.sub_zero] at h
  exact h

theorem r1csqap.max_toNat (a b : Nat) : (r1csqap.max (a : Int) (b : Int)).toNat = Nat.max a b := by
  unfold r1csqap.max
  split_ifs with h
  · have : b ≤ a := by omega
    simp [Nat.max_eq_left this]
  · have : a ≤ b := by omega
    simp [Nat.max_eq_right this]

theorem getD_of_le (l : List (FP p)) (i : Nat) (h : l.length ≤ i) : l.getD i 0 = 0 := by
  rw [List.getD_eq_getElem?_getD, List.getElem?_eq_none h]
  rfl

theorem r1csqap.PolynomialField.Add_spec (pf : PolynomialField) (a b : List (FP p)) :
    (pf.Add a b).length = Nat.max a.length b.length ∧
    ∀ i, (pf.Add a b).getD i 0 = a.getD i 0 + b.getD i 0 := by
  unfold PolynomialField.Add
  simp only []
  have h0 : (ArrayOfBigZeros p (r1csqap.max a.length b.length)).length
      = Nat.max a.length b.length := by
    rw [r1csqap.ArrayOfBigZeros_length, r1csqap.max_toNat]
  obtain ⟨h1l, h1g⟩ := foldl_set_zero (fun x i => pf.F.Add x (a.getD i 0)) a.length
    (ArrayOfBigZeros p (r1csqap.max a.length b.length)) (by rw [h0]; exact Nat.le_max_left _ _)
  obtain ⟨h2l, h2g⟩ := foldl_set_zero (fun x i => pf.F.Add x (b.getD i 0)) b.length _
    (by rw [h1l, h0]; exact Nat.le_max_right _ _)
  refine ⟨by rw [h2l, h1l, h0], ?_⟩
  intro i
  rw [h2g i, h1g i, r1csqap.ArrayOfBigZeros_getD]
  simp only [Fq.Add, NewFPcopy, FP.Add]
  by_cases ha : i < a.length <;> by_cases hb : i < b.length
  · simp only [ha, hb, if_true]; ring
  · rw [getD_of_le b i (by omega)]; simp only [ha, hb, if_true, if_false]; ring
  · rw [getD_of_le a i (by omega)]; simp only [ha, hb, if_true, if_false]
    try ring
  · rw [getD_of_le a i (by omega), getD_of_le b i (by omega)]
    simp only [ha, hb, if_false]
    try ring

theorem r1csqap.PolynomialField.Sub_spec (pf : PolynomialField) (a b : List (FP p)) :
    (pf.Sub a b).length = Nat.max a.length b.length ∧
    ∀ i, (pf.Sub a b).getD i 0 = a.getD i 0 - b.getD i 0 := by
  unfold PolynomialField.Sub
  simp only []
  have h0 : (ArrayOfBigZeros p (r1csqap.max a.length b.length)).length
      = Nat.max a.length b.length := by
    rw [r1csqap.ArrayOfBigZeros_length, r1csqap.max_toNat]
  obtain ⟨h1l, h1g⟩ := foldl_set_zero (fun x i => pf.F.Add x (a.getD i 0)) a.length
    (ArrayOfBigZeros p (r1csqap.max a.length b.length)) (by rw [h0]; exact Nat.le_max_left _ _)
  obtain ⟨h2l, h2g⟩ := foldl_set_zero (fun x i => pf.F.Sub x (b.getD i 0)) b.length _
    (by rw [h1l, h0]; exact Nat.le_max_right _ _)
  refine ⟨by rw [h2l, h1l, h0], ?_⟩
  intro i
  rw [h2g i, h1g i, r1csqap.ArrayOfBigZeros_getD]
  simp only [Fq.Add, Fq.Sub, NewFPcopy, FP.Add, FP.Sub, FP.Neg]
  by_cases ha : i < a.length <;> by_cases hb : i < b.length
  · simp only [ha, hb, if_true]; ring
  · rw [getD_of_le b i (by omega)]; simp only [ha, hb, if_true, if_false]; ring
  · rw [getD_of_le a i (by omega)]; simp only [ha, hb, if_true, if_false]
    try ring
  · rw [getD_of_le a i (by omega), getD_of_le b i (by omega)]
    simp only [ha, hb, if_false]
    try ring

theorem r1csqap.PolynomialField.toPoly_Add (pf : PolynomialField) (a b : List (FP p)) :
    toPoly (pf.Add a b) = toPoly a + toPoly b := by
  ext i
  rw [Polynomial.coeff_add, toPoly_coeff, toPoly_coeff, toPoly_coeff,
    (r1csqap.PolynomialField.Add_spec pf a b).2]

theorem r1csqap.PolynomialField.toPoly_Sub (pf : PolynomialField) (a b : List (FP p)) :
    toPoly (pf.Sub a b) = toPoly a - toPoly b := by
  ext i
  rw [Polynomial.coeff_sub, toPoly_coeff, toPoly_coeff, toPoly_coeff,
    (r1csqap.PolynomialField.Sub_spec pf a b).2]

/-- Outer loop of `Mul` after `n` rows: entry `k` has gained the products
`a[i] * b[k-i]` for `i < n`. -/
theorem r1csqap.PolynomialField.Mul_loop (pf : PolynomialField) (a b : List (FP p)) :
    ∀ (n : Nat) (r : List (FP p)), n ≤ a.length → a.length + b.length ≤ r.length + 1 →
      ((List.range n).foldl (fun r i =>
        (List.range b.length).foldl (fun r j =>
          r.set (i + j) (pf.F.Add (r.getD (i + j) 0) (pf.F.Mul (a.getD i 0) (b.getD j 0)))) r)
        r).length = r.length ∧
      ∀ k, ((List.range n).foldl (fun r i =>
        (List.range b.length).foldl (fun r j =>
          r.set (i + j) (pf.F.Add (r.getD (i + j) 0) (pf.F.Mul (a.getD i 0) (b.getD j 0)))) r)
        r).getD k 0
        = r.getD k 0 + ∑ i in Finset.range n,
            (if i ≤ k ∧ k < i + b.length then a.getD i 0 * b.getD (k - i) 0 else 0) := by
  intro n
  induction n with
  | zero =>
    intro r _ _
    simp
  | succ n ih =>
    intro r hn hr
    obtain ⟨hlen, hget⟩ := ih r (by omega) hr
    rw [List.range_succ, List.foldl_append]
    simp only [List.foldl_cons, List.foldl_nil]
    obtain ⟨h2l, h2g⟩ := foldl_set_offset
      (fun x j => pf.F.Add x (pf.F.Mul (a.getD n 0) (b.getD j 0))) n b.length _
      (by rw [hlen]; omega)
    refine ⟨by rw [h2l, hlen], ?_⟩
    intro k
    rw [h2g k, hget k, Finset.sum_range_succ]
    simp only [Fq.Add, Fq.Mul, NewFPcopy, FP.Add, FP.Mul]
    split_ifs <;> ring

theorem r1csqap.PolynomialField.Mul_length (pf : PolynomialField) (a b : List (FP p)) :
    (pf.Mul a b).length = a.length + b.length - 1 := by
  unfold PolynomialField.Mul
  simp only []
  have h0 : (ArrayOfBigZeros p ((a.length : Int) + (b.length : Int) - 1)).length
      = a.length + b.length - 1 := by
    rw [r1csqap.ArrayOfBigZeros_length]; omega
  rw [(r1csqap.PolynomialField.Mul_loop pf a b a.length _ le_rfl (by rw [h0]; omega)).1, h0]

theorem r1csqap.PolynomialField.Mul_getD (pf : PolynomialField) (a b : List (FP p)) (k : Nat) :
    (pf.Mul a b).getD k 0 = ∑ i in Finset.range a.length,
      (if i ≤ k ∧ k < i + b.length then a.getD i 0 * b.getD (k - i) 0 else 0) := by
  unfold PolynomialField.Mul
  simp only []
  have h0 : (ArrayOfBigZeros p ((a.length : Int) + (b.length : Int) - 1)).length
      = a.length + b.length - 1 := by
    rw [r1csqap.ArrayOfBigZeros_length]; omega
  rw [(r1csqap.PolynomialField.Mul_loop pf a b a.length _ le_rfl (by rw [h0]; omega)).2,
    r1csqap.ArrayOfBigZeros_getD, zero_add]

theorem r1csqap.PolynomialField.toPoly_Mul (pf : PolynomialField) (a b : List (FP p)) :
    toPoly (pf.Mul a b) = toPoly a * toPoly b := by
  ext k
  rw [toPoly_coeff, r1csqap.PolynomialField.Mul_getD, Polynomial.coeff_mul,
    Finset.Nat.sum_antidiagonal_eq_sum_range_succ_mk]
  simp only [toPoly_coeff]
  have hL : ∀ i ∈ Finset.range a.length,
      (if i ≤ k ∧ k < i + b.length then a.getD i 0 * b.getD (k - i) 0 else 0)
        = if i < k + 1 then a.getD i 0 * b.getD (k - i) 0 else 0 := by
    intro i _
    by_cases h1 : i ≤ k
    · by_cases h2 : k < i + b.length
      · simp [h1, h2, Nat.lt_succ_of_le h1]
      · rw [getD_of_le b (k - i) (by omega)]
        simp [h1, h2, Nat.lt_succ_of_le h1]
    · have h3 : ¬ i < k + 1 := by omega
      simp [h1, h3]
  have hR : ∀ i ∈ Finset.range (k + 1),
      a.getD i 0 * b.getD (k - i) 0
        = if i < a.length then a.getD i 0 * b.getD (k - i) 0 else 0 := by
    intro i _
    by_cases h1 : i < a.length
    · simp [h1]
    · rw [getD_of_le a i (by omega)]
      simp [h1]
  rw [Finset.sum_congr rfl hL, Finset.sum_congr rfl hR, ← Finset.sum_filter, ← Finset.sum_filter]
  congr 1
  ext i
  simp only [Finset.mem_filter, Finset.mem_range]
  tauto

end PolyOps

section PolyDiv

variable {p : Nat}

theorem r1csqap.index_last (l : List (FP p)) (h : l ≠ []) :
    r1csqap.index l ((l.length : Int) - 1) = .ok (l.getD (l.length - 1) 0) := by
  have hpos : 0 < l.length := List.length_pos.mpr h
  unfold r1csqap.index
  have h1 : ¬ ((l.length : Int) - 1 < 0) := by omega
  have h2 : ((l.length : Int) - 1).toNat = l.length - 1 := by omega
  rw [if_neg h1, h2, List.get?_eq_getElem?, List.getElem?_eq_getElem (by omega),
    List.getD_eq_getElem _ _ (by omega)]

theorem toPoly_set (r : List (FP p)) (pos : Nat) (l : FP p) (hpos : pos < r.length)
    (h0 : r.getD pos 0 = 0) :
    toPoly (r.set pos l) = toPoly r + Polynomial.monomial pos l := by
  ext i
  rw [Polynomial.coeff_add, toPoly_coeff, toPoly_coeff, getD_set, Polynomial.coeff_monomial]
  by_cases h : i = pos
  · subst h
    rw [if_pos ⟨rfl, hpos⟩, h0]
    simp
  · have h' : ¬ pos = i := fun e => h e.symm
    simp [h, h']

theorem toPoly_shift (pos : Nat) (l : FP p) :
    toPoly (ArrayOfBigZeros p pos ++ [l]) = Polynomial.monomial pos l := by
  ext i
  rw [toPoly_coeff, Polynomial.coeff_monomial, r1csqap.ArrayOfBigZeros_eq]
  simp only [Int.toNat_ofNat]
  rcases Nat.lt_trichotomy i pos with h | h | h
  · rw [List.getD_append _ _ _ _ (by simpa using h)]
    have : ¬ pos = i := by omega
    simp [this, List.getD_eq_getElem?_getD, List.getElem?_replicate, h]
  · subst h
    rw [List.getD_append_right _ _ _ _ (by simp)]
    simp
  · rw [List.getD_append_right _ _ _ _ (by simp; omega)]
    have : ¬ pos = i := by omega
    simp only [List.length_replicate, this, if_false]
    rw [List.getD_eq_getElem?_getD, List.getElem?_eq_none (by simp; omega)]
    rfl

theorem toPoly_take (l : List (FP p)) (n : Nat) (hlen : l.length = n + 1)
    (h0 : l.getD n 0 = 0) : toPoly (l.take n) = toPoly l := by
  rw [toPoly_eq_iff]
  intro i
  by_cases h : i < n
  · simp [List.getD_eq_getElem?_getD, List.getElem?_take, h]
  · rw [getD_of_le _ _ (by simp; omega)]
    by_cases h2 : i = n
    · rw [h2, h0]
    · rw [getD_of_le _ _ (by omega)]

/-- Invariant of the loop of `Div`: it runs to completion within the
allowed number of iterations, never indexes out of range, and keeps
`r * b + rem` constant. -/
theorem r1csqap.PolynomialField.DivLoop_spec (hp : p.Prime) (pf : PolynomialField)
    (b : List (FP p)) (hb : b ≠ []) (hlead : b.getD (b.length - 1) 0 ≠ 0) :
    ∀ (fuel : Nat) (r rem : List (FP p)), rem.length + 1 ≤ fuel →
      rem.length + 1 ≤ r.length + b.length →
      (∀ i, i + b.length ≤ rem.length → r.getD i 0 = 0) →
      ∃ q rem', pf.DivLoop b fuel r rem = .ok (q, rem') ∧ q.length = r.length ∧
        rem'.length = min rem.length (b.length - 1) ∧
        toPoly q * toPoly b + toPoly rem' = toPoly r * toPoly b + toPoly rem := by
  have hbpos : 0 < b.length := List.length_pos.mpr hb
  intro fuel
  induction fuel with
  | zero => intro r rem h; omega
  | succ n ih =>
    intro r rem hfuel hr hz
    unfold PolynomialField.DivLoop
    by_cases hge : rem.length ≥ b.length
    · have hrem : rem ≠ [] := by
        intro e
        have h0 : rem.length = 0 := by rw [e]; rfl
        omega
      rw [if_pos hge, r1csqap.index_last rem hrem, r1csqap.index_last b hb]
      simp only [bind, Except.bind]
      have hpos : ¬ (rem.length - b.length ≥ r.length) := by omega
      rw [if_neg hpos]
      set l := pf.F.Div (rem.getD (rem.length - 1) 0) (b.getD (b.length - 1) 0) with hl
      set pos := rem.length - b.length with hposdef
      set aux2 := pf.Sub rem (pf.Mul b (ArrayOfBigZeros p (pos : Int) ++ [l])) with haux2
      have hmul_len : (pf.Mul b (ArrayOfBigZeros p (pos : Int) ++ [l])).length = rem.length := by
        rw [r1csqap.PolynomialField.Mul_length]
        simp [r1csqap.ArrayOfBigZeros_length]
        omega
      have haux2_len : aux2.length = rem.length := by
        rw [haux2, (r1csqap.PolynomialField.Sub_spec pf _ _).1, hmul_len]
        simp
      have hne : ¬ aux2.length = 0 := by omega
      rw [if_neg hne]
      have haux2_poly : toPoly aux2 = toPoly rem - toPoly b * Polynomial.monomial pos l := by
        rw [haux2, r1csqap.PolynomialField.toPoly_Sub, r1csqap.PolynomialField.toPoly_Mul,
          toPoly_shift]
      have htop : aux2.getD (rem.length - 1) 0 = 0 := by
        rw [← toPoly_coeff, haux2_poly, Polynomial.coeff_sub]
        have hidx : rem.length - 1 = (b.length - 1) + pos := by omega
        rw [hidx, Polynomial.coeff_mul_monomial, toPoly_coeff, toPoly_coeff, ← hidx, hl,
          mul_comm, fields.Fq.Div_mul_cancel hp pf.F _ _ hlead, sub_self]
      have htake : toPoly (aux2.take (aux2.length - 1)) = toPoly aux2 := by
        rw [haux2_len]
        exact toPoly_take aux2 (rem.length - 1) (by omega) htop
      have hlen' : (aux2.take (aux2.length - 1)).length = rem.length - 1 := by
        rw [List.length_take, haux2_len]; omega
      obtain ⟨q, rem', hrun, hq, hrl, hpoly⟩ := ih (r.set pos l) (aux2.take (aux2.length - 1))
        (by rw [hlen']; omega) (by rw [hlen', List.length_set]; omega)
        (by
          intro i hi
          rw [hlen'] at hi
          rw [getD_set]
          have : ¬ (i = pos ∧ pos < r.length) := by omega
          rw [if_neg this]
          exact hz i (by omega))
      refine ⟨q, rem', hrun, by rw [hq, List.length_set], by rw [hrl, hlen']; omega, ?_⟩
      rw [hpoly, htake, haux2_poly, toPoly_set r pos l (by omega) (hz pos (by omega))]
      ring
    · rw [if_neg hge]
      refine ⟨r, rem, rfl, rfl, by omega, rfl⟩

/-- Division with remainder on coefficient sequences, for a prime modulus
and a divisor whose last coefficient is not zero. -/
theorem r1csqap.PolynomialField.Div_spec (hp : p.Prime) (pf : PolynomialField)
    (a b : List (FP p)) (hb : b ≠ []) (hlead : b.getD (b.length - 1) 0 ≠ 0) :
    ∃ q r, pf.Div a b = .ok (q, r) ∧
      q.length = ((a.length : Int) - (b.length : Int) + 1).toNat ∧
      r.length = min a.length (b.length - 1) ∧
      toPoly q * toPoly b + toPoly r = toPoly a := by
  have hbpos : 0 < b.length := List.length_pos.mpr hb
  unfold PolynomialField.Div
  simp only []
  obtain ⟨q, r, hrun, hq, hr, hpoly⟩ := r1csqap.PolynomialField.DivLoop_spec hp pf b hb hlead
    (a.length + 1) (ArrayOfBigZeros p ((a.length : Int) - (b.length : Int) + 1)) a le_rfl
    (by rw [r1csqap.ArrayOfBigZeros_length]; omega)
    (fun i _ => r1csqap.ArrayOfBigZeros_getD _ i)
  refine ⟨q, r, hrun, by rw [hq, r1csqap.ArrayOfBigZeros_length], hr, ?_⟩
  rw [hpoly]
  have : toPoly (ArrayOfBigZeros p ((a.length : Int) - (b.length : Int) + 1)) = 0 := by
    ext i
    rw [toPoly_coeff, r1csqap.ArrayOfBigZeros_getD, Polynomial.coeff_zero]
  rw [this, zero_mul, zero_add]

end PolyDiv

section Lagrange

variable {p : Nat}

set_option maxRecDepth 100000 in
/-- For at most 21 points the machine-integer product `fac` of
`NewPolZeroAt` never leaves the 64-bit range: wrapping changes nothing. -/
theorem r1csqap.fac_no_overflow : ∀ m < 22, ∀ k < 22, 1 ≤ k → k ≤ m →
    (pointRange (Int.ofNat m)).foldl
      (fun fac i => if i ≠ Int.ofNat k then wrapInt (fac * (Int.ofNat k - i)) else fac) 1
    = (pointRange (Int.ofNat m)).foldl
      (fun fac i => if i ≠ Int.ofNat k then fac * (Int.ofNat k - i) else fac) 1 := by
  decide

theorem r1csqap.fac_fold_prod (k : Int) : ∀ (L : List Int) (f0 : Int),
    L.foldl (fun fac i => if i ≠ k then fac * (k - i) else fac) f0
      = f0 * ((L.filter (fun i => decide (i ≠ k))).map (fun i => k - i)).prod := by
  intro L
  induction L with
  | nil => intro f0; simp
  | cons x xs ih =>
    intro f0
    rw [List.foldl_cons, ih]
    by_cases h : x ≠ k
    · simp only [h, if_true, List.filter_cons, decide_True, List.map_cons, List.prod_cons,
        not_false_eq_true, ne_eq]
      ring
    · simp only [h, if_false, List.filter_cons, decide_False]
      simp

theorem toPoly_linear (i : Int) :
    toPoly [NewFPint p (-i), NewFPint p 1]
      = Polynomial.X - Polynomial.C ((i : Int) : FP p) := by
  ext n
  rw [toPoly_coeff, Polynomial.coeff_sub, Polynomial.coeff_X, Polynomial.coeff_C]
  simp only [NewFPint, Int.cast_neg, Int.cast_one]
  match n with
  | 0 => simp
  | 1 => simp
  | n + 2 => simp

theorem r1csqap.PolynomialField.root_fold (pf : PolynomialField) (k : Int) :
    ∀ (L : List Int) (r : List (FP p)), r ≠ [] →
      (L.foldl (fun r i => if i ≠ k then pf.Mul r [NewFPint p (-i), NewFPint p 1] else r) r).length
        = r.length + (L.filter (fun i => decide (i ≠ k))).length ∧
      toPoly (L.foldl (fun r i =>
          if i ≠ k then pf.Mul r [NewFPint p (-i), NewFPint p 1] else r) r)
        = toPoly r * ((L.filter (fun i => decide (i ≠ k))).map
            (fun i => Polynomial.X - Polynomial.C ((i : Int) : FP p))).prod := by
  intro L
  induction L with
  | nil => intro r _; simp
  | cons x xs ih =>
    intro r hr
    have hrpos : 0 < r.length := List.length_pos.mpr hr
    rw [List.foldl_cons]
    by_cases h : x ≠ k
    · have hlen : (pf.Mul r [NewFPint p (-x), NewFPint p 1]).length = r.length + 1 := by
        rw [r1csqap.PolynomialField.Mul_length]; simp
      have hne : pf.Mul r [NewFPint p (-x), NewFPint p 1] ≠ [] := by
        intro e; rw [e] at hlen; simp at hlen
      obtain ⟨h1, h2⟩ := ih _ hne
      simp only [h, if_true, List.filter_cons, decide_True, List.map_cons, List.prod_cons,
        List.length_cons, not_false_eq_true, ne_eq]
      simp only [ne_eq] at h1 h2
      refine ⟨by rw [h1, hlen]; omega, ?_⟩
      rw [h2, r1csqap.PolynomialField.toPoly_Mul, toPoly_linear]
      ring
    · obtain ⟨h1, h2⟩ := ih r hr
      simp only [h, if_false, List.filter_cons, decide_False]
      simp only [ne_eq] at h1 h2
      exact ⟨h1, h2⟩

theorem r1csqap.pointRange_succ (m : Nat) :
    pointRange (Int.ofNat (m + 1)) = pointRange (Int.ofNat m) ++ [Int.ofNat m + 1] := by
  unfold pointRange
  show List.map _ (List.range (m + 1)) = List.map _ (List.range m) ++ _
  rw [List.range_succ, List.map_append]
  rfl

theorem r1csqap.pointRange_filter_length_aux (k : Nat) : ∀ (m : Nat),
    ((pointRange (Int.ofNat m)).filter (fun i => decide (i ≠ Int.ofNat k))).length
      = if 1 ≤ k ∧ k ≤ m then m - 1 else m := by
  intro m
  induction m with
  | zero =>
    have : ¬ (1 ≤ k ∧ k ≤ 0) := by omega
    rw [if_neg this]
    rfl
  | succ n ih =>
    rw [r1csqap.pointRange_succ, List.filter_append, List.length_append, ih]
    by_cases h : Int.ofNat n + 1 ≠ Int.ofNat k
    · have hk : k ≠ n + 1 := by
        intro e; apply h; rw [e]; rfl
      rw [List.filter_cons_of_pos (by simpa using h)]
      simp only [List.filter_nil, List.length_singleton]
      split_ifs <;> omega
    · have hk : k = n + 1 := by
        simp only [Int.ofNat_eq_coe, ne_eq, not_not] at h
        omega
      rw [List.filter_cons_of_neg (by simpa using h)]
      simp only [List.filter_nil, List.length_nil]
      split_ifs <;> omega

theorem r1csqap.pointRange_filter_length (m k : Nat) (hk1 : 1 ≤ k) (hkm : k ≤ m) :
    ((pointRange (Int.ofNat m)).filter (fun i => decide (i ≠ Int.ofNat k))).length = m - 1 := by
  rw [r1csqap.pointRange_filter_length_aux, if_pos ⟨hk1, hkm⟩]

theorem r1csqap.mem_pointRange (m : Nat) (i : Int) :
    i ∈ pointRange (Int.ofNat m) ↔ 1 ≤ i ∧ i ≤ Int.ofNat m := by
  unfold pointRange
  have hm : (Int.ofNat m).toNat = m := rfl
  rw [hm, List.mem_map]
  constructor
  · rintro ⟨a, ha, rfl⟩
    have := List.mem_range.mp ha
    constructor
    · simp only [Int.ofNat_eq_coe]
      omega
    · show Int.ofNat a + 1 ≤ Int.ofNat m
      simp only [Int.ofNat_eq_coe]
      omega
  · rintro ⟨h1, h2⟩
    have h2' : i ≤ (m : Int) := h2
    refine ⟨(i - 1).toNat, List.mem_range.mpr (by omega), ?_⟩
    simp only [Int.ofNat_eq_coe]
    omega

end Lagrange

section LagrangeEval

variable {p : Nat}

theorem list_sum_range_map (f : Nat → FP p) (n : Nat) :
    ((List.range n).map f).sum = ∑ i in Finset.range n, f i := by
  induction n with
  | zero => simp
  | succ k ih =>
    rw [List.range_succ, List.map_append, List.sum_append, ih, Finset.sum_range_succ]
    simp

/-- The reference value of a coefficient sequence is the value of the
polynomial it denotes. -/
theorem polyValue_eq_eval (l : List (FP p)) (x : FP p) :
    polyValue l x = (toPoly l).eval x := by
  unfold polyValue
  rw [list_sum_range_map]
  by_cases hl : l = []
  · subst hl
    have : toPoly ([] : List (FP p)) = 0 := by
      ext i; rw [toPoly_coeff]; simp
    rw [this]; simp
  · have hpos : 0 < l.length := List.length_pos.mpr hl
    have hdeg : (toPoly l).natDegree < l.length := by
      have : (toPoly l).natDegree ≤ l.length - 1 := by
        rw [Polynomial.natDegree_le_iff_coeff_eq_zero]
        intro N hN
        rw [toPoly_coeff, getD_of_le l N (by omega)]
      omega
    rw [Polynomial.eval_eq_sum_range' hdeg]
    apply Finset.sum_congr rfl
    intro i _
    rw [toPoly_coeff]

theorem toPoly_singleton (c : FP p) : toPoly [c] = Polynomial.C c := by
  ext n
  rw [toPoly_coeff, Polynomial.coeff_C]
  match n with
  | 0 => simp
  | n + 1 => simp

/-- Lagrange basis: for at most 21 points and a prime modulus above the
number of points, `NewPolZeroAt(k, m, h)` has `m` coefficients, value `h` at
`k` and value `0` at the other points of `1..m`. -/
theorem r1csqap.PolynomialField.NewPolZeroAt_spec (hp : p.Prime) (pf : PolynomialField)
    (m k : Nat) (hk1 : 1 ≤ k) (hkm : k ≤ m) (hm : m ≤ 21) (hmp : m < p) (h : FP p) :
    (pf.NewPolZeroAt (Int.ofNat k) (Int.ofNat m) h).length = m ∧
    ∀ j : Nat, 1 ≤ j → j ≤ m →
      (toPoly (pf.NewPolZeroAt (Int.ofNat k) (Int.ofNat m) h)).eval (j : FP p)
        = if j = k then h else 0 := by
  haveI := Fact.mk hp
  unfold PolynomialField.NewPolZeroAt
  simp only []
  rw [r1csqap.fac_no_overflow m (by omega) k (by omega) hk1 hkm, r1csqap.fac_fold_prod, one_mul]
  set L := (pointRange (Int.ofNat m)).filter (fun i => decide (i ≠ Int.ofNat k)) with hL
  obtain ⟨hlen, hpoly⟩ := r1csqap.PolynomialField.root_fold pf (Int.ofNat k)
    (pointRange (Int.ofNat m))
    [pf.F.Div h (NewFPint p (L.map (fun i => Int.ofNat k - i)).prod)] (by simp)
  rw [← hL] at hlen hpoly
  constructor
  · rw [hlen, hL, r1csqap.pointRange_filter_length m k hk1 hkm]
    simp only [List.length_singleton]
    omega
  · intro j hj1 hjm
    rw [hpoly, toPoly_singleton, Polynomial.eval_mul, Polynomial.eval_C,
      Polynomial.eval_list_prod, List.map_map]
    by_cases hjk : j = k
    · subst hjk
      rw [if_pos rfl]
      have hfac : (L.map ((Polynomial.eval (j : FP p)) ∘
          fun i : Int => (Polynomial.X : Polynomial (FP p)) - Polynomial.C ((i : Int) : FP p))).prod
          = NewFPint p (L.map (fun i => Int.ofNat j - i)).prod := by
        simp only [NewFPint, Int.cast_list_prod, List.map_map]
        congr 1
        apply List.map_congr_left
        intro i _
        simp
      rw [hfac]
      apply fields.Fq.Div_mul_cancel hp
      simp only [NewFPint, Int.cast_list_prod, List.map_map]
      apply List.prod_ne_zero
      intro hmem
      obtain ⟨i, hi, hzero⟩ := List.mem_map.mp hmem
      rw [hL, List.mem_filter] at hi
      obtain ⟨hirange, hine⟩ := hi
      rw [r1csqap.mem_pointRange] at hirange
      simp only [Function.comp] at hzero
      rw [ZMod.intCast_zmod_eq_zero_iff_dvd] at hzero
      have hine' : i ≠ Int.ofNat j := by simpa using hine
      simp only [Int.ofNat_eq_coe] at hirange hine' hzero
      obtain ⟨c, hc⟩ := hzero
      have hne : (j : Int) - i ≠ 0 := by omega
      have hcne : c ≠ 0 := by
        intro e; rw [e, mul_zero] at hc; exact hne hc
      have habs : (p : Int) ≤ |(j : Int) - i| := by
        rw [hc, abs_mul]
        have : 1 ≤ |c| := Int.one_le_abs hcne
        have hpabs : |(p : Int)| = p := abs_of_nonneg (by omega)
        rw [hpabs]
        nlinarith
      have hlt : |(j : Int) - i| < p := by
        rw [abs_lt]; constructor <;> omega
      omega
    · rw [if_neg hjk]
      have hmem : (0 : FP p) ∈ L.map ((Polynomial.eval (j : FP p)) ∘
          fun i : Int => (Polynomial.X : Polynomial (FP p)) - Polynomial.C ((i : Int) : FP p)) := by
        rw [List.mem_map]
        refine ⟨Int.ofNat j, ?_, by simp⟩
        rw [hL, List.mem_filter, r1csqap.mem_pointRange]
        refine ⟨⟨by simp only [Int.ofNat_eq_coe]; omega, by simp only [Int.ofNat_eq_coe]; omega⟩, ?_⟩
        simp only [Int.ofNat_eq_coe, ne_eq, decide_not, Bool.not_eq_eq_eq_not, Bool.not_true,
          decide_eq_false_iff_not]
        omega
      rw [List.prod_eq_zero hmem, mul_zero]

end LagrangeEval

section Interpolation

variable {p : Nat}

theorem r1csqap.PolynomialField.LagrangeInterpolation_loop (hp : p.Prime)
    (pf : PolynomialField) (v : List (FP p)) (hm : v.length ≤ 21) (hmp : v.length < p) :
    ∀ n, n ≤ v.length →
      ((List.range n).foldl (fun r i => pf.Add r
          (pf.NewPolZeroAt (Int.ofNat i + 1) (Int.ofNat v.length) (v.getD i 0))) []).length
        = (if n = 0 then 0 else v.length) ∧
      ∀ j : Nat, 1 ≤ j → j ≤ v.length →
        (toPoly ((List.range n).foldl (fun r i => pf.Add r
          (pf.NewPolZeroAt (Int.ofNat i + 1) (Int.ofNat v.length) (v.getD i 0))) [])).eval
            (j : FP p)
          = if j ≤ n then v.getD (j - 1) 0 else 0 := by
  intro n
  induction n with
  | zero =>
    intro _
    refine ⟨by simp, ?_⟩
    intro j hj1 _
    have h0 : ¬ j ≤ 0 := by omega
    have hz : toPoly ([] : List (FP p)) = 0 := by
      ext i; rw [toPoly_coeff]; simp
    simp only [List.range_zero, List.foldl_nil, hz, Polynomial.eval_zero, if_neg h0]
  | succ n ih =>
    intro hn
    obtain ⟨hlen, hev⟩ := ih (by omega)
    have hcast : Int.ofNat n + 1 = Int.ofNat (n + 1) := rfl
    obtain ⟨hzl, hze⟩ := r1csqap.PolynomialField.NewPolZeroAt_spec hp pf v.length (n + 1)
      (by omega) hn hm hmp (v.getD n 0)
    rw [List.range_succ, List.foldl_append]
    simp only [List.foldl_cons, List.foldl_nil]
    rw [hcast]
    constructor
    · rw [(r1csqap.PolynomialField.Add_spec pf _ _).1, hlen, hzl]
      have hne : ¬ n + 1 = 0 := by omega
      rw [if_neg hne]
      split_ifs
      · exact Nat.max_eq_right (Nat.zero_le _)
      · exact Nat.max_self _
    · intro j hj1 hjm
      rw [r1csqap.PolynomialField.toPoly_Add, Polynomial.eval_add, hev j hj1 hjm, hze j hj1 hjm]
      by_cases h1 : j ≤ n
      · have h2 : ¬ j = n + 1 := by omega
        have h3 : j ≤ n + 1 := by omega
        rw [if_pos h1, if_neg h2, if_pos h3, add_zero]
      · by_cases h2 : j = n + 1
        · subst h2
          rw [if_neg h1, if_pos rfl, if_pos le_rfl, zero_add]
          rfl
        · have h3 : ¬ j ≤ n + 1 := by omega
          rw [if_neg h1, if_neg h2, if_neg h3, add_zero]

/-- Interpolation: for at most 21 values and a prime modulus above their
number, the result has as many coefficients as there are values and takes
the value `v[j-1]` at `j`. -/
theorem r1csqap.PolynomialField.LagrangeInterpolation_spec (hp : p.Prime)
    (pf : PolynomialField) (v : List (FP p)) (hm : v.length ≤ 21) (hmp : v.length < p) :
    (pf.LagrangeInterpolation v).length = v.length ∧
    ∀ j : Nat, 1 ≤ j → j ≤ v.length →
      (toPoly (pf.LagrangeInterpolation v)).eval (j : FP p) = v.getD (j - 1) 0 := by
  obtain ⟨hlen, hev⟩ :=
    r1csqap.PolynomialField.LagrangeInterpolation_loop hp pf v hm hmp v.length le_rfl
  unfold PolynomialField.LagrangeInterpolation
  constructor
  · rw [hlen]
    split_ifs with h
    · exact h.symm
    · rfl
  · intro j hj1 hjm
    rw [hev j hj1 hjm, if_pos hjm]

theorem mapM_ok {α β : Type} (f : α → Except Fault β) (g : α → β) :
    ∀ (l : List α), (∀ x ∈ l, f x = .ok (g x)) → l.mapM f = .ok (l.map g) := by
  intro l
  induction l with
  | nil => intro _; rfl
  | cons x xs ih =>
    intro h
    rw [List.mapM_cons, h x (List.mem_cons_self _ _), ih (fun y hy => h y (List.mem_cons_of_mem _ hy))]
    rfl

theorem r1csqap.index_ok {α : Type} (s : List α) (i : Nat) (h : i < s.length) (d : α) :
    r1csqap.index s (Int.ofNat i) = .ok (s.getD i d) := by
  unfold r1csqap.index
  have h1 : ¬ (Int.ofNat i < 0) := by simp
  have h2 : (Int.ofNat i).toNat = i := rfl
  rw [if_neg h1, h2, List.get?_eq_getElem?, List.getElem?_eq_getElem h,
    List.getD_eq_getElem _ _ h]

/-- Transposition of a rectangular matrix with at least one row. -/
theorem r1csqap.Transpose_spec (M : List (List (FP p))) (m n : Nat) (hm1 : 1 ≤ m)
    (hrows : M.length = m) (hrect : ∀ row ∈ M, row.length = n) :
    Transpose M = .ok ((List.range n).map fun i =>
      (List.range m).map fun j => (M.getD j []).getD i 0) := by
  unfold Transpose
  have h0 : r1csqap.index M 0 = .ok (M.getD 0 []) :=
    r1csqap.index_ok M 0 (by omega) []
  rw [h0]
  simp only [bind, Except.bind]
  have hrow0 : (M.getD 0 []).length = n := by
    apply hrect
    rw [List.getD_eq_getElem _ _ (by omega)]
    exact List.getElem_mem _
  rw [hrow0, hrows]
  apply mapM_ok
  intro i hi
  apply mapM_ok
  intro j hj
  have hj' : j < M.length := by rw [hrows]; exact List.mem_range.mp hj
  rw [r1csqap.index_ok M j hj' []]
  simp only [bind, Except.bind]
  apply r1csqap.index_ok
  have : (M.getD j []).length = n := by
    apply hrect
    rw [List.getD_eq_getElem _ _ hj']
    exact List.getElem_mem _
  rw [this]
  exact List.mem_range.mp hi

end Interpolation

section QAPTransform

variable {p : Nat}

/-- Loop building the target polynomial: one more coefficient per factor,
last coefficient `1`, and the product of the factors `x - i`. -/
theorem r1csqap.PolynomialField.target_fold (pf : PolynomialField) :
    ∀ (L : List Int) (z : List (FP p)), z ≠ [] → z.getD (z.length - 1) 0 = 1 →
      (L.foldl (fun z i => pf.Mul z [NewFPint p (-i), NewFPint p 1]) z).length
        = z.length + L.length ∧
      (L.foldl (fun z i => pf.Mul z [NewFPint p (-i), NewFPint p 1]) z).getD
        (z.length + L.length - 1) 0 = 1 ∧
      toPoly (L.foldl (fun z i => pf.Mul z [NewFPint p (-i), NewFPint p 1]) z)
        = toPoly z * (L.map (fun i => Polynomial.X - Polynomial.C ((i : Int) : FP p))).prod := by
  intro L
  induction L with
  | nil =>
    intro z _ h1
    refine ⟨by simp, ?_, by simp⟩
    simpa using h1
  | cons x xs ih =>
    intro z hz h1
    have hzpos : 0 < z.length := List.length_pos.mpr hz
    rw [List.foldl_cons]
    have hlen : (pf.Mul z [NewFPint p (-x), NewFPint p 1]).length = z.length + 1 := by
      rw [r1csqap.PolynomialField.Mul_length]; simp
    have hne : pf.Mul z [NewFPint p (-x), NewFPint p 1] ≠ [] := by
      intro e; rw [e] at hlen; simp at hlen
    have htop : (pf.Mul z [NewFPint p (-x), NewFPint p 1]).getD
        ((pf.Mul z [NewFPint p (-x), NewFPint p 1]).length - 1) 0 = 1 := by
      rw [hlen, ← toPoly_coeff, r1csqap.PolynomialField.toPoly_Mul, toPoly_linear]
      have hidx : z.length + 1 - 1 = (z.length - 1) + 1 := by omega
      rw [hidx, Polynomial.coeff_mul_X_sub_C, toPoly_coeff, toPoly_coeff, h1,
        getD_of_le z _ (by omega)]
      simp
    obtain ⟨h2, h3, h4⟩ := ih _ hne htop
    rw [hlen] at h2 h3
    refine ⟨by rw [h2, List.length_cons]; omega, ?_, ?_⟩
    · rw [List.length_cons]
      have : z.length + (xs.length + 1) - 1 = z.length + 1 + xs.length - 1 := by omega
      rw [this, h3]
    · rw [h4, r1csqap.PolynomialField.toPoly_Mul, toPoly_linear, List.map_cons, List.prod_cons]
      ring

theorem r1csqap.pointRange_length (m : Nat) : (pointRange (Int.ofNat m)).length = m := by
  unfold pointRange
  rw [List.length_map, List.length_range]
  rfl

/-- Shape of the result of `R1CSToQAP` on three rectangular `m x n` matrices
with `m, n >= 1`. -/
theorem r1csqap.PolynomialField.R1CSToQAP_spec (pf : PolynomialField)
    (a b c : List (List (FP p))) (m n : Nat) (hm1 : 1 ≤ m) (hn1 : 1 ≤ n)
    (ha : a.length = m ∧ ∀ row ∈ a, row.length = n)
    (hb : b.length = m ∧ ∀ row ∈ b, row.length = n)
    (hc : c.length = m ∧ ∀ row ∈ c, row.length = n) :
    ∃ zx, pf.R1CSToQAP a b c = .ok
        (((List.range n).map fun i => (List.range m).map fun j => (a.getD j []).getD i 0).map
            pf.LagrangeInterpolation,
         ((List.range n).map fun i => (List.range m).map fun j => (b.getD j []).getD i 0).map
            pf.LagrangeInterpolation,
         ((List.range n).map fun i => (List.range m).map fun j => (c.getD j []).getD i 0).map
            pf.LagrangeInterpolation,
         zx) ∧
      zx.length = m + 1 ∧ zx.getD m 0 = 1 ∧
      toPoly zx = ((pointRange (Int.ofNat m)).map
        (fun i => Polynomial.X - Polynomial.C ((i : Int) : FP p))).prod := by
  unfold PolynomialField.R1CSToQAP
  rw [r1csqap.Transpose_spec a m n hm1 ha.1 ha.2, r1csqap.Transpose_spec b m n hm1 hb.1 hb.2,
    r1csqap.Transpose_spec c m n hm1 hc.1 hc.2]
  simp only [bind, Except.bind, pure, Except.pure]
  have hidx : r1csqap.index ((List.range n).map fun i =>
      (List.range m).map fun j => (a.getD j []).getD i 0) 0
      = .ok ((List.range m).map fun j => (a.getD j []).getD 0 0) := by
    have := r1csqap.index_ok ((List.range n).map fun i =>
      (List.range m).map fun j => (a.getD j []).getD i 0) 0 (by simp; omega) []
    rw [show ((0 : Int)) = Int.ofNat 0 from rfl, this, List.getD_eq_getElem _ _ (by simp; omega)]
    simp
  rw [hidx]
  simp only [List.length_map, List.length_range]
  obtain ⟨h1, h2, h3⟩ := r1csqap.PolynomialField.target_fold pf (pointRange (Int.ofNat m))
    [NewFPint p 1] (by simp) (by simp [NewFPint])
  rw [r1csqap.pointRange_length] at h1 h2
  refine ⟨_, rfl, ?_, ?_, ?_⟩
  · rw [show ((m : Nat) : Int) = Int.ofNat m from rfl, h1]; simp; omega
  · rw [show ((m : Nat) : Int) = Int.ofNat m from rfl]
    simpa using h2
  · rw [show ((m : Nat) : Int) = Int.ofNat m from rfl, h3, toPoly_singleton]
    simp [NewFPint]

/-- The test helper `hornerPolyEval`, applied to the canonical
representatives of a coefficient sequence, returns the canonical
representative of the reference value. -/
theorem hornerPolyEval_loop (poly : List Int) (x : Int) (hp0 : 0 < p) :
    ∀ (n : Nat) (res : Int), 0 ≤ res → res < p →
      (0 ≤ (List.range n).reverse.foldl (fun res i =>
          Int.emod (Int.emod (res * x) p + poly.getD i 0) p) res ∧
       (List.range n).reverse.foldl (fun res i =>
          Int.emod (Int.emod (res * x) p + poly.getD i 0) p) res < p) ∧
      (((List.range n).reverse.foldl (fun res i =>
          Int.emod (Int.emod (res * x) p + poly.getD i 0) p) res : Int) : FP p)
        = (res : FP p) * (x : FP p) ^ n
          + ∑ i in Finset.range n, ((poly.getD i 0 : Int) : FP p) * (x : FP p) ^ i := by
  intro n
  induction n with
  | zero => intro res h0 h1; simp [h0, h1]
  | succ n ih =>
    intro res h0 h1
    rw [List.range_succ, List.reverse_append, List.reverse_singleton, List.singleton_append,
      List.foldl_cons]
    have hpz : (0 : Int) < p := by exact_mod_cast hp0
    obtain ⟨hr, hc⟩ := ih (Int.emod (Int.emod (res * x) p + poly.getD n 0) p)
      (Int.emod_nonneg _ (by omega)) (Int.emod_lt_of_pos _ hpz)
    refine ⟨hr, ?_⟩
    rw [hc, Finset.sum_range_succ]
    have e1 : ((Int.emod (Int.emod (res * x) p + poly.getD n 0) p : Int) : FP p)
        = (res : FP p) * (x : FP p) + ((poly.getD n 0 : Int) : FP p) := by
      show (((Int.emod (res * x) p + poly.getD n 0) % (p : Int) : Int) : FP p) = _
      rw [ZMod.intCast_mod, Int.cast_add]
      show ((((res * x) % (p : Int) : Int)) : FP p) + _ = _
      rw [ZMod.intCast_mod, Int.cast_mul]
    rw [e1]
    ring

end QAPTransform

section RoundTrip

variable {p : Nat}

theorem hornerPolyEval_val (hp0 : 0 < p) (poly : List (FP p)) (x : Int) :
    hornerPolyEval (poly.map fun c => (c.val : Int)) x p
      = ((polyValue poly (x : FP p)).val : Int) := by
  haveI : NeZero p := ⟨by omega⟩
  obtain ⟨⟨h0, h1⟩, hc⟩ := hornerPolyEval_loop (p := p)
    (poly.map fun c => (c.val : Int)) x hp0 poly.length 0 le_rfl (by exact_mod_cast hp0)
  have hfold : hornerPolyEval (poly.map fun c => (c.val : Int)) x p
      = (List.range poly.length).reverse.foldl (fun res i =>
          Int.emod (Int.emod (res * x) p + (poly.map fun c => (c.val : Int)).getD i 0) p) 0 := by
    unfold hornerPolyEval
    rw [List.length_map]
  rw [hfold]
  set z := (List.range poly.length).reverse.foldl (fun res i =>
      Int.emod (Int.emod (res * x) p + (poly.map fun c => (c.val : Int)).getD i 0) p) 0 with hz
  have hval : (z : FP p) = polyValue poly (x : FP p) := by
    rw [hc]
    unfold polyValue
    rw [list_sum_range_map, Int.cast_zero, zero_mul, zero_add]
    apply Finset.sum_congr rfl
    intro i hi
    have hi' : i < poly.length := Finset.mem_range.mp hi
    congr 1
    rw [List.getD_eq_getElem _ _ (by rw [List.length_map]; exact hi'),
      List.getD_eq_getElem _ _ hi', List.getElem_map]
    simp
  rw [← hval, ZMod.val_intCast, Int.emod_eq_of_lt h0 h1]

theorem getD_map_map {α β : Type} (F : Nat → α) (G : α → β) (n i : Nat) (hi : i < n) (d : β) :
    (((List.range n).map F).map G).getD i d = G (F i) := by
  rw [List.getD_eq_getElem _ _ (by simp; exact hi)]
  simp

/-- Column `i` of a rectangular matrix with at most 21 rows is interpolated
by a polynomial with one coefficient per row whose value at `k` is the entry
of row `k - 1`. -/
theorem r1csqap.PolynomialField.column_spec (hp : p.Prime) (hp21 : 21 < p)
    (pf : PolynomialField) (M : List (List (FP p))) (m i : Nat) (hm : m ≤ 21) :
    (pf.LagrangeInterpolation ((List.range m).map fun j => (M.getD j []).getD i 0)).length = m ∧
    ∀ k : Nat, 1 ≤ k → k ≤ m →
      polyValue (pf.LagrangeInterpolation ((List.range m).map fun j => (M.getD j []).getD i 0))
        (k : FP p) = (M.getD (k - 1) []).getD i 0 := by
  have hlen : ((List.range m).map fun j => (M.getD j []).getD i 0).length = m := by simp
  obtain ⟨h1, h2⟩ := r1csqap.PolynomialField.LagrangeInterpolation_spec hp pf
    ((List.range m).map fun j => (M.getD j []).getD i 0) (by rw [hlen]; exact hm)
    (by rw [hlen]; omega)
  rw [hlen] at h1 h2
  refine ⟨h1, ?_⟩
  intro k hk1 hkm
  rw [polyValue_eq_eval, h2 k hk1 hkm, List.getD_eq_getElem _ _ (by rw [hlen]; omega)]
  simp

end RoundTrip

/-- C4 (R1CS to QAP round trip): for rectangular `m x n` matrices with
`1 <= m <= 21` and `n >= 1`, over a prime modulus above 21, `R1CSToQAP`
returns exactly `n` polynomials per matrix, each with `m` coefficients, and
the Horner evaluation (test helper `hornerPolyEval`, on canonical
representatives, modulus `p`) of polynomial `i` at `k` in `1..m` is the
entry `[k-1][i]` of the matrix it was built from. -/
theorem R1CSToQAP_round_trip (p : Nat) (hp : p.Prime) (hp21 : 21 < p) (pf : PolynomialField)
    (a b c : List (List (FP p))) (m n : Nat) (hm1 : 1 ≤ m) (hm : m ≤ 21) (hn1 : 1 ≤ n)
    (ha : a.length = m ∧ ∀ row ∈ a, row.length = n)
    (hb : b.length = m ∧ ∀ row ∈ b, row.length = n)
    (hc : c.length = m ∧ ∀ row ∈ c, row.length = n) :
    ∃ alphas betas gammas zx, pf.R1CSToQAP a b c = .ok (alphas, betas, gammas, zx) ∧
      alphas.length = n ∧ betas.length = n ∧ gammas.length = n ∧
      ∀ i, i < n →
        (alphas.getD i []).length = m ∧ (betas.getD i []).length = m ∧
        (gammas.getD i []).length = m ∧
        ∀ k : Nat, 1 ≤ k → k ≤ m →
          hornerPolyEval ((alphas.getD i []).map fun x => (x.val : Int)) k p
            = (((a.getD (k - 1) []).getD i 0).val : Int) ∧
          hornerPolyEval ((betas.getD i []).map fun x => (x.val : Int)) k p
            = (((b.getD (k - 1) []).getD i 0).val : Int) ∧
          hornerPolyEval ((gammas.getD i []).map fun x => (x.val : Int)) k p
            = (((c.getD (k - 1) []).getD i 0).val : Int) := by
  obtain ⟨zx, hrun, _, _, _⟩ :=
    r1csqap.PolynomialField.R1CSToQAP_spec pf a b c m n hm1 hn1 ha hb hc
  refine ⟨_, _, _, zx, hrun, by simp, by simp, by simp, ?_⟩
  intro i hi
  rw [getD_map_map _ _ n i hi, getD_map_map _ _ n i hi, getD_map_map _ _ n i hi]
  obtain ⟨hla, hva⟩ := r1csqap.PolynomialField.column_spec hp hp21 pf a m i hm
  obtain ⟨hlb, hvb⟩ := r1csqap.PolynomialField.column_spec hp hp21 pf b m i hm
  obtain ⟨hlc, hvc⟩ := r1csqap.PolynomialField.column_spec hp hp21 pf c m i hm
  refine ⟨hla, hlb, hlc, ?_⟩
  intro k hk1 hkm
  have hp0 : 0 < p := by omega
  rw [hornerPolyEval_val hp0, hornerPolyEval_val hp0, hornerPolyEval_val hp0]
  have hcast : (((k : Nat) : Int) : FP p) = (k : FP p) := by simp
  rw [hcast, hva k hk1 hkm, hvb k hk1 hkm, hvc k hk1 hkm]
  exact ⟨rfl, rfl, rfl⟩

section QAPSatisfaction

variable {p : Nat}

theorem dot_eq_sum : ∀ (u v : List (FP p)) (n : Nat), u.length = n → v.length = n →
    dot u v = ∑ i in Finset.range n, v.getD i 0 * u.getD i 0 := by
  intro u
  induction u with
  | nil =>
    intro v n hu _
    simp only [List.length_nil] at hu
    subst hu
    simp [dot]
  | cons x xs ih =>
    intro v n hu hv
    cases v with
    | nil =>
      simp only [List.length_cons, List.length_nil] at hu hv
      omega
    | cons y ys =>
      simp only [List.length_cons] at hu hv
      obtain ⟨k, rfl⟩ : ∃ k, n = k + 1 := ⟨n - 1, by omega⟩
      have h := ih ys k (by omega) (by omega)
      unfold dot at h ⊢
      rw [Finset.sum_range_succ', List.zipWith_cons_cons, List.sum_cons, h]
      simp only [List.getD_cons_succ, List.getD_cons_zero]
      ring

theorem r1csqap.PolynomialField.combineLoop_spec (pf : PolynomialField) (w : List (FP p))
    (ap : List (List (FP p))) (m : Nat) (hm1 : 1 ≤ m) (hap : w.length ≤ ap.length)
    (hlen : ∀ i, i < w.length → (ap.getD i []).length = m) :
    ∀ n, n ≤ w.length →
      ∃ res, (List.range n).foldlM (fun alpha i => do
          let api ← r1csqap.index ap (Int.ofNat i)
          let m := pf.Mul [w.getD i 0] api
          return pf.Add alpha m) [] = Except.ok res ∧
        res.length = (if n = 0 then 0 else m) ∧
        toPoly res = ∑ i in Finset.range n,
          Polynomial.C (w.getD i 0) * toPoly (ap.getD i []) := by
  intro n
  induction n with
  | zero =>
    intro _
    refine ⟨[], rfl, by simp, ?_⟩
    ext i
    rw [toPoly_coeff]; simp
  | succ n ih =>
    intro hn
    obtain ⟨res, hrun, hl, hpoly⟩ := ih (by omega)
    rw [List.range_succ, List.foldlM_append, hrun]
    simp only [bind, Except.bind, List.foldlM_cons, List.foldlM_nil, pure, Except.pure]
    rw [r1csqap.index_ok ap n (by omega) []]
    simp only []
    refine ⟨_, rfl, ?_, ?_⟩
    · rw [(r1csqap.PolynomialField.Add_spec pf _ _).1, r1csqap.PolynomialField.Mul_length, hl,
        hlen n (by omega)]
      have hne : ¬ n + 1 = 0 := by omega
      rw [if_neg hne]
      simp only [List.length_singleton]
      have h1m : 1 + m - 1 = m := by omega
      rw [h1m]
      split_ifs
      · exact Nat.max_eq_right (Nat.zero_le _)
      · exact Nat.max_self _
    · rw [r1csqap.PolynomialField.toPoly_Add, r1csqap.PolynomialField.toPoly_Mul,
        toPoly_singleton, hpoly, Finset.sum_range_succ]

/-- A coefficient sequence of length `m` whose polynomial vanishes at the
`m` points `1..m` (distinct modulo `p`) denotes the zero polynomial. -/
theorem toPoly_eq_zero_of_roots (hp : p.Prime) (r : List (FP p)) (m : Nat)
    (hlen : r.length = m) (hmp : m < p)
    (hroots : ∀ k : Nat, 1 ≤ k → k ≤ m → (toPoly r).eval (k : FP p) = 0) : toPoly r = 0 := by
  haveI := Fact.mk hp
  have hinj : Set.InjOn (fun j : Nat => (j : FP p)) (Finset.Icc 1 m : Finset Nat) := by
    intro x hx y hy hxy
    simp only [Finset.coe_Icc, Set.mem_Icc] at hx hy
    have := (ZMod.natCast_eq_natCast_iff' x y p).mp hxy
    rw [Nat.mod_eq_of_lt (by omega), Nat.mod_eq_of_lt (by omega)] at this
    exact this
  apply Polynomial.eq_zero_of_degree_lt_of_eval_finset_eq_zero
    ((Finset.Icc 1 m).image (fun j : Nat => (j : FP p)))
  · rw [Finset.card_image_of_injOn hinj, Nat.card_Icc, Polynomial.degree_lt_iff_coeff_zero]
    intro i hi
    rw [toPoly_coeff, getD_of_le r i (by omega)]
  · intro x hx
    obtain ⟨j, hj, rfl⟩ := Finset.mem_image.mp hx
    rw [Finset.mem_Icc] at hj
    exact hroots j hj.1 hj.2

theorem r1csqap.target_eval_zero (m k : Nat) (hk1 : 1 ≤ k) (hkm : k ≤ m) :
    (((pointRange (Int.ofNat m)).map
      (fun i => Polynomial.X - Polynomial.C ((i : Int) : FP p))).prod).eval (k : FP p) = 0 := by
  rw [Polynomial.eval_list_prod]
  apply List.prod_eq_zero
  rw [List.map_map, List.mem_map]
  refine ⟨Int.ofNat k, ?_, by simp⟩
  rw [r1csqap.mem_pointRange]
  simp only [Int.ofNat_eq_coe]
  omega

end QAPSatisfaction

section QAPMain

variable {p : Nat}

/-- Value at `k` of a combined polynomial `sum_i w[i] * interp(column i)`:
the dot product of row `k - 1` with `w`. -/
theorem r1csqap.PolynomialField.combined_eval (hp : p.Prime) (hp21 : 21 < p)
    (pf : PolynomialField) (M : List (List (FP p))) (w : List (FP p)) (m n : Nat)
    (hm : m ≤ 21) (hM : M.length = m ∧ ∀ row ∈ M, row.length = n) (hw : w.length = n)
    (k : Nat) (hk1 : 1 ≤ k) (hkm : k ≤ m) :
    (∑ i in Finset.range n, Polynomial.C (w.getD i 0) *
      toPoly ((((List.range n).map fun i =>
        (List.range m).map fun j => (M.getD j []).getD i 0).map
          pf.LagrangeInterpolation).getD i [])).eval (k : FP p)
      = dot (M.getD (k - 1) []) w := by
  have hrow : (M.getD (k - 1) []).length = n := by
    apply hM.2
    rw [List.getD_eq_getElem _ _ (by omega)]
    exact List.getElem_mem _
  rw [dot_eq_sum _ _ n hrow hw, Polynomial.eval_finset_sum]
  apply Finset.sum_congr rfl
  intro i hi
  have hi' : i < n := Finset.mem_range.mp hi
  rw [getD_map_map _ _ n i hi', Polynomial.eval_mul, Polynomial.eval_C, ← polyValue_eq_eval,
    (r1csqap.PolynomialField.column_spec hp hp21 pf M m i hm).2 k hk1 hkm]

end QAPMain

/-- C1 (QAP satisfaction): for an R1CS `(a, b, c)` of `1 <= m <= 21` rows
and `n >= 1` columns over a prime modulus above 21, and a vector `w` of
length `n` satisfying every row, the pipeline `R1CSToQAP`,
`CombinePolynomials`, `DivisorPolynomial` runs without failure, the product
`Mul(hx, zx)` is `px` (same length, same coefficients), and `Div(px, zx)`
returns `hx` with the all-zero remainder of length `m`; `m = 1` included. -/
theorem qap_satisfaction (p : Nat) (hp : p.Prime) (hp21 : 21 < p) (pf : PolynomialField)
    (a b c : List (List (FP p))) (w : List (FP p)) (m n : Nat)
    (hm1 : 1 ≤ m) (hm : m ≤ 21) (hn1 : 1 ≤ n)
    (ha : a.length = m ∧ ∀ row ∈ a, row.length = n)
    (hb : b.length = m ∧ ∀ row ∈ b, row.length = n)
    (hc : c.length = m ∧ ∀ row ∈ c, row.length = n)
    (hw : w.length = n)
    (hsat : ∀ k, k < m →
      dot (a.getD k []) w * dot (b.getD k []) w = dot (c.getD k []) w) :
    ∃ alphas betas gammas zx ax bx cx px hx rem,
      pf.R1CSToQAP a b c = .ok (alphas, betas, gammas, zx) ∧
      pf.CombinePolynomials w alphas betas gammas = .ok (ax, bx, cx, px) ∧
      pf.DivisorPolynomial px zx = .ok hx ∧
      pf.Mul hx zx = px ∧
      pf.Div px zx = .ok (hx, rem) ∧
      rem = ArrayOfBigZeros p m := by
  haveI := Fact.mk hp
  obtain ⟨zx, hrun, hzl, hztop, hzpoly⟩ :=
    r1csqap.PolynomialField.R1CSToQAP_spec pf a b c m n hm1 hn1 ha hb hc
  have hcol : ∀ (M : List (List (FP p))) (i : Nat), i < w.length →
      ((((List.range n).map fun i => (List.range m).map fun j => (M.getD j []).getD i 0).map
        pf.LagrangeInterpolation).getD i []).length = m := by
    intro M i hi
    rw [getD_map_map _ _ n i (by omega)]
    exact (r1csqap.PolynomialField.column_spec hp hp21 pf M m i hm).1
  obtain ⟨ax, hax, haxl, haxp⟩ := r1csqap.PolynomialField.combineLoop_spec pf w _ m hm1
    (by simp [hw]) (hcol a) w.length le_rfl
  obtain ⟨bx, hbx, hbxl, hbxp⟩ := r1csqap.PolynomialField.combineLoop_spec pf w _ m hm1
    (by simp [hw]) (hcol b) w.length le_rfl
  obtain ⟨cx, hcx, hcxl, hcxp⟩ := r1csqap.PolynomialField.combineLoop_spec pf w _ m hm1
    (by simp [hw]) (hcol c) w.length le_rfl
  have hwne : ¬ w.length = 0 := by omega
  rw [if_neg hwne] at haxl hbxl hcxl
  rw [hw] at haxp hbxp hcxp
  have hpxl : (pf.Sub (pf.Mul ax bx) cx).length = 2 * m - 1 := by
    rw [(r1csqap.PolynomialField.Sub_spec pf _ _).1, r1csqap.PolynomialField.Mul_length,
      haxl, hbxl, hcxl]
    have hmax : Nat.max (m + m - 1) m = m + m - 1 := Nat.max_eq_left (by omega)
    rw [hmax]
    omega
  have hpxroot : ∀ k : Nat, 1 ≤ k → k ≤ m →
      (toPoly (pf.Sub (pf.Mul ax bx) cx)).eval (k : FP p) = 0 := by
    intro k hk1 hkm
    rw [r1csqap.PolynomialField.toPoly_Sub, r1csqap.PolynomialField.toPoly_Mul,
      Polynomial.eval_sub, Polynomial.eval_mul, haxp, hbxp, hcxp,
      r1csqap.PolynomialField.combined_eval hp hp21 pf a w m n hm ha hw k hk1 hkm,
      r1csqap.PolynomialField.combined_eval hp hp21 pf b w m n hm hb hw k hk1 hkm,
      r1csqap.PolynomialField.combined_eval hp hp21 pf c w m n hm hc hw k hk1 hkm,
      hsat (k - 1) (by omega), sub_self]
  have hzne : zx ≠ [] := by
    intro e; rw [e] at hzl; simp at hzl
  have hzlead : zx.getD (zx.length - 1) 0 ≠ 0 := by
    rw [hzl, Nat.add_sub_cancel, hztop]
    exact one_ne_zero
  obtain ⟨q, r, hdiv, hql, hrl, hqr⟩ := r1csqap.PolynomialField.Div_spec hp pf
    (pf.Sub (pf.Mul ax bx) cx) zx hzne hzlead
  rw [hpxl, hzl] at hql hrl
  have hrl' : r.length = m := by rw [hrl]; omega
  have hrzero : toPoly r = 0 := by
    apply toPoly_eq_zero_of_roots hp r m hrl' (by omega)
    intro k hk1 hkm
    have h1 := congrArg (Polynomial.eval (k : FP p)) hqr
    rw [Polynomial.eval_add, Polynomial.eval_mul, hpxroot k hk1 hkm, hzpoly,
      r1csqap.target_eval_zero m k hk1 hkm, mul_zero, zero_add] at h1
    exact h1
  refine ⟨_, _, _, zx, ax, bx, cx, pf.Sub (pf.Mul ax bx) cx, q, r, hrun, ?_, ?_, ?_, hdiv, ?_⟩
  · unfold PolynomialField.CombinePolynomials PolynomialField.combineLoop
    rw [hax, hbx, hcx]
    rfl
  · unfold PolynomialField.DivisorPolynomial
    rw [hdiv]
    rfl
  · apply list_eq_of_getD
    · rw [r1csqap.PolynomialField.Mul_length, hql, hzl, hpxl]
      omega
    · rw [← toPoly_eq_iff, r1csqap.PolynomialField.toPoly_Mul, ← hqr, hrzero, add_zero]
  · apply list_eq_of_getD
    · rw [hrl', r1csqap.ArrayOfBigZeros_length]
      rfl
    · intro i
      rw [r1csqap.ArrayOfBigZeros_getD, ← toPoly_coeff, hrzero, Polynomial.coeff_zero]

/-- C1 witness: the hard-coded R1CS of the tests with the witness
`[1, 35, 3, 9, 27, 30]`, over the prime 101. -/
theorem qap_satisfaction_witness :
    ∃ alphas betas gammas zx ax bx cx px hx rem,
      (NewPolynomialField (NewFq smallModulus)).R1CSToQAP hardcodedA hardcodedB hardcodedC
        = .ok (alphas, betas, gammas, zx) ∧
      (NewPolynomialField (NewFq smallModulus)).CombinePolynomials hardcodedW alphas betas gammas
        = .ok (ax, bx, cx, px) ∧
      (NewPolynomialField (NewFq smallModulus)).DivisorPolynomial px zx = .ok hx ∧
      (NewPolynomialField (NewFq smallModulus)).Mul hx zx = px ∧
      (NewPolynomialField (NewFq smallModulus)).Div px zx = .ok (hx, rem) ∧
      rem = ArrayOfBigZeros smallModulus 4 :=
  qap_satisfaction smallModulus (by norm_num [smallModulus]) (by norm_num [smallModulus])
    (NewPolynomialField (NewFq smallModulus)) hardcodedA hardcodedB hardcodedC hardcodedW 4 6
    (by decide) (by decide) (by decide) (by decide) (by decide) (by decide) (by decide)
    (by decide)

/-- C2 (division with remainder): over a prime modulus, for `|a| >= |b| >= 1`
and a non-zero last coefficient of `b`, `Div(a, b)` returns `(q, r)` with
`|q| = |a| - |b| + 1`, `|r| = |b| - 1` and `a = Add(Mul(q, b), r)`. -/
theorem div_with_remainder (p : Nat) (hp : p.Prime) (pf : PolynomialField)
    (a b : List (FP p)) (hb1 : 1 ≤ b.length) (hab : b.length ≤ a.length)
    (hlead : b.getD (b.length - 1) 0 ≠ 0) :
    ∃ q r, pf.Div a b = .ok (q, r) ∧ q.length = a.length - b.length + 1 ∧
      r.length = b.length - 1 ∧ a = pf.Add (pf.Mul q b) r := by
  have hbne : b ≠ [] := by
    intro e; rw [e] at hb1; simp at hb1
  obtain ⟨q, r, hdiv, hql, hrl, hqr⟩ := r1csqap.PolynomialField.Div_spec hp pf a b hbne hlead
  have hql' : q.length = a.length - b.length + 1 := by rw [hql]; omega
  have hrl' : r.length = b.length - 1 := by rw [hrl]; omega
  refine ⟨q, r, hdiv, hql', hrl', ?_⟩
  apply list_eq_of_getD
  · rw [(r1csqap.PolynomialField.Add_spec pf _ _).1, r1csqap.PolynomialField.Mul_length, hql',
      hrl']
    have h1 : a.length - b.length + 1 + b.length - 1 = a.length := by omega
    rw [h1]
    exact (Nat.max_eq_left (by omega)).symm
  · rw [← toPoly_eq_iff, r1csqap.PolynomialField.toPoly_Add, r1csqap.PolynomialField.toPoly_Mul,
      hqr]

/-- C2 witness: `[3, 0, 16, 0, 7]` divided by `[3, 2]` over the prime 101. -/
theorem div_with_remainder_witness :
    ∃ q r, (NewPolynomialField (NewFq smallModulus)).Div
        ([3, 0, 16, 0, 7] : List (FP smallModulus)) [3, 2] = .ok (q, r) ∧
      q.length = ([3, 0, 16, 0, 7] : List (FP smallModulus)).length
        - ([3, 2] : List (FP smallModulus)).length + 1 ∧
      r.length = ([3, 2] : List (FP smallModulus)).length - 1 ∧
      ([3, 0, 16, 0, 7] : List (FP smallModulus))
        = (NewPolynomialField (NewFq smallModulus)).Add
            ((NewPolynomialField (NewFq smallModulus)).Mul q [3, 2]) r :=
  div_with_remainder smallModulus (by norm_num [smallModulus])
    (NewPolynomialField (NewFq smallModulus)) [3, 0, 16, 0, 7] [3, 2] (by decide) (by decide)
    (by decide)

/-- C4 witness: the hard-coded R1CS of the tests over the prime 101. -/
theorem R1CSToQAP_round_trip_witness :
    ∃ alphas betas gammas zx,
      (NewPolynomialField (NewFq smallModulus)).R1CSToQAP hardcodedA hardcodedB hardcodedC
        = .ok (alphas, betas, gammas, zx) ∧
      alphas.length = 6 ∧ betas.length = 6 ∧ gammas.length = 6 ∧
      ∀ i, i < 6 →
        (alphas.getD i []).length = 4 ∧ (betas.getD i []).length = 4 ∧
        (gammas.getD i []).length = 4 ∧
        ∀ k : Nat, 1 ≤ k → k ≤ 4 →
          hornerPolyEval ((alphas.getD i []).map fun x => (x.val : Int)) k smallModulus
            = (((hardcodedA.getD (k - 1) []).getD i 0).val : Int) ∧
          hornerPolyEval ((betas.getD i []).map fun x => (x.val : Int)) k smallModulus
            = (((hardcodedB.getD (k - 1) []).getD i 0).val : Int) ∧
          hornerPolyEval ((gammas.getD i []).map fun x => (x.val : Int)) k smallModulus
            = (((hardcodedC.getD (k - 1) []).getD i 0).val : Int) :=
  R1CSToQAP_round_trip smallModulus (by norm_num [smallModulus]) (by norm_num [smallModulus])
    (NewPolynomialField (NewFq smallModulus)) hardcodedA hardcodedB hardcodedC 4 6
    (by decide) (by decide) (by decide) (by decide) (by decide) (by decide)

/-- C3 (code evaluated at the failing input): for `out = x - y` with
`x = 3`, `y = 1`, both `GenerateR1CS` and `CalculateWitness` succeed, the
witness is `[1, 2, 3, 1]`, and the only row has `(A·w)·(B·w) = -4` while
`C·w = 2`; the two sides differ as integers and in the field. -/
theorem r1cs_invariant_fails_on_subtraction :
    subCircuit.GenerateR1CS = .ok ([[0, 0, -1, -1]], [[1, 0, 0, 0]], [[0, 1, 0, 0]]) ∧
    subCircuit.CalculateWitness [3, 1] = .ok ([1, 2, 3, 1], none) ∧
    dotInt [0, 0, -1, -1] [1, 2, 3, 1] * dotInt [1, 0, 0, 0] [1, 2, 3, 1] = -4 ∧
    dotInt [0, 1, 0, 0] [1, 2, 3, 1] = 2 ∧
    dot (([0, 0, -1, -1] : List Int).map (NewFPint Modulus381))
          (([1, 2, 3, 1] : List Int).map (NewFPint Modulus381))
        * dot (([1, 0, 0, 0] : List Int).map (NewFPint Modulus381))
          (([1, 2, 3, 1] : List Int).map (NewFPint Modulus381))
      ≠ dot (([0, 1, 0, 0] : List Int).map (NewFPint Modulus381))
          (([1, 2, 3, 1] : List Int).map (NewFPint Modulus381)) := by
  refine ⟨by rfl, by rfl, by decide, by decide, by decide⟩

set_option maxRecDepth 1000000 in
/-- C5 (code evaluated at the failing input): with 22 points the machine
integer `fac` wraps, here from `-21!` to `4249290049419214848`, and the
polynomial `NewPolZeroAt(1, 22, 1)` does not take the value `1` at `x = 1`. -/
theorem NewPolZeroAt_overflow :
    (pointRange 22).foldl
      (fun fac i => if i ≠ 1 then wrapInt (fac * (1 - i)) else fac) 1 = 4249290049419214848 ∧
    (pointRange 22).foldl
      (fun fac i => if i ≠ 1 then fac * (1 - i) else fac) 1 = -51090942171709440000 ∧
    polyValue (testPF.NewPolZeroAt 1 22 (1 : FP Modulus381)) 1 ≠ 1 := by
  refine ⟨by decide, by decide, by decide⟩

set_option maxRecDepth 1000000 in
/-- C6 (code evaluated at the test inputs): `Eval` of the interpolation of
`[0, 0, 0, 5]` at `4` is `0`, not `5`, and `Eval` of `NewPolZeroAt(3, 4, 4)`
at `3` is `0`, not `4`. -/
theorem Eval_round_trip_fails :
    testPF.Eval (testPF.LagrangeInterpolation ([0, 0, 0, 5] : List (FP Modulus381))) 4 = 0 ∧
    (0 : FP Modulus381) ≠ 5 ∧
    testPF.Eval (testPF.NewPolZeroAt 3 4 (4 : FP Modulus381)) 3 = 0 ∧
    (0 : FP Modulus381) ≠ 4 := by
  refine ⟨by decide, by decide, by decide, by decide⟩

set_option maxRecDepth 1000000 in
/-- C7 (code evaluated at the failing input): for the constant polynomial
`[1]` and `x = 2`, `Eval` returns `2`, while the sum of `p[i] * x^i` and the
Horner evaluation of the test helper are both `1`. -/
theorem Eval_differs_from_horner :
    testPF.Eval ([1] : List (FP Modulus381)) 2 = 2 ∧
    polyValue ([1] : List (FP Modulus381)) 2 = 1 ∧
    hornerPolyEval [1] 2 Modulus381 = 1 ∧
    (2 : FP Modulus381) ≠ 1 := by
  refine ⟨by decide, by decide, by decide, by decide⟩

set_option maxRecDepth 1000000 in
/-- C8 (code evaluated at the failing input): `Exp(2, 0)` returns `2`, not
`1`; `Exp(0, 0)` returns `0`, not `1`; and `Exp(2, 5)` returns `2`, not
`32`. -/
theorem Exp_returns_base :
    (NewFq Modulus381).Exp (2 : FP Modulus381) 0 = 2 ∧
    (NewFq Modulus381).Exp (0 : FP Modulus381) 0 = 0 ∧
    (NewFq Modulus381).Exp (2 : FP Modulus381) 5 = 2 ∧
    (2 : FP Modulus381) ≠ 1 ∧ (0 : FP Modulus381) ≠ 1 ∧ (2 : FP Modulus381) ≠ 32 := by
  refine ⟨by decide, by decide, by decide, by decide, by decide, by decide⟩

section R1CSBuilder

open circuitcompiler

theorem except_bind_ok {ε α β : Type} (x : Except ε α) (f : α → Except ε β) (b : β)
    (h : (x >>= f) = .ok b) : ∃ a, x = .ok a ∧ f a = .ok b := by
  cases x with
  | error e => simp [bind, Except.bind] at h
  | ok a => exact ⟨a, rfl, h⟩

theorem circuitcompiler.bigZeros_eq_replicate (n : Nat) :
    circuitcompiler.ArrayOfBigZeros (Int.ofNat n) = List.replicate n 0 := by
  unfold circuitcompiler.ArrayOfBigZeros
  show (List.range n).foldl (fun r _ => r ++ [0]) [] = _
  induction n with
  | zero => simp
  | succ k ih =>
    rw [List.range_succ, List.foldl_append, ih]
    simp [List.replicate_succ']

theorem circuitcompiler.index_ok_iff {α : Type} (s : List α) (i : Int) (x d : α)
    (h : circuitcompiler.index s i = .ok x) :
    0 ≤ i ∧ i.toNat < s.length ∧ x = s.getD i.toNat d := by
  unfold circuitcompiler.index at h
  split_ifs at h with hneg
  rw [List.get?_eq_getElem?] at h
  by_cases hlt : i.toNat < s.length
  · rw [List.getElem?_eq_getElem hlt] at h
    simp only [Except.ok.injEq] at h
    refine ⟨by omega, hlt, ?_⟩
    rw [List.getD_eq_getElem _ _ hlt, h]
  · rw [List.getElem?_eq_none (by omega)] at h
    simp at h

theorem circuitcompiler.setIndex_ok_iff {α : Type} (s s' : List α) (i : Int) (x : α)
    (h : circuitcompiler.setIndex s i x = .ok s') :
    0 ≤ i ∧ i.toNat < s.length ∧ s' = s.set i.toNat x := by
  unfold circuitcompiler.setIndex at h
  split_ifs at h with hneg hlt
  simp only [Except.ok.injEq] at h
  exact ⟨by omega, hlt, h.symm⟩

theorem circuitcompiler.insertVarWith_ok (delta : Int) (arr arr' : List Int)
    (signals : List String) (v : String) (used used' : List String)
    (h : insertVarWith delta arr signals v used = .ok (arr', used')) :
    used' = used ∧ arr' = addOperand arr signals v delta := by
  unfold insertVarWith at h
  unfold addOperand
  simp only [] at h
  by_cases hval : (isValue v).1 = true
  · rw [if_pos hval] at h
    rw [if_pos hval]
    obtain ⟨x, hx, h⟩ := except_bind_ok _ _ _ h
    obtain ⟨y, hy, h⟩ := except_bind_ok _ _ _ h
    obtain ⟨_, _, hx'⟩ := circuitcompiler.index_ok_iff arr 0 x 0 hx
    obtain ⟨_, _, hy'⟩ := circuitcompiler.setIndex_ok_iff arr y 0 _ hy
    simp only [pure, Except.pure, Except.ok.injEq, Prod.mk.injEq] at h
    refine ⟨h.2.symm, ?_⟩
    rw [← h.1, hy', hx']
    rfl
  · rw [if_neg hval] at h
    rw [if_neg hval]
    split_ifs at h with hu
    obtain ⟨x, hx, h⟩ := except_bind_ok _ _ _ h
    obtain ⟨y, hy, h⟩ := except_bind_ok _ _ _ h
    obtain ⟨_, _, hx'⟩ := circuitcompiler.index_ok_iff arr _ x 0 hx
    obtain ⟨_, _, hy'⟩ := circuitcompiler.setIndex_ok_iff arr y _ _ hy
    simp only [pure, Except.pure, Except.ok.injEq, Prod.mk.injEq] at h
    refine ⟨h.2.symm, ?_⟩
    rw [← h.1, hy', hx']
    rfl

end R1CSBuilder

section R1CSBuilderStep

open circuitcompiler

theorem except_map_ok {ε α β : Type} (x : Except ε α) (f : α → β) (b : β)
    (h : f <$> x = .ok b) : ∃ a, x = .ok a ∧ f a = b := by
  cases x with
  | error e => simp [Functor.map, Except.map] at h
  | ok a =>
    simp only [Functor.map, Except.map, Except.ok.injEq] at h
    exact ⟨a, rfl, h⟩

theorem circuitcompiler.GenerateR1CSStep_in (circ : Circuit) (st st' : R1CSState)
    (con : Constraint) (hin : con.Op = "in")
    (h : circ.GenerateR1CSStep st con = .ok st') :
    st'.a = st.a ∧ st'.b = st.b ∧ st'.c = st.c := by
  unfold Circuit.GenerateR1CSStep at h
  simp only [] at h
  split_ifs at h with hused
  simp only [bind_pure_comp] at h
  obtain ⟨v, _, hv⟩ := except_map_ok _ _ _ h
  rw [← hv]
  exact ⟨rfl, rfl, rfl⟩

theorem circuitcompiler.setIndex_zero_row (n : Nat) (i : Int) (x : Int) (s : List Int)
    (h : setIndex (List.replicate n (0 : Int)) i x = .ok s) (signals : List String)
    (v : String) (hi : i = indexInArray signals v) :
    s = (List.replicate n (0 : Int)).set (idx signals v) x := by
  obtain ⟨_, _, hs⟩ := circuitcompiler.setIndex_ok_iff _ _ _ _ h
  rw [hs, hi]
  rfl

theorem circuitcompiler.GenerateR1CSStep_op (circ : Circuit) (st st' : R1CSState)
    (con : Constraint) (hin : con.Op ≠ "in")
    (h : circ.GenerateR1CSStep st con = .ok st') :
    st'.a = st.a ++ [(specRowRule circ.Signals con).1] ∧
    st'.b = st.b ++ [(specRowRule circ.Signals con).2.1] ∧
    st'.c = st.c ++ [(specRowRule circ.Signals con).2.2] := by
  unfold Circuit.GenerateR1CSStep at h
  have hz := circuitcompiler.bigZeros_eq_replicate circ.Signals.length
  simp only [Int.ofNat_eq_coe] at hz
  simp only [hz] at h
  unfold specRowRule
  simp only []
  split_ifs at h with hused hplus hminus hmul hdiv
  · simp only [bind_pure_comp] at h
    obtain ⟨v, hv, hst⟩ := except_map_ok _ _ _ h
    obtain ⟨cC, hcC, hv⟩ := except_bind_ok _ _ _ hv
    obtain ⟨d1, hd1, hv⟩ := except_bind_ok _ _ _ hv
    obtain ⟨d2, hd2, hv⟩ := except_bind_ok _ _ _ hv
    obtain ⟨bC, hbC, hv⟩ := except_map_ok _ _ _ hv
    obtain ⟨_, h1⟩ := circuitcompiler.insertVarWith_ok 1 _ d1.1 _ _ _ d1.2 hd1
    obtain ⟨_, h2⟩ := circuitcompiler.insertVarWith_ok 1 _ d2.1 _ _ _ d2.2 hd2
    obtain ⟨_, _, h3⟩ := circuitcompiler.setIndex_ok_iff _ _ _ _ hbC
    have h4 := circuitcompiler.setIndex_zero_row _ _ _ _ hcC circ.Signals con.Out rfl
    rw [← hst, ← hv, if_pos hplus]
    simp only []
    rw [h2, h1, h3, h4]
    exact ⟨rfl, rfl, rfl⟩
  · simp only [bind_pure_comp] at h
    obtain ⟨v, hv, hst⟩ := except_map_ok _ _ _ h
    obtain ⟨cC, hcC, hv⟩ := except_bind_ok _ _ _ hv
    obtain ⟨d1, hd1, hv⟩ := except_bind_ok _ _ _ hv
    obtain ⟨d2, hd2, hv⟩ := except_bind_ok _ _ _ hv
    obtain ⟨bC, hbC, hv⟩ := except_map_ok _ _ _ hv
    obtain ⟨_, h1⟩ := circuitcompiler.insertVarWith_ok (-1) _ d1.1 _ _ _ d1.2 hd1
    obtain ⟨_, h2⟩ := circuitcompiler.insertVarWith_ok (-1) _ d2.1 _ _ _ d2.2 hd2
    obtain ⟨_, _, h3⟩ := circuitcompiler.setIndex_ok_iff _ _ _ _ hbC
    have h4 := circuitcompiler.setIndex_zero_row _ _ _ _ hcC circ.Signals con.Out rfl
    rw [← hst, ← hv, if_neg hplus, if_pos hminus]
    simp only []
    rw [h2, h1, h3, h4]
    exact ⟨rfl, rfl, rfl⟩
  · simp only [bind_pure_comp] at h
    obtain ⟨v, hv, hst⟩ := except_map_ok _ _ _ h
    obtain ⟨cC, hcC, hv⟩ := except_bind_ok _ _ _ hv
    obtain ⟨d1, hd1, hv⟩ := except_bind_ok _ _ _ hv
    obtain ⟨d2, hd2, hv⟩ := except_map_ok _ _ _ hv
    obtain ⟨_, h1⟩ := circuitcompiler.insertVarWith_ok 1 _ d1.1 _ _ _ d1.2 hd1
    obtain ⟨_, h2⟩ := circuitcompiler.insertVarWith_ok 1 _ d2.1 _ _ _ d2.2 hd2
    have h4 := circuitcompiler.setIndex_zero_row _ _ _ _ hcC circ.Signals con.Out rfl
    rw [← hst, ← hv, if_neg hplus, if_neg hminus, if_pos hmul]
    simp only []
    rw [h2, h1, h4]
    exact ⟨rfl, rfl, rfl⟩
  · simp only [bind_pure_comp] at h
    obtain ⟨v, hv, hst⟩ := except_map_ok _ _ _ h
    obtain ⟨d1, hd1, hv⟩ := except_bind_ok _ _ _ hv
    obtain ⟨cC, hcC, hv⟩ := except_bind_ok _ _ _ hv
    obtain ⟨d2, hd2, hv⟩ := except_map_ok _ _ _ hv
    obtain ⟨_, h1⟩ := circuitcompiler.insertVarWith_ok 1 _ d1.1 _ _ _ d1.2 hd1
    obtain ⟨_, h2⟩ := circuitcompiler.insertVarWith_ok 1 _ d2.1 _ _ _ d2.2 hd2
    obtain ⟨_, _, h4⟩ := circuitcompiler.setIndex_ok_iff _ _ _ _ hcC
    rw [← hst, ← hv, if_neg hplus, if_neg hminus, if_neg hmul, if_pos hdiv]
    simp only []
    rw [h2, h4, h1]
    exact ⟨trivial, rfl, rfl⟩
  · simp only [bind_pure_comp] at h
    obtain ⟨v, hv, hst⟩ := except_map_ok _ _ _ h
    simp only [pure, Except.pure, Except.ok.injEq] at hv
    rw [← hst, ← hv, if_neg hplus, if_neg hminus, if_neg hmul, if_neg hdiv]
    exact ⟨rfl, rfl, rfl⟩

end R1CSBuilderStep

section R1CSBuilderFold

open circuitcompiler

theorem circuitcompiler.GenerateR1CS_fold (circ : Circuit) :
    ∀ (cs : List Constraint) (st st' : R1CSState),
      cs.foldlM circ.GenerateR1CSStep st = .ok st' →
      st'.a = st.a ++ (cs.filter (fun c => decide (c.Op ≠ "in"))).map
          (fun con => (specRowRule circ.Signals con).1) ∧
      st'.b = st.b ++ (cs.filter (fun c => decide (c.Op ≠ "in"))).map
          (fun con => (specRowRule circ.Signals con).2.1) ∧
      st'.c = st.c ++ (cs.filter (fun c => decide (c.Op ≠ "in"))).map
          (fun con => (specRowRule circ.Signals con).2.2) := by
  intro cs
  induction cs with
  | nil =>
    intro st st' h
    simp only [List.foldlM_nil, pure, Except.pure, Except.ok.injEq] at h
    subst h
    simp
  | cons x xs ih =>
    intro st st' h
    rw [List.foldlM_cons] at h
    obtain ⟨st1, h1, h2⟩ := except_bind_ok _ _ _ h
    obtain ⟨ha, hb, hc⟩ := ih st1 st' h2
    by_cases hin : x.Op = "in"
    · obtain ⟨ha1, hb1, hc1⟩ := circuitcompiler.GenerateR1CSStep_in circ st st1 x hin h1
      have hf : decide (x.Op ≠ "in") = false := by simp [hin]
      rw [List.filter_cons_of_neg (by simp [hin])]
      rw [ha, hb, hc, ha1, hb1, hc1]
      exact ⟨rfl, rfl, rfl⟩
    · obtain ⟨ha1, hb1, hc1⟩ := circuitcompiler.GenerateR1CSStep_op circ st st1 x hin h1
      rw [List.filter_cons_of_pos (by simp [hin])]
      rw [ha, hb, hc, ha1, hb1, hc1]
      simp

theorem circuitcompiler.specRowRule_length (signals : List String) (con : Constraint) :
    (specRowRule signals con).1.length = signals.length ∧
    (specRowRule signals con).2.1.length = signals.length ∧
    (specRowRule signals con).2.2.length = signals.length := by
  have hadd : ∀ (row : List Int) (v : String) (d : Int),
      (addOperand row signals v d).length = row.length := by
    intro row v d
    unfold addOperand
    split_ifs <;> simp
  unfold specRowRule
  simp only []
  split_ifs <;> simp [hadd]

theorem circuitcompiler.GenerateR1CS_ok (circ : Circuit) (a b c : List (List Int))
    (h : circ.GenerateR1CS = .ok (a, b, c)) :
    ∃ st, circ.Constraints.foldlM circ.GenerateR1CSStep {} = .ok st ∧
      a = st.a ∧ b = st.b ∧ c = st.c := by
  unfold Circuit.GenerateR1CS at h
  obtain ⟨st, hst, h⟩ := except_bind_ok _ _ _ h
  simp only [pure, Except.pure, Except.ok.injEq, Prod.mk.injEq] at h
  exact ⟨st, hst, h.1.symm, h.2.1.symm, h.2.2.symm⟩

end R1CSBuilderFold

/-- C9 (per-constraint row rules): when `GenerateR1CS` succeeds, the row it
emits for the `k`-th constraint that is not `in`, with op `+`, `-`, `*` or
`/`, is the row the rules of the specification give (`specRowRule`,
`addOperand`: a decimal literal adds its value to column 0, also under `-`);
and for scenario S1 the result is the hard-coded `a`, `b`, `c` of
`TestZkFromHardcodedR1CS`. -/
theorem per_constraint_row_rules (circ : circuitcompiler.Circuit) (a b c : List (List Int))
    (h : circ.GenerateR1CS = .ok (a, b, c)) :
    (∀ (k : Nat) (con : circuitcompiler.Constraint),
      (circ.Constraints.filter (fun c => decide (c.Op ≠ "in"))).get? k = some con →
      (con.Op = "+" ∨ con.Op = "-" ∨ con.Op = "*" ∨ con.Op = "/") →
      a.get? k = some (circuitcompiler.specRowRule circ.Signals con).1 ∧
      b.get? k = some (circuitcompiler.specRowRule circ.Signals con).2.1 ∧
      c.get? k = some (circuitcompiler.specRowRule circ.Signals con).2.2) ∧
    circuitS1.GenerateR1CS = .ok
      ([[0, 0, 1, 0, 0, 0], [0, 0, 0, 1, 0, 0], [0, 0, 1, 0, 1, 0], [5, 0, 0, 0, 0, 1]],
       [[0, 0, 1, 0, 0, 0], [0, 0, 1, 0, 0, 0], [1, 0, 0, 0, 0, 0], [1, 0, 0, 0, 0, 0]],
       [[0, 0, 0, 1, 0, 0], [0, 0, 0, 0, 1, 0], [0, 0, 0, 0, 0, 1], [0, 1, 0, 0, 0, 0]]) := by
  refine ⟨?_, by rfl⟩
  intro k con hk _
  obtain ⟨st, hst, rfl, rfl, rfl⟩ := circuitcompiler.GenerateR1CS_ok circ a b c h
  obtain ⟨ha, hb, hc⟩ := circuitcompiler.GenerateR1CS_fold circ _ _ _ hst
  rw [ha, hb, hc]
  simp only [List.nil_append, List.get?_eq_getElem?, List.getElem?_map] at hk ⊢
  rw [hk]
  exact ⟨rfl, rfl, rfl⟩

/-- C9 witness: scenario S1, row 3, the constraint `out = z + 5` with a
literal operand. -/
theorem per_constraint_row_rules_witness :
    (∀ (k : Nat) (con : circuitcompiler.Constraint),
      (circuitS1.Constraints.filter (fun c => decide (c.Op ≠ "in"))).get? k = some con →
      (con.Op = "+" ∨ con.Op = "-" ∨ con.Op = "*" ∨ con.Op = "/") →
      ([[0, 0, 1, 0, 0, 0], [0, 0, 0, 1, 0, 0], [0, 0, 1, 0, 1, 0], [5, 0, 0, 0, 0, 1]] :
          List (List Int)).get? k
        = some (circuitcompiler.specRowRule circuitS1.Signals con).1 ∧
      ([[0, 0, 1, 0, 0, 0], [0, 0, 1, 0, 0, 0], [1, 0, 0, 0, 0, 0], [1, 0, 0, 0, 0, 0]] :
          List (List Int)).get? k
        = some (circuitcompiler.specRowRule circuitS1.Signals con).2.1 ∧
      ([[0, 0, 0, 1, 0, 0], [0, 0, 0, 0, 1, 0], [0, 0, 0, 0, 0, 1], [0, 1, 0, 0, 0, 0]] :
          List (List Int)).get? k
        = some (circuitcompiler.specRowRule circuitS1.Signals con).2.2) ∧
    circuitS1.GenerateR1CS = .ok
      ([[0, 0, 1, 0, 0, 0], [0, 0, 0, 1, 0, 0], [0, 0, 1, 0, 1, 0], [5, 0, 0, 0, 0, 1]],
       [[0, 0, 1, 0, 0, 0], [0, 0, 1, 0, 0, 0], [1, 0, 0, 0, 0, 0], [1, 0, 0, 0, 0, 0]],
       [[0, 0, 0, 1, 0, 0], [0, 0, 0, 0, 1, 0], [0, 0, 0, 0, 0, 1], [0, 1, 0, 0, 0, 0]]) :=
  per_constraint_row_rules circuitS1 _ _ _ (by rfl)

/-- C10 (R1CS shape): when `GenerateR1CS` succeeds, each of `A`, `B`, `C`
has one row per constraint whose op is not `in`, every row has length
`|Signals|`, and the rows come in declaration order: for every split of the
constraint list into a prefix and a rest, the builder run on the prefix alone
succeeds and returns the first rows, as many as the prefix has constraints
that are not `in` (so an `in` constraint adds no row). -/
theorem r1cs_shape (circ : circuitcompiler.Circuit) (a b c : List (List Int))
    (h : circ.GenerateR1CS = .ok (a, b, c)) :
    a.length = (circ.Constraints.filter (fun c => decide (c.Op ≠ "in"))).length ∧
    b.length = (circ.Constraints.filter (fun c => decide (c.Op ≠ "in"))).length ∧
    c.length = (circ.Constraints.filter (fun c => decide (c.Op ≠ "in"))).length ∧
    (∀ row, row ∈ a ∨ row ∈ b ∨ row ∈ c → row.length = circ.Signals.length) ∧
    (∀ pre post, circ.Constraints = pre ++ post →
      ({ circ with Constraints := pre } : circuitcompiler.Circuit).GenerateR1CS = .ok
        (a.take (pre.filter (fun c => decide (c.Op ≠ "in"))).length,
         b.take (pre.filter (fun c => decide (c.Op ≠ "in"))).length,
         c.take (pre.filter (fun c => decide (c.Op ≠ "in"))).length)) := by
  obtain ⟨st, hst, rfl, rfl, rfl⟩ := circuitcompiler.GenerateR1CS_ok circ a b c h
  obtain ⟨ha, hb, hc⟩ := circuitcompiler.GenerateR1CS_fold circ _ _ _ hst
  simp only [List.nil_append] at ha hb hc
  refine ⟨by rw [ha, List.length_map], by rw [hb, List.length_map],
    by rw [hc, List.length_map], ?_, ?_⟩
  · intro row hrow
    rw [ha, hb, hc] at hrow
    rcases hrow with hr | hr | hr
    · obtain ⟨con, _, rfl⟩ := List.mem_map.mp hr
      exact (circuitcompiler.specRowRule_length _ _).1
    · obtain ⟨con, _, rfl⟩ := List.mem_map.mp hr
      exact (circuitcompiler.specRowRule_length _ _).2.1
    · obtain ⟨con, _, rfl⟩ := List.mem_map.mp hr
      exact (circuitcompiler.specRowRule_length _ _).2.2
  · intro pre post hsplit
    rw [hsplit, List.foldlM_append] at hst
    obtain ⟨st1, h1, _⟩ := except_bind_ok _ _ _ hst
    obtain ⟨ha1, hb1, hc1⟩ := circuitcompiler.GenerateR1CS_fold circ _ _ _ h1
    simp only [List.nil_append] at ha1 hb1 hc1
    have hrun : ({ circ with Constraints := pre } : circuitcompiler.Circuit).GenerateR1CS
        = .ok (st1.a, st1.b, st1.c) := by
      unfold circuitcompiler.Circuit.GenerateR1CS
      have hstep : ({ circ with Constraints := pre } : circuitcompiler.Circuit).GenerateR1CSStep
          = circ.GenerateR1CSStep := rfl
      rw [hstep]
      show (pre.foldlM circ.GenerateR1CSStep {} >>= _) = _
      rw [h1]
      rfl
    rw [hrun, ha, hb, hc, hsplit, List.filter_append, List.map_append, List.map_append,
      List.map_append, ← ha1, ← hb1, ← hc1]
    have hl1 : (pre.filter (fun c => decide (c.Op ≠ "in"))).length = st1.a.length := by
      rw [ha1, List.length_map]
    have hl2 : (pre.filter (fun c => decide (c.Op ≠ "in"))).length = st1.b.length := by
      rw [hb1, List.length_map]
    have hl3 : (pre.filter (fun c => decide (c.Op ≠ "in"))).length = st1.c.length := by
      rw [hc1, List.length_map]
    congr 2
    · rw [hl1, List.take_left]
    · congr 1
      · rw [hl2, List.take_left]
      · rw [hl3, List.take_left]

/-- C10 witness: scenario S1 (one `in` constraint, four rows of length 6). -/
theorem r1cs_shape_witness :
    ([[0, 0, 1, 0, 0, 0], [0, 0, 0, 1, 0, 0], [0, 0, 1, 0, 1, 0], [5, 0, 0, 0, 0, 1]] :
        List (List Int)).length
      = (circuitS1.Constraints.filter (fun c => decide (c.Op ≠ "in"))).length ∧
    ([[0, 0, 1, 0, 0, 0], [0, 0, 1, 0, 0, 0], [1, 0, 0, 0, 0, 0], [1, 0, 0, 0, 0, 0]] :
        List (List Int)).length
      = (circuitS1.Constraints.filter (fun c => decide (c.Op ≠ "in"))).length ∧
    ([[0, 0, 0, 1, 0, 0], [0, 0, 0, 0, 1, 0], [0, 0, 0, 0, 0, 1], [0, 1, 0, 0, 0, 0]] :
        List (List Int)).length
      = (circuitS1.Constraints.filter (fun c => decide (c.Op ≠ "in"))).length ∧
    (∀ row,
      row ∈ ([[0, 0, 1, 0, 0, 0], [0, 0, 0, 1, 0, 0], [0, 0, 1, 0, 1, 0], [5, 0, 0, 0, 0, 1]] :
          List (List Int)) ∨
      row ∈ ([[0, 0, 1, 0, 0, 0], [0, 0, 1, 0, 0, 0], [1, 0, 0, 0, 0, 0], [1, 0, 0, 0, 0, 0]] :
          List (List Int)) ∨
      row ∈ ([[0, 0, 0, 1, 0, 0], [0, 0, 0, 0, 1, 0], [0, 0, 0, 0, 0, 1], [0, 1, 0, 0, 0, 0]] :
          List (List Int)) → row.length = circuitS1.Signals.length) ∧
    (∀ pre post, circuitS1.Constraints = pre ++ post →
      ({ circuitS1 with Constraints := pre } : circuitcompiler.Circuit).GenerateR1CS = .ok
        (([[0, 0, 1, 0, 0, 0], [0, 0, 0, 1, 0, 0], [0, 0, 1, 0, 1, 0], [5, 0, 0, 0, 0, 1]] :
            List (List Int)).take (pre.filter (fun c => decide (c.Op ≠ "in"))).length,
         ([[0, 0, 1, 0, 0, 0], [0, 0, 1, 0, 0, 0], [1, 0, 0, 0, 0, 0], [1, 0, 0, 0, 0, 0]] :
            List (List Int)).take (pre.filter (fun c => decide (c.Op ≠ "in"))).length,
         ([[0, 0, 0, 1, 0, 0], [0, 0, 0, 0, 1, 0], [0, 0, 0, 0, 0, 1], [0, 1, 0, 0, 0, 0]] :
            List (List Int)).take (pre.filter (fun c => decide (c.Op ≠ "in"))).length)) :=
  r1cs_shape circuitS1 _ _ _ (by rfl)

/-- C11 (code evaluated at the failing input): for `out = x / y` the
emitted row is `A = [0,0,0,0]`, `B = [0,0,0,1]`, `C = [0,1,1,0]`.  With
`w = [1, 2, 6, 3]` the relation `out * y = x` holds but the row equation does
not (`0` against `8`); with `w = [1, -6, 6, 3]` the row equation holds but
`out * y = x` does not.  Both also in the field. -/
theorem division_row_is_not_out_times_v2 :
    divCircuit.GenerateR1CS = .ok ([[0, 0, 0, 0]], [[0, 0, 0, 1]], [[0, 1, 1, 0]]) ∧
    ((2 : Int) * 3 = 6 ∧
      dotInt [0, 0, 0, 0] [1, 2, 6, 3] * dotInt [0, 0, 0, 1] [1, 2, 6, 3]
        ≠ dotInt [0, 1, 1, 0] [1, 2, 6, 3]) ∧
    ((-6 : Int) * 3 ≠ 6 ∧
      dotInt [0, 0, 0, 0] [1, -6, 6, 3] * dotInt [0, 0, 0, 1] [1, -6, 6, 3]
        = dotInt [0, 1, 1, 0] [1, -6, 6, 3]) ∧
    dot (([0, 0, 0, 0] : List Int).map (NewFPint Modulus381))
          (([1, 2, 6, 3] : List Int).map (NewFPint Modulus381))
        * dot (([0, 0, 0, 1] : List Int).map (NewFPint Modulus381))
          (([1, 2, 6, 3] : List Int).map (NewFPint Modulus381))
      ≠ dot (([0, 1, 1, 0] : List Int).map (NewFPint Modulus381))
          (([1, 2, 6, 3] : List Int).map (NewFPint Modulus381)) := by
  refine ⟨by rfl, by decide, by decide, by decide⟩

/-- C13 (code evaluated at the failing inputs): with `NPublic = 2` and
`Signals = [one, out1, out2, x]` the input `7` is stored at index `2`, not
at index `NPublic + 1 = 3`; with `NPublic = 0` and `Signals = [one, x]` the
store at index `2` is out of range and no witness is returned. -/
theorem witness_inputs_at_fixed_offset :
    twoPublicCircuit.CalculateWitness [7] = .ok ([1, 0, 7, 0], none) ∧
    ([1, 0, 7, 0] : List Int).getD (twoPublicCircuit.NPublic + 1 + 0).toNat 0 ≠ 7 ∧
    noPublicCircuit.CalculateWitness [7] = .error .indexOutOfRange := by
  refine ⟨by rfl, by decide, by rfl⟩

/-- C14 (code evaluated at the failing input): for `out = x / y` with
`x = 7`, `y = 2` the witness entry of `out` is the integer quotient `3`, and
`3 * 2` is not `7`, neither over the integers nor in the field; for `y = 0`
the call fails with the division-by-zero fault. -/
theorem witness_division_is_integer_division :
    divCircuit.CalculateWitness [7, 2] = .ok ([1, 3, 7, 2], none) ∧
    (3 : Int) * 2 ≠ 7 ∧
    NewFPint Modulus381 3 * NewFPint Modulus381 2 ≠ NewFPint Modulus381 7 ∧
    divCircuit.CalculateWitness [7, 0] = .error .divisionByZero := by
  refine ⟨by rfl, by decide, by decide, by rfl⟩

/-- C16 (code evaluated at the failing input): for the circuit whose only
constraint is `x = x + x`, with `x` not assigned before, `GenerateR1CS` does
not fail; it returns the row `A = [0, 2]`, `B = [1, 0]`, `C = [0, 1]`. -/
theorem self_reference_passes_use_check :
    selfRefCircuit.GenerateR1CS = .ok ([[0, 2]], [[1, 0]], [[0, 1]]) := by
  rfl

section WitnessEvaluation

open circuitcompiler

theorem circuitcompiler.grabVar_ok (signals : List String) (w : List Int) (v : String) (x : Int)
    (h : grabVar signals w v = .ok x) : x = operandValue signals w v := by
  unfold grabVar at h
  unfold operandValue
  simp only [] at h
  by_cases hval : (isValue v).1 = true
  · rw [if_pos hval] at h
    rw [if_pos hval]
    simp only [Except.ok.injEq] at h
    exact h.symm
  · rw [if_neg hval] at h
    rw [if_neg hval]
    exact (circuitcompiler.index_ok_iff w _ x 0 h).2.2

/-- One iteration of the constraint loop of `CalculateWitness` for an op
among `+`, `-`, `*`: the entry of `out` is set to the exact integer result
of the op on the values of the two operands. -/
theorem circuitcompiler.CalculateWitnessStep_arith (circ : Circuit) (w w' : List Int)
    (con : Constraint) (hop : con.Op = "+" ∨ con.Op = "-" ∨ con.Op = "*")
    (h : circ.CalculateWitnessStep w con = .ok w') :
    idx circ.Signals con.Out < w.length ∧
    w' = w.set (idx circ.Signals con.Out)
      (opResult con.Op (operandValue circ.Signals w con.V1)
        (operandValue circ.Signals w con.V2)) := by
  unfold Circuit.CalculateWitnessStep at h
  rcases hop with hop | hop | hop
  · rw [hop] at h
    rw [if_neg (by decide), if_pos rfl] at h
    obtain ⟨x, hx, h⟩ := except_bind_ok _ _ _ h
    obtain ⟨y, hy, h⟩ := except_bind_ok _ _ _ h
    obtain ⟨_, hlt, hset⟩ := circuitcompiler.setIndex_ok_iff _ _ _ _ h
    rw [circuitcompiler.grabVar_ok _ _ _ _ hx, circuitcompiler.grabVar_ok _ _ _ _ hy] at hset
    refine ⟨hlt, ?_⟩
    rw [hset, hop]
    rfl
  · rw [hop] at h
    rw [if_neg (by decide), if_neg (by decide), if_pos rfl] at h
    obtain ⟨x, hx, h⟩ := except_bind_ok _ _ _ h
    obtain ⟨y, hy, h⟩ := except_bind_ok _ _ _ h
    obtain ⟨_, hlt, hset⟩ := circuitcompiler.setIndex_ok_iff _ _ _ _ h
    rw [circuitcompiler.grabVar_ok _ _ _ _ hx, circuitcompiler.grabVar_ok _ _ _ _ hy] at hset
    refine ⟨hlt, ?_⟩
    rw [hset, hop]
    rfl
  · rw [hop] at h
    rw [if_neg (by decide), if_neg (by decide), if_neg (by decide), if_pos rfl] at h
    obtain ⟨x, hx, h⟩ := except_bind_ok _ _ _ h
    obtain ⟨y, hy, h⟩ := except_bind_ok _ _ _ h
    obtain ⟨_, hlt, hset⟩ := circuitcompiler.setIndex_ok_iff _ _ _ _ h
    rw [circuitcompiler.grabVar_ok _ _ _ _ hx, circuitcompiler.grabVar_ok _ _ _ _ hy] at hset
    refine ⟨hlt, ?_⟩
    rw [hset, hop]
    rfl

/-- Structure of a successful run of `CalculateWitness` on an input vector
of the right length: no error value, the initial vector `w0` (zeros, then
`w[0] = 1`, then the inputs from index 2 on), and the constraint loop. -/
theorem circuitcompiler.CalculateWitness_ok (circ : Circuit) (inputs : List Int)
    (hlen : inputs.length = circ.Inputs.length) (w : List Int) (err : Option String)
    (h : circ.CalculateWitness inputs = .ok (w, err)) :
    err = none ∧ ∃ wz w0,
      setIndex (circuitcompiler.ArrayOfBigZeros circ.Signals.length) 0 1 = .ok wz ∧
      (List.range inputs.length).foldlM
        (fun w i => setIndex w (Int.ofNat i + 2) (inputs.getD i 0)) wz = .ok w0 ∧
      circ.Constraints.foldlM circ.CalculateWitnessStep w0 = .ok w := by
  unfold Circuit.CalculateWitness at h
  rw [if_neg (by simp [hlen])] at h
  obtain ⟨wz, hwz, h⟩ := except_bind_ok _ _ _ h
  obtain ⟨w0, hw0, h⟩ := except_bind_ok _ _ _ h
  obtain ⟨w1, hw1, h⟩ := except_bind_ok _ _ _ h
  simp only [pure, Except.pure, Except.ok.injEq, Prod.mk.injEq] at h
  refine ⟨h.2.symm, wz, w0, hwz, hw0, ?_⟩
  rw [← h.1]
  exact hw1

theorem foldlM_split {σ α : Type} (f : σ → α → Except Fault σ) (pre : List α) (x : α)
    (post : List α) (s0 s : σ) (h : (pre ++ x :: post).foldlM f s0 = .ok s) :
    ∃ s1 s2, pre.foldlM f s0 = .ok s1 ∧ f s1 x = .ok s2 ∧ post.foldlM f s2 = .ok s := by
  rw [List.foldlM_append] at h
  obtain ⟨s1, h1, h⟩ := except_bind_ok _ _ _ h
  rw [List.foldlM_cons] at h
  obtain ⟨s2, h2, h⟩ := except_bind_ok _ _ _ h
  exact ⟨s1, s2, h1, h2, h⟩

end WitnessEvaluation

/-- C12 (witness evaluation): on an input vector of the right length, a
successful `CalculateWitness` returns no error value and is the constraint
loop run in order from the initial vector; at every constraint with op `+`,
`-` or `*` the loop sets `w[idx(out)]` to the exact integer
`value(v1) op value(v2)` (a literal denotes its integer, a symbolic operand
the current entry), hence to a value congruent to it modulo every `r`; and
scenario S1 gives `[1, 35, 3, 9, 27, 30]`. -/
theorem witness_evaluation (circ : circuitcompiler.Circuit) (inputs : List Int)
    (hlen : inputs.length = circ.Inputs.length) (w : List Int) (err : Option String)
    (hrun : circ.CalculateWitness inputs = .ok (w, err)) :
    (err = none ∧ ∃ wz w0,
      circuitcompiler.setIndex (circuitcompiler.ArrayOfBigZeros circ.Signals.length) 0 1
        = .ok wz ∧
      (List.range inputs.length).foldlM
        (fun w i => circuitcompiler.setIndex w (Int.ofNat i + 2) (inputs.getD i 0)) wz
        = .ok w0 ∧
      circ.Constraints.foldlM circ.CalculateWitnessStep w0 = .ok w ∧
      ∀ pre con post, circ.Constraints = pre ++ con :: post →
        ∃ w1 w2, pre.foldlM circ.CalculateWitnessStep w0 = .ok w1 ∧
          circ.CalculateWitnessStep w1 con = .ok w2 ∧
          post.foldlM circ.CalculateWitnessStep w2 = .ok w ∧
          ((con.Op = "+" ∨ con.Op = "-" ∨ con.Op = "*") →
            circuitcompiler.idx circ.Signals con.Out < w1.length ∧
            w2 = w1.set (circuitcompiler.idx circ.Signals con.Out)
              (circuitcompiler.opResult con.Op
                (circuitcompiler.operandValue circ.Signals w1 con.V1)
                (circuitcompiler.operandValue circ.Signals w1 con.V2)) ∧
            ∀ r : Int, w2.getD (circuitcompiler.idx circ.Signals con.Out) 0
              ≡ circuitcompiler.opResult con.Op
                (circuitcompiler.operandValue circ.Signals w1 con.V1)
                (circuitcompiler.operandValue circ.Signals w1 con.V2) [ZMOD r])) ∧
    circuitS1.CalculateWitness [3] = .ok ([1, 35, 3, 9, 27, 30], none) := by
  refine ⟨?_, by rfl⟩
  obtain ⟨herr, wz, w0, hwz, hw0, hfold⟩ :=
    circuitcompiler.CalculateWitness_ok circ inputs hlen w err hrun
  refine ⟨herr, wz, w0, hwz, hw0, hfold, ?_⟩
  intro pre con post hsplit
  rw [hsplit] at hfold
  obtain ⟨w1, w2, h1, h2, h3⟩ := foldlM_split _ pre con post w0 w hfold
  refine ⟨w1, w2, h1, h2, h3, ?_⟩
  intro hop
  obtain ⟨hlt, hset⟩ := circuitcompiler.CalculateWitnessStep_arith circ w1 w2 con hop h2
  refine ⟨hlt, hset, ?_⟩
  intro r
  rw [hset, List.getD_eq_getElem _ _ (by rw [List.length_set]; exact hlt), List.getElem_set_self]

/-- C12 witness: scenario S1 with input `x = 3`. -/
theorem witness_evaluation_witness :
    ((none : Option String) = none ∧ ∃ wz w0,
      circuitcompiler.setIndex (circuitcompiler.ArrayOfBigZeros circuitS1.Signals.length) 0 1
        = .ok wz ∧
      (List.range ([3] : List Int).length).foldlM
        (fun w i => circuitcompiler.setIndex w (Int.ofNat i + 2) (([3] : List Int).getD i 0)) wz
        = .ok w0 ∧
      circuitS1.Constraints.foldlM circuitS1.CalculateWitnessStep w0
        = .ok [1, 35, 3, 9, 27, 30] ∧
      ∀ pre con post, circuitS1.Constraints = pre ++ con :: post →
        ∃ w1 w2, pre.foldlM circuitS1.CalculateWitnessStep w0 = .ok w1 ∧
          circuitS1.CalculateWitnessStep w1 con = .ok w2 ∧
          post.foldlM circuitS1.CalculateWitnessStep w2 = .ok [1, 35, 3, 9, 27, 30] ∧
          ((con.Op = "+" ∨ con.Op = "-" ∨ con.Op = "*") →
            circuitcompiler.idx circuitS1.Signals con.Out < w1.length ∧
            w2 = w1.set (circuitcompiler.idx circuitS1.Signals con.Out)
              (circuitcompiler.opResult con.Op
                (circuitcompiler.operandValue circuitS1.Signals w1 con.V1)
                (circuitcompiler.operandValue circuitS1.Signals w1 con.V2)) ∧
            ∀ r : Int, w2.getD (circuitcompiler.idx circuitS1.Signals con.Out) 0
              ≡ circuitcompiler.opResult con.Op
                (circuitcompiler.operandValue circuitS1.Signals w1 con.V1)
                (circuitcompiler.operandValue circuitS1.Signals w1 con.V2) [ZMOD r])) ∧
    circuitS1.CalculateWitness [3] = .ok ([1, 35, 3, 9, 27, 30], none) :=
  witness_evaluation circuitS1 [3] (by decide) [1, 35, 3, 9, 27, 30] none (by rfl)

section WitnessRange

open circuitcompiler

/-- One iteration of the constraint loop of `CalculateWitness` either leaves
the vector alone or assigns the single entry `idx(out)`, the latter only for
an op among `+`, `-`, `*`, `/`. -/
theorem circuitcompiler.CalculateWitnessStep_shape (circ : Circuit) (w w' : List Int)
    (con : Constraint) (h : circ.CalculateWitnessStep w con = .ok w') :
    w' = w ∨ ((con.Op = "+" ∨ con.Op = "-" ∨ con.Op = "*" ∨ con.Op = "/") ∧
      ∃ v, w' = w.set (idx circ.Signals con.Out) v) := by
  unfold Circuit.CalculateWitnessStep at h
  split_ifs at h with h0 h1 h2 h3 h4
  · simp only [Except.ok.injEq] at h
    exact Or.inl h.symm
  · obtain ⟨x, _, h⟩ := except_bind_ok _ _ _ h
    obtain ⟨y, _, h⟩ := except_bind_ok _ _ _ h
    exact Or.inr ⟨Or.inl h1, _, (circuitcompiler.setIndex_ok_iff _ _ _ _ h).2.2⟩
  · obtain ⟨x, _, h⟩ := except_bind_ok _ _ _ h
    obtain ⟨y, _, h⟩ := except_bind_ok _ _ _ h
    exact Or.inr ⟨Or.inr (Or.inl h2), _, (circuitcompiler.setIndex_ok_iff _ _ _ _ h).2.2⟩
  · obtain ⟨x, _, h⟩ := except_bind_ok _ _ _ h
    obtain ⟨y, _, h⟩ := except_bind_ok _ _ _ h
    exact Or.inr ⟨Or.inr (Or.inr (Or.inl h3)), _, (circuitcompiler.setIndex_ok_iff _ _ _ _ h).2.2⟩
  · obtain ⟨x, _, h⟩ := except_bind_ok _ _ _ h
    obtain ⟨y, _, h⟩ := except_bind_ok _ _ _ h
    split_ifs at h with hy
    exact Or.inr ⟨Or.inr (Or.inr (Or.inr h4)), _, (circuitcompiler.setIndex_ok_iff _ _ _ _ h).2.2⟩
  · simp only [Except.ok.injEq] at h
    exact Or.inl h.symm

theorem getD_set_int (l : List Int) (k i : Nat) (v : Int) :
    (l.set k v).getD i 0 = if i = k ∧ k < l.length then v else l.getD i 0 := by
  simp only [List.getD_eq_getElem?_getD, List.getElem?_set]
  by_cases h : k = i
  · subst h
    by_cases h2 : k < l.length
    · simp [h2]
    · simp [h2]
      rw [List.getElem?_eq_none (by omega)]
      rfl
  · have h' : ¬ i = k := fun e => h e.symm
    simp [h, h']

/-- The loop storing the inputs keeps every entry inside `[0, r)` when the
inputs are. -/
theorem circuitcompiler.input_loop_range (inputs : List Int) (r : Int)
    (hin : ∀ x ∈ inputs, 0 ≤ x ∧ x < r) :
    ∀ (n : Nat) (w w' : List Int), n ≤ inputs.length →
      (∀ i, 0 ≤ w.getD i 0 ∧ w.getD i 0 < r) →
      (List.range n).foldlM (fun w i => setIndex w (Int.ofNat i + 2) (inputs.getD i 0)) w
        = .ok w' →
      ∀ i, 0 ≤ w'.getD i 0 ∧ w'.getD i 0 < r := by
  intro n
  induction n with
  | zero =>
    intro w w' _ hw h
    simp only [List.range_zero, List.foldlM_nil, pure, Except.pure, Except.ok.injEq] at h
    rw [← h]
    exact hw
  | succ n ih =>
    intro w w' hn hw h
    rw [List.range_succ, List.foldlM_append] at h
    obtain ⟨w1, h1, h⟩ := except_bind_ok _ _ _ h
    have hw1 := ih w w1 (by omega) hw h1
    rw [List.foldlM_cons] at h
    obtain ⟨w2, h2, h⟩ := except_bind_ok _ _ _ h
    simp only [List.foldlM_nil, pure, Except.pure, Except.ok.injEq] at h
    obtain ⟨_, _, hset⟩ := circuitcompiler.setIndex_ok_iff _ _ _ _ h2
    intro i
    rw [← h, hset, getD_set_int]
    split_ifs
    · apply hin
      rw [List.getD_eq_getElem _ _ (by omega)]
      exact List.getElem_mem _
    · exact hw1 i

/-- The constraint loop keeps inside `[0, r)` every entry that no
constraint with an op among `+`, `-`, `*`, `/` names as its output. -/
theorem circuitcompiler.constraint_loop_range (circ : Circuit) (r : Int) :
    ∀ (cs : List Constraint) (w w' : List Int),
      cs.foldlM circ.CalculateWitnessStep w = .ok w' →
      ∀ i, (0 ≤ w.getD i 0 ∧ w.getD i 0 < r) →
        (0 ≤ w'.getD i 0 ∧ w'.getD i 0 < r) ∨
        ∃ con ∈ cs, (con.Op = "+" ∨ con.Op = "-" ∨ con.Op = "*" ∨ con.Op = "/") ∧
          idx circ.Signals con.Out = i := by
  intro cs
  induction cs with
  | nil =>
    intro w w' h i hi
    simp only [List.foldlM_nil, pure, Except.pure, Except.ok.injEq] at h
    rw [← h]
    exact Or.inl hi
  | cons c cs ih =>
    intro w w' h i hi
    rw [List.foldlM_cons] at h
    obtain ⟨w1, h1, h⟩ := except_bind_ok _ _ _ h
    rcases circuitcompiler.CalculateWitnessStep_shape circ w w1 c h1 with heq | ⟨hop, v, hset⟩
    · rw [heq] at h
      rcases ih w w' h i hi with hofirst | ⟨con, hmem, hcon⟩
      · exact Or.inl hofirst
      · exact Or.inr ⟨con, List.mem_cons_of_mem _ hmem, hcon⟩
    · by_cases hk : idx circ.Signals c.Out = i
      · exact Or.inr ⟨c, List.mem_cons_self _ _, hop, hk⟩
      · have hi1 : 0 ≤ w1.getD i 0 ∧ w1.getD i 0 < r := by
          rw [hset, getD_set_int]
          have : ¬ (i = idx circ.Signals c.Out ∧ idx circ.Signals c.Out < w.length) :=
            fun e => hk e.1.symm
          rw [if_neg this]
          exact hi
        rcases ih w1 w' h i hi1 with hofirst | ⟨con, hmem, hcon⟩
        · exact Or.inl hofirst
        · exact Or.inr ⟨con, List.mem_cons_of_mem _ hmem, hcon⟩

end WitnessRange

/-- C15 (counterexample): for `out = x - y` with the canonical inputs
`x = 1`, `y = 3`, `CalculateWitness` succeeds and returns
`[1, -2, 1, 3]`; the entry `-2` is not in `[0, r)` for any `r`, while the
inputs are canonical for every `r > 3`. -/
theorem canonical_witness_counterexample :
    subCircuit.CalculateWitness [1, 3] = .ok ([1, -2, 1, 3], none) ∧
    ∀ r : Int, 3 < r →
      (∀ x ∈ ([1, 3] : List Int), 0 ≤ x ∧ x < r) ∧
      ¬ (∀ e ∈ ([1, -2, 1, 3] : List Int), 0 ≤ e ∧ e < r) := by
  refine ⟨by rfl, ?_⟩
  intro r hr
  constructor
  · intro x hx
    simp only [List.mem_cons, List.mem_singleton, List.not_mem_nil, or_false] at hx
    rcases hx with rfl | rfl <;> omega
  · intro h
    have := h (-2) (by simp)
    omega

/-- C15 (amended): for `r > 1` and canonical inputs, on success every entry
of the returned witness that no constraint with an op among `+`, `-`, `*`,
`/` names as its output lies in `[0, r)`; the entries such constraints write
are exact integers, to which no reduction modulo `r` is applied. -/
theorem canonical_witness_amended (circ : circuitcompiler.Circuit) (inputs : List Int)
    (r : Int) (hr : 1 < r) (hin : ∀ x ∈ inputs, 0 ≤ x ∧ x < r)
    (w : List Int) (err : Option String)
    (hrun : circ.CalculateWitness inputs = .ok (w, err)) :
    ∀ i, (0 ≤ w.getD i 0 ∧ w.getD i 0 < r) ∨
      ∃ con ∈ circ.Constraints,
        (con.Op = "+" ∨ con.Op = "-" ∨ con.Op = "*" ∨ con.Op = "/") ∧
        circuitcompiler.idx circ.Signals con.Out = i := by
  by_cases hlen : inputs.length = circ.Inputs.length
  · obtain ⟨_, wz, w0, hwz, hw0, hfold⟩ :=
      circuitcompiler.CalculateWitness_ok circ inputs hlen w err hrun
    intro i
    apply circuitcompiler.constraint_loop_range circ r _ w0 w hfold i
    apply circuitcompiler.input_loop_range inputs r hin inputs.length wz w0 le_rfl _ hw0
    intro j
    obtain ⟨_, _, hset⟩ := circuitcompiler.setIndex_ok_iff _ _ _ _ hwz
    have hz := circuitcompiler.bigZeros_eq_replicate circ.Signals.length
    simp only [Int.ofNat_eq_coe] at hz
    rw [hset, hz, getD_set_int]
    split_ifs
    · omega
    · rw [List.getD_eq_getElem?_getD, List.getElem?_replicate]
      split_ifs <;> simp <;> omega
  · unfold circuitcompiler.Circuit.CalculateWitness at hrun
    rw [if_pos hlen] at hrun
    simp only [Except.ok.injEq, Prod.mk.injEq] at hrun
    intro i
    rw [← hrun.1]
    exact Or.inl ⟨by simp, by simp; omega⟩

/-- C15 (amended) witness: `out = x - y` with inputs `1`, `3` and `r = 101`,
at the entry of `out` (index 1, written by the constraint) and at the entry
of `x` (index 2, canonical). -/
theorem canonical_witness_amended_witness :
    ((0 ≤ ([1, -2, 1, 3] : List Int).getD 1 0 ∧ ([1, -2, 1, 3] : List Int).getD 1 0 < 101) ∨
      ∃ con ∈ subCircuit.Constraints,
        (con.Op = "+" ∨ con.Op = "-" ∨ con.Op = "*" ∨ con.Op = "/") ∧
        circuitcompiler.idx subCircuit.Signals con.Out = 1) ∧
    ((0 ≤ ([1, -2, 1, 3] : List Int).getD 2 0 ∧ ([1, -2, 1, 3] : List Int).getD 2 0 < 101) ∨
      ∃ con ∈ subCircuit.Constraints,
        (con.Op = "+" ∨ con.Op = "-" ∨ con.Op = "*" ∨ con.Op = "/") ∧
        circuitcompiler.idx subCircuit.Signals con.Out = 2) :=
  ⟨canonical_witness_amended subCircuit [1, 3] 101 (by decide) (by decide) [1, -2, 1, 3] none
      (by rfl) 1,
   canonical_witness_amended subCircuit [1, 3] 101 (by decide) (by decide) [1, -2, 1, 3] none
      (by rfl) 2⟩

section DoubleAssign

open circuitcompiler

theorem circuitcompiler.GenerateR1CSStep_used_fails (circ : Circuit) (st : R1CSState)
    (con : Constraint) (h : st.used.contains con.Out = true) :
    circ.GenerateR1CSStep st con = .error .outAlreadyUsed := by
  unfold Circuit.GenerateR1CSStep
  simp only []
  rw [if_pos h]

theorem foldlM_keeps {σ α : Type} (f : σ → α → Except Fault σ) (P : σ → Prop)
    (hf : ∀ s x s', P s → f s x = .ok s' → P s') :
    ∀ (l : List α) (s s' : σ), P s → l.foldlM f s = .ok s' → P s' := by
  intro l
  induction l with
  | nil =>
    intro s s' hs h
    simp only [List.foldlM_nil, pure, Except.pure, Except.ok.injEq] at h
    rw [← h]
    exact hs
  | cons x xs ih =>
    intro s s' hs h
    rw [List.foldlM_cons] at h
    obtain ⟨s1, h1, h⟩ := except_bind_ok _ _ _ h
    exact ih s1 s' (hf s x s1 hs h1) h

/-- A successful iteration of the loop of `GenerateR1CS` marks the output of
the constraint as used and keeps every earlier mark. -/
theorem circuitcompiler.GenerateR1CSStep_used (circ : Circuit) (st st' : R1CSState)
    (con : Constraint) (h : circ.GenerateR1CSStep st con = .ok st') :
    st'.used = con.Out :: st.used := by
  unfold Circuit.GenerateR1CSStep at h
  simp only [] at h
  split_ifs at h with hused hin hplus hminus hmul hdiv
  · simp only [bind_pure_comp] at h
    obtain ⟨v, hv, hst⟩ := except_map_ok _ _ _ h
    rw [← hst]
    show v.2.2 = con.Out :: st.used
    refine foldlM_keeps _ (fun acc : List Int × List Int × List String =>
      acc.2.2 = con.Out :: st.used) ?_ _ _ v rfl hv
    intro s x s' hs hstep
    obtain ⟨a0, _, hstep⟩ := except_bind_ok _ _ _ hstep
    obtain ⟨a1, _, hstep⟩ := except_bind_ok _ _ _ hstep
    obtain ⟨d, hd, hstep⟩ := except_bind_ok _ _ _ hstep
    obtain ⟨b1, _, hstep⟩ := except_map_ok _ _ _ hstep
    obtain ⟨hu, _⟩ := circuitcompiler.insertVarWith_ok 1 _ d.1 _ _ _ d.2 hd
    rw [← hstep]
    show d.2 = con.Out :: st.used
    rw [hu]
    exact hs
  · simp only [bind_pure_comp] at h
    obtain ⟨v, hv, hst⟩ := except_map_ok _ _ _ h
    obtain ⟨cC, hcC, hv⟩ := except_bind_ok _ _ _ hv
    obtain ⟨d1, hd1, hv⟩ := except_bind_ok _ _ _ hv
    obtain ⟨d2, hd2, hv⟩ := except_bind_ok _ _ _ hv
    obtain ⟨bC, hbC, hv⟩ := except_map_ok _ _ _ hv
    obtain ⟨h1, _⟩ := circuitcompiler.insertVarWith_ok 1 _ d1.1 _ _ _ d1.2 hd1
    obtain ⟨h2, _⟩ := circuitcompiler.insertVarWith_ok 1 _ d2.1 _ _ _ d2.2 hd2
    rw [← hst, ← hv]
    show d2.2 = _
    rw [h2, h1]
  · simp only [bind_pure_comp] at h
    obtain ⟨v, hv, hst⟩ := except_map_ok _ _ _ h
    obtain ⟨cC, hcC, hv⟩ := except_bind_ok _ _ _ hv
    obtain ⟨d1, hd1, hv⟩ := except_bind_ok _ _ _ hv
    obtain ⟨d2, hd2, hv⟩ := except_bind_ok _ _ _ hv
    obtain ⟨bC, hbC, hv⟩ := except_map_ok _ _ _ hv
    obtain ⟨h1, _⟩ := circuitcompiler.insertVarWith_ok (-1) _ d1.1 _ _ _ d1.2 hd1
    obtain ⟨h2, _⟩ := circuitcompiler.insertVarWith_ok (-1) _ d2.1 _ _ _ d2.2 hd2
    rw [← hst, ← hv]
    show d2.2 = _
    rw [h2, h1]
  · simp only [bind_pure_comp] at h
    obtain ⟨v, hv, hst⟩ := except_map_ok _ _ _ h
    obtain ⟨cC, hcC, hv⟩ := except_bind_ok _ _ _ hv
    obtain ⟨d1, hd1, hv⟩ := except_bind_ok _ _ _ hv
    obtain ⟨d2, hd2, hv⟩ := except_map_ok _ _ _ hv
    obtain ⟨h1, _⟩ := circuitcompiler.insertVarWith_ok 1 _ d1.1 _ _ _ d1.2 hd1
    obtain ⟨h2, _⟩ := circuitcompiler.insertVarWith_ok 1 _ d2.1 _ _ _ d2.2 hd2
    rw [← hst, ← hv]
    show d2.2 = _
    rw [h2, h1]
  · simp only [bind_pure_comp] at h
    obtain ⟨v, hv, hst⟩ := except_map_ok _ _ _ h
    obtain ⟨d1, hd1, hv⟩ := except_bind_ok _ _ _ hv
    obtain ⟨cC, hcC, hv⟩ := except_bind_ok _ _ _ hv
    obtain ⟨d2, hd2, hv⟩ := except_map_ok _ _ _ hv
    obtain ⟨h1, _⟩ := circuitcompiler.insertVarWith_ok 1 _ d1.1 _ _ _ d1.2 hd1
    obtain ⟨h2, _⟩ := circuitcompiler.insertVarWith_ok 1 _ d2.1 _ _ _ d2.2 hd2
    rw [← hst, ← hv]
    show d2.2 = _
    rw [h2, h1]
  · simp only [bind_pure_comp] at h
    obtain ⟨v, hv, hst⟩ := except_map_ok _ _ _ h
    simp only [pure, Except.pure, Except.ok.injEq] at hv
    rw [← hst, ← hv]

/-- After a successful run of the loop over a list of constraints, the
output of each of them is marked as used. -/
theorem circuitcompiler.GenerateR1CS_used (circ : Circuit) :
    ∀ (cs : List Constraint) (st st' : R1CSState),
      cs.foldlM circ.GenerateR1CSStep st = .ok st' →
      (∀ x, x ∈ st.used → x ∈ st'.used) ∧ ∀ c ∈ cs, c.Out ∈ st'.used := by
  intro cs
  induction cs with
  | nil =>
    intro st st' h
    simp only [List.foldlM_nil, pure, Except.pure, Except.ok.injEq] at h
    rw [← h]
    exact ⟨fun _ hx => hx, fun c hc => by simp at hc⟩
  | cons c cs ih =>
    intro st st' h
    rw [List.foldlM_cons] at h
    obtain ⟨st1, h1, h⟩ := except_bind_ok _ _ _ h
    have hu := circuitcompiler.GenerateR1CSStep_used circ st st1 c h1
    obtain ⟨hkeep, hall⟩ := ih st1 st' h
    constructor
    · intro x hx
      apply hkeep
      rw [hu]
      exact List.mem_cons_of_mem _ hx
    · intro d hd
      rcases List.mem_cons.mp hd with rfl | hd
      · apply hkeep
        rw [hu]
        exact List.mem_cons_self _ _
      · exact hall d hd

end DoubleAssign

/-- C17 (counterexample): in this circuit two constraints name the output
`a`, yet `GenerateR1CS` does not report the double assignment: it stops at
the first constraint, which reads the unset signal `b`, with the
use-before-set fault. -/
theorem double_assign_counterexample :
    (∃ c1 c2 post, lateDoubleCircuit.Constraints = c1 :: c2 :: post ∧ c1.Out = c2.Out) ∧
    lateDoubleCircuit.GenerateR1CS = .error .useBeforeSet ∧
    lateDoubleCircuit.GenerateR1CS ≠ .error .outAlreadyUsed := by
  refine ⟨⟨_, _, _, rfl, rfl⟩, by rfl, ?_⟩
  intro h
  have h2 : lateDoubleCircuit.GenerateR1CS = .error .useBeforeSet := by rfl
  rw [h2] at h
  cases h

/-- C17 (amended): for every circuit in which a constraint (of any op,
`in` included) names the output of an earlier constraint, `GenerateR1CS`
fails and returns no matrices; the failure is the double-assignment fault,
raised at that second constraint, whenever the constraints before it are
processed without failure. -/
theorem double_assign_amended (circ : circuitcompiler.Circuit)
    (pre : List circuitcompiler.Constraint) (con : circuitcompiler.Constraint)
    (post : List circuitcompiler.Constraint)
    (hsplit : circ.Constraints = pre ++ con :: post)
    (hdup : ∃ c ∈ pre, c.Out = con.Out) :
    (∃ f, circ.GenerateR1CS = .error f) ∧
    (∀ st, pre.foldlM circ.GenerateR1CSStep {} = .ok st →
      circ.GenerateR1CSStep st con = .error .outAlreadyUsed ∧
      circ.GenerateR1CS = .error .outAlreadyUsed) := by
  have key : ∀ st, pre.foldlM circ.GenerateR1CSStep {} = .ok st →
      circ.GenerateR1CSStep st con = .error .outAlreadyUsed ∧
      circ.GenerateR1CS = .error .outAlreadyUsed := by
    intro st hst
    obtain ⟨c, hc, hout⟩ := hdup
    have hmem : con.Out ∈ st.used := by
      rw [← hout]
      exact (circuitcompiler.GenerateR1CS_used circ pre _ st hst).2 c hc
    have hstep := circuitcompiler.GenerateR1CSStep_used_fails circ st con
      (by simpa using hmem)
    refine ⟨hstep, ?_⟩
    unfold circuitcompiler.Circuit.GenerateR1CS
    rw [hsplit, List.foldlM_append, hst]
    show ((con :: post).foldlM circ.GenerateR1CSStep st >>= _) = _
    rw [List.foldlM_cons, hstep]
    rfl
  refine ⟨?_, key⟩
  cases hpre : pre.foldlM circ.GenerateR1CSStep {} with
  | error f =>
    refine ⟨f, ?_⟩
    unfold circuitcompiler.Circuit.GenerateR1CS
    rw [hsplit, List.foldlM_append, hpre]
    rfl
  | ok st => exact ⟨_, (key st hpre).2⟩

/-- C17 (amended) witness: the input declaration `in x` followed by
`x = 1 + 1`. -/
theorem double_assign_amended_witness :
    (∃ f, doubleOutCircuit.GenerateR1CS = .error f) ∧
    (∀ st, ([{ Op := "in", V1 := "", V2 := "", Out := "x" }] :
        List circuitcompiler.Constraint).foldlM doubleOutCircuit.GenerateR1CSStep {} = .ok st →
      doubleOutCircuit.GenerateR1CSStep st { Op := "+", V1 := "1", V2 := "1", Out := "x" }
        = .error .outAlreadyUsed ∧
      doubleOutCircuit.GenerateR1CS = .error .outAlreadyUsed) :=
  double_assign_amended doubleOutCircuit [{ Op := "in", V1 := "", V2 := "", Out := "x" }]
    { Op := "+", V1 := "1", V2 := "1", Out := "x" } [] (by rfl) ⟨_, List.mem_singleton.mpr rfl, rfl⟩

section ConvolutionForm

variable {p : Nat}

/-- Coefficient `k` of `Mul(a, b)` as the sum over all index pairs with
`i + j = k`. -/
theorem r1csqap.PolynomialField.Mul_convolution (pf : PolynomialField) (a b : List (FP p))
    (k : Nat) :
    (pf.Mul a b).getD k 0 = ∑ i in Finset.range a.length, ∑ j in Finset.range b.length,
      (if i + j = k then a.getD i 0 * b.getD j 0 else 0) := by
  rw [r1csqap.PolynomialField.Mul_getD]
  apply Finset.sum_congr rfl
  intro i _
  by_cases h : i ≤ k ∧ k < i + b.length
  · rw [if_pos h]
    have hmem : k - i ∈ Finset.range b.length := Finset.mem_range.mpr (by omega)
    rw [Finset.sum_eq_single_of_mem (k - i) hmem]
    · rw [if_pos (by omega)]
    · intro j _ hj
      rw [if_neg (by omega)]
  · rw [if_neg h]
    symm
    apply Finset.sum_eq_zero
    intro j hj
    have := Finset.mem_range.mp hj
    rw [if_neg (by omega)]

theorem r1csqap.PolynomialField.Mul_empty (pf : PolynomialField) (a b : List (FP p))
    (h : a = [] ∨ b = []) : ∀ c ∈ pf.Mul a b, c = 0 := by
  intro c hc
  obtain ⟨n, hn, rfl⟩ := List.getElem_of_mem hc
  rw [← List.getD_eq_getElem _ 0 hn, r1csqap.PolynomialField.Mul_convolution]
  rcases h with h | h
  · subst h
    simp
  · subst h
    simp

end ConvolutionForm

set_option maxRecDepth 1000000 in
/-- C18 (polynomial multiplication): for non-empty `a` and `b`, `Mul(a, b)`
has length `|a| + |b| - 1` and its coefficient `k` is the sum of
`a[i] * b[j]` over `i + j = k`; when an operand is empty the result (the
function has no failing path) holds only zeros; and
`Mul([1,0,5], [3,0,1]) = [3,0,16,0,5]`. -/
theorem polynomial_multiplication (p : Nat) (pf : PolynomialField) (a b : List (FP p)) :
    (a ≠ [] → b ≠ [] →
      (pf.Mul a b).length = a.length + b.length - 1 ∧
      ∀ k, (pf.Mul a b).getD k 0 = ∑ i in Finset.range a.length, ∑ j in Finset.range b.length,
        (if i + j = k then a.getD i 0 * b.getD j 0 else 0)) ∧
    ((a = [] ∨ b = []) → ∀ c ∈ pf.Mul a b, c = 0) ∧
    testPF.Mul ([1, 0, 5] : List (FP Modulus381)) [3, 0, 1] = [3, 0, 16, 0, 5] := by
  refine ⟨?_, r1csqap.PolynomialField.Mul_empty pf a b, by decide⟩
  intro _ _
  exact ⟨r1csqap.PolynomialField.Mul_length pf a b,
    r1csqap.PolynomialField.Mul_convolution pf a b⟩

/-- C18 witness: `[1, 0, 5]` times `[3, 0, 1]` over the prime 101. -/
theorem polynomial_multiplication_witness :
    ((NewPolynomialField (NewFq smallModulus)).Mul
        ([1, 0, 5] : List (FP smallModulus)) [3, 0, 1]).length
      = ([1, 0, 5] : List (FP smallModulus)).length
        + ([3, 0, 1] : List (FP smallModulus)).length - 1 ∧
    ∀ k, ((NewPolynomialField (NewFq smallModulus)).Mul
        ([1, 0, 5] : List (FP smallModulus)) [3, 0, 1]).getD k 0
      = ∑ i in Finset.range ([1, 0, 5] : List (FP smallModulus)).length,
          ∑ j in Finset.range ([3, 0, 1] : List (FP smallModulus)).length,
            (if i + j = k then ([1, 0, 5] : List (FP smallModulus)).getD i 0
              * ([3, 0, 1] : List (FP smallModulus)).getD j 0 else 0) :=
  (polynomial_multiplication smallModulus (NewPolynomialField (NewFq smallModulus))
    [1, 0, 5] [3, 0, 1]).1 (by decide) (by decide)

set_option maxRecDepth 1000000 in
/-- C19 (polynomial addition and subtraction): `Add(a, b)` and `Sub(a, b)`
have length `max(|a|, |b|)`, their coefficient `i` is `a[i] + b[i]`,
respectively `a[i] - b[i]`, a coefficient beyond the end counting as `0`;
`Add(Sub(a, b), Sub(b, a))` holds only zeros; and
`Add([1,0,5],[3,0,1]) = [4,0,6]`, `Sub([5,6,1],[1,3]) = [4,3,1]`. -/
theorem polynomial_add_sub (p : Nat) (pf : PolynomialField) (a b : List (FP p)) :
    (pf.Add a b).length = Nat.max a.length b.length ∧
    (∀ i, (pf.Add a b).getD i 0 = a.getD i 0 + b.getD i 0) ∧
    (pf.Sub a b).length = Nat.max a.length b.length ∧
    (∀ i, (pf.Sub a b).getD i 0 = a.getD i 0 - b.getD i 0) ∧
    (∀ c ∈ pf.Add (pf.Sub a b) (pf.Sub b a), c = 0) ∧
    testPF.Add ([1, 0, 5] : List (FP Modulus381)) [3, 0, 1] = [4, 0, 6] ∧
    testPF.Sub ([5, 6, 1] : List (FP Modulus381)) [1, 3] = [4, 3, 1] := by
  refine ⟨(r1csqap.PolynomialField.Add_spec pf a b).1, (r1csqap.PolynomialField.Add_spec pf a b).2,
    (r1csqap.PolynomialField.Sub_spec pf a b).1, (r1csqap.PolynomialField.Sub_spec pf a b).2,
    ?_, by decide, by decide⟩
  intro c hc
  obtain ⟨n, hn, rfl⟩ := List.getElem_of_mem hc
  rw [← List.getD_eq_getElem _ 0 hn, (r1csqap.PolynomialField.Add_spec pf _ _).2,
    (r1csqap.PolynomialField.Sub_spec pf _ _).2, (r1csqap.PolynomialField.Sub_spec pf _ _).2]
  ring

section TargetPolynomial

variable {p : Nat}

theorem r1csqap.PolynomialField.R1CSToQAP_target (pf : PolynomialField)
    (a b c : List (List (FP p))) (m n : Nat) (hm1 : 1 ≤ m) (hn1 : 1 ≤ n)
    (ha : a.length = m ∧ ∀ row ∈ a, row.length = n)
    (hb : b.length = m ∧ ∀ row ∈ b, row.length = n)
    (hc : c.length = m ∧ ∀ row ∈ c, row.length = n)
    (alphas betas gammas : List (List (FP p))) (zx : List (FP p))
    (h : pf.R1CSToQAP a b c = .ok (alphas, betas, gammas, zx)) :
    zx = (pointRange (Int.ofNat m)).foldl
      (fun z i => pf.Mul z [NewFPint p (-i), NewFPint p 1]) [NewFPint p 1] := by
  unfold PolynomialField.R1CSToQAP at h
  rw [r1csqap.Transpose_spec a m n hm1 ha.1 ha.2, r1csqap.Transpose_spec b m n hm1 hb.1 hb.2,
    r1csqap.Transpose_spec c m n hm1 hc.1 hc.2] at h
  simp only [bind, Except.bind, pure, Except.pure] at h
  have hidx : r1csqap.index ((List.range n).map fun i =>
      (List.range m).map fun j => (a.getD j []).getD i 0) 0
      = .ok ((List.range m).map fun j => (a.getD j []).getD 0 0) := by
    have := r1csqap.index_ok ((List.range n).map fun i =>
      (List.range m).map fun j => (a.getD j []).getD i 0) 0 (by simp; omega) []
    rw [show ((0 : Int)) = Int.ofNat 0 from rfl, this, List.getD_eq_getElem _ _ (by simp; omega)]
    simp
  rw [hidx] at h
  simp only [List.length_map, List.length_range, Except.ok.injEq, Prod.mk.injEq] at h
  exact h.2.2.2.symm

end TargetPolynomial

/-- C20 (target polynomial): for an R1CS of `m >= 1` rows and `n >= 1`
columns, `R1CSToQAP` succeeds and its fourth result `zx` has length `m + 1`
and last coefficient `1`, is the result of multiplying the constant
polynomial `1` by the factors `[-k, 1]` for `k = 1..m`, denotes the product
of the `x - k`, and has value `0` at every `k` in `1..m`. -/
theorem target_polynomial (p : Nat) (pf : PolynomialField)
    (a b c : List (List (FP p))) (m n : Nat) (hm1 : 1 ≤ m) (hn1 : 1 ≤ n)
    (ha : a.length = m ∧ ∀ row ∈ a, row.length = n)
    (hb : b.length = m ∧ ∀ row ∈ b, row.length = n)
    (hc : c.length = m ∧ ∀ row ∈ c, row.length = n) :
    ∃ alphas betas gammas zx, pf.R1CSToQAP a b c = .ok (alphas, betas, gammas, zx) ∧
      zx.length = m + 1 ∧ zx.getD m 0 = 1 ∧
      zx = (pointRange (Int.ofNat m)).foldl
        (fun z i => pf.Mul z [NewFPint p (-i), NewFPint p 1]) [NewFPint p 1] ∧
      toPoly zx = ((pointRange (Int.ofNat m)).map
        (fun i => Polynomial.X - Polynomial.C ((i : Int) : FP p))).prod ∧
      ∀ k : Nat, 1 ≤ k → k ≤ m → polyValue zx (k : FP p) = 0 := by
  obtain ⟨zx, hrun, hzl, hztop, hzpoly⟩ :=
    r1csqap.PolynomialField.R1CSToQAP_spec pf a b c m n hm1 hn1 ha hb hc
  refine ⟨_, _, _, zx, hrun, hzl, hztop,
    r1csqap.PolynomialField.R1CSToQAP_target pf a b c m n hm1 hn1 ha hb hc _ _ _ zx hrun,
    hzpoly, ?_⟩
  intro k hk1 hkm
  rw [polyValue_eq_eval, hzpoly, r1csqap.target_eval_zero m k hk1 hkm]

/-- C20 witness: the hard-coded R1CS of the tests (4 rows, 6 columns) over
the prime 101. -/
theorem target_polynomial_witness :
    ∃ alphas betas gammas zx,
      (NewPolynomialField (NewFq smallModulus)).R1CSToQAP hardcodedA hardcodedB hardcodedC
        = .ok (alphas, betas, gammas, zx) ∧
      zx.length = 4 + 1 ∧ zx.getD 4 0 = 1 ∧
      zx = (pointRange (Int.ofNat 4)).foldl
        (fun z i => (NewPolynomialField (NewFq smallModulus)).Mul z
          [NewFPint smallModulus (-i), NewFPint smallModulus 1]) [NewFPint smallModulus 1] ∧
      toPoly zx = ((pointRange (Int.ofNat 4)).map
        (fun i => Polynomial.X - Polynomial.C ((i : Int) : FP smallModulus))).prod ∧
      ∀ k : Nat, 1 ≤ k → k ≤ 4 → polyValue zx (k : FP smallModulus) = 0 :=
  target_polynomial smallModulus (NewPolynomialField (NewFq smallModulus))
    hardcodedA hardcodedB hardcodedC 4 6 (by decide) (by decide) (by decide) (by decide)
    (by decide)

section CombineStep

variable {p : Nat}

/-- With at least `n` members in the family, the accumulation loop of
`CombinePolynomials` never indexes out of range: it is the plain loop adding
the scalar multiples `Mul([w[i]], ap[i])` with `Add`. -/
theorem r1csqap.PolynomialField.combineLoop_run (pf : PolynomialField) (w : List (FP p))
    (ap : List (List (FP p))) (hap : w.length ≤ ap.length) :
    ∀ n, n ≤ w.length →
      (List.range n).foldlM (fun alpha i => do
          let api ← r1csqap.index ap (Int.ofNat i)
          let m := pf.Mul [w.getD i 0] api
          return pf.Add alpha m) []
        = Except.ok ((List.range n).foldl
            (fun alpha i => pf.Add alpha (pf.Mul [w.getD i 0] (ap.getD i []))) []) := by
  intro n
  induction n with
  | zero => intro _; rfl
  | succ n ih =>
    intro hn
    rw [List.range_succ, List.foldlM_append, ih (by omega), List.foldl_append]
    simp only [bind, Except.bind, List.foldlM_cons, List.foldlM_nil, List.foldl_cons,
      List.foldl_nil, pure, Except.pure]
    rw [r1csqap.index_ok ap n (by omega) []]

theorem r1csqap.PolynomialField.combineLoop_coeff (pf : PolynomialField) (w : List (FP p))
    (ap : List (List (FP p))) :
    ∀ n k, ((List.range n).foldl
        (fun alpha i => pf.Add alpha (pf.Mul [w.getD i 0] (ap.getD i []))) []).getD k 0
      = ∑ i in Finset.range n, w.getD i 0 * (ap.getD i []).getD k 0 := by
  intro n
  induction n with
  | zero => intro k; simp
  | succ n ih =>
    intro k
    rw [List.range_succ, List.foldl_append, Finset.sum_range_succ]
    simp only [List.foldl_cons, List.foldl_nil]
    rw [(r1csqap.PolynomialField.Add_spec pf _ _).2, ih k,
      r1csqap.PolynomialField.Mul_convolution]
    congr 1
    simp only [List.length_singleton, Finset.sum_range_one, zero_add, List.getD_cons_zero]
    by_cases hk : k < (ap.getD n []).length
    · rw [Finset.sum_eq_single_of_mem k (Finset.mem_range.mpr hk)]
      · rw [if_pos rfl]
      · intro j _ hj
        rw [if_neg hj]
    · rw [getD_of_le _ k (by omega), mul_zero]
      apply Finset.sum_eq_zero
      intro j hj
      have := Finset.mem_range.mp hj
      rw [if_neg (by omega)]

end CombineStep

/-- C21 (combine step): for a witness `w` and families `ap`, `bp`, `cp` with
at least `|w|` members each, `CombinePolynomials` succeeds; `alpha`, `beta`,
`gamma` are the scalar multiples `Mul([w[i]], ap[i])` (resp. `bp`, `cp`)
added up with `Add`, their coefficient `k` is the sum of
`w[i] * ap[i][k]` (resp. `bp`, `cp`), and `px` is `Sub(Mul(alpha, beta),
gamma)`. -/
theorem combine_step (p : Nat) (pf : PolynomialField) (w : List (FP p))
    (ap bp cp : List (List (FP p)))
    (hap : w.length ≤ ap.length) (hbp : w.length ≤ bp.length) (hcp : w.length ≤ cp.length) :
    ∃ alpha beta gamma,
      pf.CombinePolynomials w ap bp cp
        = .ok (alpha, beta, gamma, pf.Sub (pf.Mul alpha beta) gamma) ∧
      alpha = (List.range w.length).foldl
        (fun acc i => pf.Add acc (pf.Mul [w.getD i 0] (ap.getD i []))) [] ∧
      beta = (List.range w.length).foldl
        (fun acc i => pf.Add acc (pf.Mul [w.getD i 0] (bp.getD i []))) [] ∧
      gamma = (List.range w.length).foldl
        (fun acc i => pf.Add acc (pf.Mul [w.getD i 0] (cp.getD i []))) [] ∧
      (∀ k, alpha.getD k 0 = ∑ i in Finset.range w.length, w.getD i 0 * (ap.getD i []).getD k 0) ∧
      (∀ k, beta.getD k 0 = ∑ i in Finset.range w.length, w.getD i 0 * (bp.getD i []).getD k 0) ∧
      (∀ k, gamma.getD k 0 = ∑ i in Finset.range w.length, w.getD i 0 * (cp.getD i []).getD k 0) := by
  refine ⟨_, _, _, ?_, rfl, rfl, rfl,
    r1csqap.PolynomialField.combineLoop_coeff pf w ap w.length,
    r1csqap.PolynomialField.combineLoop_coeff pf w bp w.length,
    r1csqap.PolynomialField.combineLoop_coeff pf w cp w.length⟩
  unfold PolynomialField.CombinePolynomials PolynomialField.combineLoop
  rw [r1csqap.PolynomialField.combineLoop_run pf w ap hap w.length le_rfl,
    r1csqap.PolynomialField.combineLoop_run pf w bp hbp w.length le_rfl,
    r1csqap.PolynomialField.combineLoop_run pf w cp hcp w.length le_rfl]
  rfl

/-- C21 witness: the witness `[1, 2]` with the families `[[1, 2], [3, 4]]`
over the prime 101. -/
theorem combine_step_witness :
    ∃ alpha beta gamma,
      (NewPolynomialField (NewFq smallModulus)).CombinePolynomials
          ([1, 2] : List (FP smallModulus)) [[1, 2], [3, 4]] [[1, 2], [3, 4]] [[1, 2], [3, 4]]
        = .ok (alpha, beta, gamma, (NewPolynomialField (NewFq smallModulus)).Sub
            ((NewPolynomialField (NewFq smallModulus)).Mul alpha beta) gamma) ∧
      alpha = (List.range ([1, 2] : List (FP smallModulus)).length).foldl
        (fun acc i => (NewPolynomialField (NewFq smallModulus)).Add acc
          ((NewPolynomialField (NewFq smallModulus)).Mul
            [([1, 2] : List (FP smallModulus)).getD i 0]
            (([[1, 2], [3, 4]] : List (List (FP smallModulus))).getD i []))) [] ∧
      beta = (List.range ([1, 2] : List (FP smallModulus)).length).foldl
        (fun acc i => (NewPolynomialField (NewFq smallModulus)).Add acc
          ((NewPolynomialField (NewFq smallModulus)).Mul
            [([1, 2] : List (FP smallModulus)).getD i 0]
            (([[1, 2], [3, 4]] : List (List (FP smallModulus))).getD i []))) [] ∧
      gamma = (List.range ([1, 2] : List (FP smallModulus)).length).foldl
        (fun acc i => (NewPolynomialField (NewFq smallModulus)).Add acc
          ((NewPolynomialField (NewFq smallModulus)).Mul
            [([1, 2] : List (FP smallModulus)).getD i 0]
            (([[1, 2], [3, 4]] : List (List (FP smallModulus))).getD i []))) [] ∧
      (∀ k, alpha.getD k 0 = ∑ i in Finset.range ([1, 2] : List (FP smallModulus)).length,
        ([1, 2] : List (FP smallModulus)).getD i 0
          * (([[1, 2], [3, 4]] : List (List (FP smallModulus))).getD i []).getD k 0) ∧
      (∀ k, beta.getD k 0 = ∑ i in Finset.range ([1, 2] : List (FP smallModulus)).length,
        ([1, 2] : List (FP smallModulus)).getD i 0
          * (([[1, 2], [3, 4]] : List (List (FP smallModulus))).getD i []).getD k 0) ∧
      (∀ k, gamma.getD k 0 = ∑ i in Finset.range ([1, 2] : List (FP smallModulus)).length,
        ([1, 2] : List (FP smallModulus)).getD i 0
          * (([[1, 2], [3, 4]] : List (List (FP smallModulus))).getD i []).getD k 0) :=
  combine_step smallModulus (NewPolynomialField (NewFq smallModulus)) [1, 2]
    [[1, 2], [3, 4]] [[1, 2], [3, 4]] [[1, 2], [3, 4]] (by decide) (by decide) (by decide)

/-- C26 (transpose): for a rectangular matrix `M` with `m >= 1` rows and
`n` columns (in particular `n >= 1`), `Transpose M` succeeds with `n` rows of length `m`, entry
`[i][j]` of the result is entry `[j][i]` of `M`, and row `i` of the result is
column `i` of `M`. -/
theorem transpose_rectangular (p : Nat) (M : List (List (FP p))) (m n : Nat)
    (hm : 1 ≤ m) (hrows : M.length = m) (hrect : ∀ row ∈ M, row.length = n) :
    ∃ T, Transpose M = .ok T ∧ T.length = n ∧
      (∀ i, i < n → (T.getD i []).length = m) ∧
      (∀ i j, i < n → j < m → (T.getD i []).getD j 0 = (M.getD j []).getD i 0) ∧
      (∀ i, i < n → T.getD i [] = M.map fun row => row.getD i 0) := by
  have hrow : ∀ i, i < n → ((List.range n).map fun i =>
      (List.range m).map fun j => (M.getD j []).getD i 0).getD i []
        = (List.range m).map fun j => (M.getD j []).getD i 0 := by
    intro i hi
    rw [List.getD_eq_getElem _ _ (by simpa using hi)]
    simp
  refine ⟨_, r1csqap.Transpose_spec M m n hm hrows hrect, by simp, ?_, ?_, ?_⟩
  · intro i hi
    rw [hrow i hi]
    simp
  · intro i j hi hj
    rw [hrow i hi, List.getD_eq_getElem _ _ (by simpa using hj)]
    simp
  · intro i hi
    rw [hrow i hi]
    apply List.ext_getElem
    · simp [hrows]
    · intro j h1 h2
      have hj : j < M.length := by simpa using h2
      simp only [List.getElem_map, List.getElem_range]
      rw [List.getD_eq_getElem M [] hj]

/-- C26 witness: the 4 x 6 matrix of `TestTranspose` and its expected
transpose. -/
theorem transpose_rectangular_witness :
    Transpose transposeTestMatrix = .ok transposeTestExpected ∧
    ∃ T, Transpose transposeTestMatrix = .ok T ∧ T.length = 6 ∧
      (∀ i, i < 6 → (T.getD i []).length = 4) ∧
      (∀ i j, i < 6 → j < 4 →
        (T.getD i []).getD j 0 = (transposeTestMatrix.getD j []).getD i 0) ∧
      (∀ i, i < 6 → T.getD i [] = transposeTestMatrix.map fun row => row.getD i 0) :=
  ⟨rfl, transpose_rectangular Modulus381 transposeTestMatrix 4 6 (by decide) rfl
    (by
      intro row hrow
      simp only [transposeTestMatrix, List.mem_cons, List.mem_singleton, List.not_mem_nil,
        or_false] at hrow
      rcases hrow with h | h | h | h <;> rw [h] <;> rfl)⟩

/-- C22 counterexample: dividing the constant `1` by `x` over the BLS12-381
modulus leaves the remainder `[1]`, whose coefficient is not zero, and
`DivisorPolynomial` still returns a quotient (the empty one) instead of
failing. -/
theorem divisor_polynomial_counterexample :
    testPF.Div ([1] : List (FP Modulus381)) [0, 1] = .ok ([], [1]) ∧
    ([1] : List (FP Modulus381)).getD 0 0 ≠ 0 ∧
    testPF.DivisorPolynomial ([1] : List (FP Modulus381)) [0, 1] = .ok [] :=
  ⟨rfl, by decide, rfl⟩

/-- C22 (amended): whenever `Div px zx` returns a quotient `q` and a
remainder `r`, `DivisorPolynomial px zx` returns `q`, whatever `r` is; the
remainder is dropped and never inspected. -/
theorem divisor_polynomial_drops_remainder (p : Nat) (pf : PolynomialField)
    (px zx q r : List (FP p)) (h : pf.Div px zx = .ok (q, r)) :
    pf.DivisorPolynomial px zx = .ok q := by
  unfold PolynomialField.DivisorPolynomial
  rw [h]
  rfl

/-- C22 witness: `x^2 + x + 1` divided by `x - 1` over the prime 101 has the
quotient `x + 2` and the remainder `3`. -/
theorem divisor_polynomial_drops_remainder_witness :
    (NewPolynomialField (NewFq smallModulus)).Div ([1, 1, 1] : List (FP smallModulus)) [100, 1]
      = .ok ([2, 1], [3]) ∧
    (NewPolynomialField (NewFq smallModulus)).DivisorPolynomial
      ([1, 1, 1] : List (FP smallModulus)) [100, 1] = .ok [2, 1] :=
  ⟨rfl, divisor_polynomial_drops_remainder smallModulus (NewPolynomialField (NewFq smallModulus))
    [1, 1, 1] [100, 1] [2, 1] [3] rfl⟩

section ZeroInverse

variable {p : Nat}

/-- For a modulus above 2, `FP.Inverse` maps zero to zero: `0 ^ (p - 2)`. -/
theorem BLS381.FP.Inverse_zero (h2 : 2 < p) : FP.Inverse (0 : FP p) = 0 := by
  rw [FP.Inverse, BLS381.FP.Pow_eq]
  exact zero_pow (by omega)

theorem fields.Fq.Inverse_at_zero (h2 : 2 < p) (fq : Fq) : fq.Inverse (0 : FP p) = 0 := by
  simp only [Fq.Inverse, NewFPcopy]
  exact BLS381.FP.Inverse_zero h2

theorem fields.Fq.Div_zero (h2 : 2 < p) (fq : Fq) (a : FP p) : fq.Div a 0 = 0 := by
  simp only [Fq.Div, Fq.Mul, NewFPcopy, FP.Mul]
  rw [fields.Fq.Inverse_at_zero h2 fq, mul_zero]

/-- A product with an all-zero second factor has only zero coefficients. -/
theorem r1csqap.PolynomialField.Mul_zeros (pf : PolynomialField) (b z : List (FP p))
    (hz : ∀ i, z.getD i 0 = 0) (k : Nat) : (pf.Mul b z).getD k 0 = 0 := by
  rw [r1csqap.PolynomialField.Mul_convolution]
  apply Finset.sum_eq_zero
  intro i _
  apply Finset.sum_eq_zero
  intro j _
  rw [hz j, mul_zero, ite_self]

/-- The loop of `Div` with a divisor whose last coefficient is zero: every
iteration writes the quotient digit `0` and only cuts the last coefficient
off `rem`. -/
theorem r1csqap.PolynomialField.DivLoop_zero_lead (h2 : 2 < p) (pf : PolynomialField)
    (b : List (FP p)) (hb : b ≠ []) (hlead : b.getD (b.length - 1) 0 = 0) :
    ∀ (fuel : Nat) (r rem : List (FP p)), rem.length + 1 ≤ fuel →
      rem.length + 1 ≤ r.length + b.length →
      (∀ i, r.getD i 0 = 0) →
      pf.DivLoop b fuel r rem = .ok (r, rem.take (b.length - 1)) := by
  have hbpos : 0 < b.length := List.length_pos.mpr hb
  intro fuel
  induction fuel with
  | zero => intro r rem h; omega
  | succ n ih =>
    intro r rem hfuel hr hz
    unfold PolynomialField.DivLoop
    by_cases hge : rem.length ≥ b.length
    · have hrem : rem ≠ [] := by
        intro e
        have h0 : rem.length = 0 := by rw [e]; rfl
        omega
      rw [if_pos hge, r1csqap.index_last rem hrem, r1csqap.index_last b hb]
      simp only [bind, Except.bind]
      have hpos : ¬ (rem.length - b.length ≥ r.length) := by omega
      rw [if_neg hpos, hlead, fields.Fq.Div_zero h2]
      set pos := rem.length - b.length with hposdef
      have hrset : r.set pos 0 = r := by
        apply list_eq_of_getD _ _ (List.length_set _ _ _)
        intro i
        rw [getD_set]
        split
        · exact (hz i).symm
        · rfl
      have hmul_len : (pf.Mul b (ArrayOfBigZeros p (pos : Int) ++ [0])).length = rem.length := by
        rw [r1csqap.PolynomialField.Mul_length]
        simp [r1csqap.ArrayOfBigZeros_length]
        omega
      have hzeros : ∀ i, (ArrayOfBigZeros p (pos : Int) ++ [(0 : FP p)]).getD i 0 = 0 := by
        intro i
        rw [r1csqap.ArrayOfBigZeros_eq]
        simp only [List.getD_eq_getElem?_getD, List.getElem?_append, List.length_replicate,
          List.getElem?_replicate]
        split
        · simp
        · rcases Nat.lt_or_ge (i - (pos : Int).toNat) 1 with h | h
          · have : i - (pos : Int).toNat = 0 := by omega
            rw [this]; rfl
          · rw [List.getElem?_eq_none (by simpa using h)]; rfl
      have haux2 : pf.Sub rem (pf.Mul b (ArrayOfBigZeros p (pos : Int) ++ [0])) = rem := by
        apply list_eq_of_getD
        · rw [(r1csqap.PolynomialField.Sub_spec pf _ _).1, hmul_len]
          exact Nat.max_self _
        · intro i
          rw [(r1csqap.PolynomialField.Sub_spec pf _ _).2,
            r1csqap.PolynomialField.Mul_zeros pf b _ hzeros, sub_zero]
      rw [haux2, hrset]
      have hne : ¬ rem.length = 0 := by omega
      rw [if_neg hne]
      have hlen' : (rem.take (rem.length - 1)).length = rem.length - 1 := by
        rw [List.length_take]; omega
      have hA : (rem.take (rem.length - 1)).length + 1 ≤ n := by rw [hlen']; omega
      have hB : (rem.take (rem.length - 1)).length + 1 ≤ r.length + b.length := by
        rw [hlen']; omega
      rw [ih r (rem.take (rem.length - 1)) hA hB hz, List.take_take]
      have hmin : min (b.length - 1) (rem.length - 1) = b.length - 1 :=
        Nat.min_eq_left (by omega)
      rw [hmin]
    · rw [if_neg hge, List.take_of_length_le (by omega)]

end ZeroInverse

section ZeroLeadDiv

variable {p : Nat}

/-- The `Div` of the source with a non-empty divisor whose last coefficient
is zero: the quotient is all zeros and the remainder is `a` cut down to
`len(b) - 1` coefficients. -/
theorem r1csqap.PolynomialField.Div_zero_lead (h2 : 2 < p) (pf : PolynomialField)
    (a b : List (FP p)) (hb : b ≠ []) (hlen : b.length ≤ a.length)
    (hlead : b.getD (b.length - 1) 0 = 0) :
    pf.Div a b = .ok (List.replicate (a.length - b.length + 1) 0, a.take (b.length - 1)) := by
  unfold PolynomialField.Div
  simp only []
  have hn : ((a.length : Int) - (b.length : Int) + 1).toNat = a.length - b.length + 1 := by
    omega
  rw [r1csqap.PolynomialField.DivLoop_zero_lead h2 pf b hb hlead (a.length + 1) _ a le_rfl
    (by rw [r1csqap.ArrayOfBigZeros_length]; omega)
    (fun i => r1csqap.ArrayOfBigZeros_getD _ i), r1csqap.ArrayOfBigZeros_eq, hn]

end ZeroLeadDiv

/-- C23 counterexample: over the BLS12-381 modulus, `Div` of `[1, 1]` by
`[1, 0]`, a non-empty divisor of the same length whose last coefficient is
zero, does not fail: it returns the quotient `[0]` and the remainder `[1]`. -/
theorem div_zero_lead_counterexample :
    ([1, 0] : List (FP Modulus381)) ≠ [] ∧
    ([1, 0] : List (FP Modulus381)).length ≤ ([1, 1] : List (FP Modulus381)).length ∧
    ([1, 0] : List (FP Modulus381)).getD (([1, 0] : List (FP Modulus381)).length - 1) 0 = 0 ∧
    testPF.Div ([1, 1] : List (FP Modulus381)) [1, 0] = .ok ([0], [1]) :=
  ⟨by simp, by decide, rfl,
    r1csqap.PolynomialField.Div_zero_lead (by decide) testPF [1, 1] [1, 0] (by simp)
      (by decide) rfl⟩

/-- C23 (amended): for a modulus above 2, every `a` and every non-empty `b`
with `|a| >= |b|` whose last coefficient is zero, `Div a b` does not fail: it
returns the all-zero quotient of length `|a| - |b| + 1` and, as remainder,
the first `|b| - 1` coefficients of `a`. -/
theorem div_zero_lead_returns (p : Nat) (h2 : 2 < p) (pf : PolynomialField)
    (a b : List (FP p)) (hb : b ≠ []) (hlen : b.length ≤ a.length)
    (hlead : b.getD (b.length - 1) 0 = 0) :
    pf.Div a b = .ok (List.replicate (a.length - b.length + 1) 0, a.take (b.length - 1)) :=
  r1csqap.PolynomialField.Div_zero_lead h2 pf a b hb hlen hlead

/-- C23 witness: `[4, 5, 6]` divided by `[7, 0]` over the prime 101. -/
theorem div_zero_lead_returns_witness :
    2 < smallModulus ∧ ([7, 0] : List (FP smallModulus)) ≠ [] ∧
    ([7, 0] : List (FP smallModulus)).length ≤ ([4, 5, 6] : List (FP smallModulus)).length ∧
    ([7, 0] : List (FP smallModulus)).getD (([7, 0] : List (FP smallModulus)).length - 1) 0 = 0 ∧
    (NewPolynomialField (NewFq smallModulus)).Div ([4, 5, 6] : List (FP smallModulus)) [7, 0]
      = .ok ([0, 0], [4]) :=
  ⟨by decide, by simp, by decide, rfl,
    div_zero_lead_returns smallModulus (by decide) (NewPolynomialField (NewFq smallModulus))
      [4, 5, 6] [7, 0] (by simp) (by decide) rfl⟩

/-- C24 counterexample: in the field built over the BLS12-381 modulus,
`Fq.Inverse 0` and `Fq.Div 7 0` return the field element `0`; nothing
fails. -/
theorem inverse_of_zero_counterexample :
    (NewFq Modulus381).Inverse (0 : FP Modulus381) = 0 ∧
    (NewFq Modulus381).Div (7 : FP Modulus381) 0 = 0 :=
  ⟨fields.Fq.Inverse_at_zero (by decide) _, fields.Fq.Div_zero (by decide) _ _⟩

/-- C24 (amended): for a modulus above 2, `Fq.Inverse 0` returns the field
element `0`, and so does `Fq.Div a 0` for every `a`; neither fails. -/
theorem inverse_of_zero_is_zero (p : Nat) (h2 : 2 < p) (fq : Fq) (a : FP p) :
    fq.Inverse (0 : FP p) = 0 ∧ fq.Div a 0 = 0 :=
  ⟨fields.Fq.Inverse_at_zero h2 fq, fields.Fq.Div_zero h2 fq a⟩

/-- C24 witness: the prime 101 and `a = 5`. -/
theorem inverse_of_zero_is_zero_witness :
    2 < smallModulus ∧ (NewFq smallModulus).Inverse (0 : FP smallModulus) = 0 ∧
    (NewFq smallModulus).Div (5 : FP smallModulus) 0 = 0 :=
  ⟨by decide, inverse_of_zero_is_zero smallModulus (by decide) (NewFq smallModulus) 5⟩

set_option maxRecDepth 1000000 in
/-- C25 (defect): the field built with `NewFq 7` over the BLS12-381 base
field does not reduce modulo 7: `Add 5 4` is `9`, `Sub 3 5` is the base-field
element `-2` (value `Modulus381 - 2`) and `Mul 5 4` is `20`, while the sum,
difference and product modulo 7 are `2`, `5` and `6`. -/
theorem Fq_ignores_own_modulus :
    (NewFq 7).Q = 7 ∧
    ((NewFq 7).Add (5 : FP Modulus381) 4).val = 9 ∧
    ((NewFq 7).Sub (3 : FP Modulus381) 5).val = Modulus381 - 2 ∧
    ((NewFq 7).Mul (5 : FP Modulus381) 4).val = 20 ∧
    (5 + 4) % (NewFq 7).Q = 2 ∧ ((3 : Int) - 5) % ((NewFq 7).Q : Int) = 5 ∧
    (5 * 4) % (NewFq 7).Q = 6 := by
  decide

section Verifier

variable {p : Nat}

/-- With one entry of `Vk.A` more than there are public signals, the loop of
`VerifyProof` never indexes out of range and computes `Vkx`. -/
theorem snark.vkxLoop_ok (bn : snark.Bn128 p) (setup : snark.Setup bn) (proof : snark.Proof bn)
    (hA : proof.PublicSignals.length + 1 ≤ setup.Vk.A.length) :
    snark.vkxLoop bn setup proof = .ok (snark.specVkx bn setup proof) := by
  unfold snark.vkxLoop snark.specVkx
  have h0 : r1csqap.index setup.Vk.A 0 = .ok (setup.Vk.A.getD 0 bn.G1Zero) :=
    r1csqap.index_ok setup.Vk.A 0 (by omega) bn.G1Zero
  rw [h0]
  simp only [bind, Except.bind]
  have key : ∀ n, n ≤ proof.PublicSignals.length →
      (List.range n).foldlM (fun (vkxpia : bn.G1) i =>
          (r1csqap.index setup.Vk.A (Int.ofNat i + 1)).bind fun vkAi =>
            pure (bn.G1Add vkxpia (bn.G1MulScalar vkAi (proof.PublicSignals.getD i 0))))
          (setup.Vk.A.getD 0 bn.G1Zero)
        = Except.ok ((List.range n).foldl
          (fun acc j => bn.G1Add acc
            (bn.G1MulScalar (setup.Vk.A.getD (j + 1) bn.G1Zero) (proof.PublicSignals.getD j 0)))
          (setup.Vk.A.getD 0 bn.G1Zero)) := by
    intro n
    induction n with
    | zero => intro _; rfl
    | succ n ih =>
      intro hn
      rw [List.range_succ, List.foldlM_append, ih (by omega), List.foldl_append]
      simp only [bind, Except.bind, List.foldlM_cons, List.foldlM_nil, List.foldl_cons,
        List.foldl_nil]
      have h1 : r1csqap.index setup.Vk.A (Int.ofNat n + 1)
          = .ok (setup.Vk.A.getD (n + 1) bn.G1Zero) :=
        r1csqap.index_ok setup.Vk.A (n + 1) (by omega) bn.G1Zero
      rw [h1]
      rfl
  exact key _ le_rfl

end Verifier

/-- C29 (verifier decision): when `Vk.A` has an entry for the constant and
for each public signal, `VerifyProof` returns a boolean, and that boolean is
`true` exactly when all five pairing equations hold, with `Vkx` as in the
spec; the result is the same for every circuit argument and every
`printVer`. -/
theorem verifier_decision (p : Nat) (bn : snark.Bn128 p) (circuit : circuitcompiler.Circuit)
    (setup : snark.Setup bn) (proof : snark.Proof bn) (printVer : Bool)
    (hA : proof.PublicSignals.length + 1 ≤ setup.Vk.A.length) :
    (∃ b, snark.VerifyProof bn circuit setup proof printVer = .ok b ∧
      (b = true ↔
        bn.Fq12Equal (bn.Pairing proof.PiA setup.Vk.Vka) (bn.Pairing proof.PiAp bn.G2G) = true ∧
        bn.Fq12Equal (bn.Pairing setup.Vk.Vkb proof.PiB) (bn.Pairing proof.PiBp bn.G2G) = true ∧
        bn.Fq12Equal (bn.Pairing proof.PiC setup.Vk.Vkc) (bn.Pairing proof.PiCp bn.G2G) = true ∧
        bn.Fq12Equal
          (bn.Pairing (bn.G1Add (snark.specVkx bn setup proof) proof.PiA) proof.PiB)
          (bn.Fq12Mul (bn.Pairing proof.PiH setup.Vk.Vkz)
            (bn.Pairing proof.PiC bn.G2G)) = true ∧
        bn.Fq12Equal
          (bn.Fq12Mul
            (bn.Pairing (bn.G1Add (bn.G1Add (snark.specVkx bn setup proof) proof.PiA) proof.PiC)
              setup.Vk.G2Kbg)
            (bn.Pairing setup.Vk.G1Kbg proof.PiB))
          (bn.Pairing proof.PiKp setup.Vk.G2Kg) = true)) ∧
    ∀ (circuit2 : circuitcompiler.Circuit) (printVer2 : Bool),
      snark.VerifyProof bn circuit2 setup proof printVer2
        = snark.VerifyProof bn circuit setup proof printVer := by
  refine ⟨?_, fun _ _ => rfl⟩
  unfold snark.VerifyProof
  simp only [snark.vkxLoop_ok bn setup proof hA, bind, Except.bind, pure, Except.pure]
  cases h1 : bn.Fq12Equal (bn.Pairing proof.PiA setup.Vk.Vka) (bn.Pairing proof.PiAp bn.G2G)
  · exact ⟨false, by simp, by simp⟩
  cases h2 : bn.Fq12Equal (bn.Pairing setup.Vk.Vkb proof.PiB) (bn.Pairing proof.PiBp bn.G2G)
  · exact ⟨false, by simp, by simp⟩
  cases h3 : bn.Fq12Equal (bn.Pairing proof.PiC setup.Vk.Vkc) (bn.Pairing proof.PiCp bn.G2G)
  · exact ⟨false, by simp, by simp⟩
  cases h4 : bn.Fq12Equal
      (bn.Pairing (bn.G1Add (snark.specVkx bn setup proof) proof.PiA) proof.PiB)
      (bn.Fq12Mul (bn.Pairing proof.PiH setup.Vk.Vkz) (bn.Pairing proof.PiC bn.G2G))
  · exact ⟨false, by simp, by simp⟩
  cases h5 : bn.Fq12Equal
      (bn.Fq12Mul
        (bn.Pairing (bn.G1Add (bn.G1Add (snark.specVkx bn setup proof) proof.PiA) proof.PiC)
          setup.Vk.G2Kbg)
        (bn.Pairing setup.Vk.G1Kbg proof.PiB))
      (bn.Pairing proof.PiKp setup.Vk.G2Kg)
  · exact ⟨false, by simp, by simp⟩
  · exact ⟨true, by simp, by simp⟩

/-- C29 witness: a setup and a proof over the logarithm group modulo 101
that satisfy all five equations; `VerifyProof` returns `true`. -/
theorem verifier_decision_witness :
    snark.VerifyProof (snark.exponentGroup smallModulus) circuitS2 verifierSetup verifierProof true
      = .ok true ∧
    verifierProof.PublicSignals.length + 1 ≤ verifierSetup.Vk.A.length ∧
    ((∃ b, snark.VerifyProof (snark.exponentGroup smallModulus) circuitS2 verifierSetup
        verifierProof true = .ok b ∧
      (b = true ↔
        (snark.exponentGroup smallModulus).Fq12Equal
          ((snark.exponentGroup smallModulus).Pairing verifierProof.PiA verifierSetup.Vk.Vka)
          ((snark.exponentGroup smallModulus).Pairing verifierProof.PiAp
            (snark.exponentGroup smallModulus).G2G) = true ∧
        (snark.exponentGroup smallModulus).Fq12Equal
          ((snark.exponentGroup smallModulus).Pairing verifierSetup.Vk.Vkb verifierProof.PiB)
          ((snark.exponentGroup smallModulus).Pairing verifierProof.PiBp
            (snark.exponentGroup smallModulus).G2G) = true ∧
        (snark.exponentGroup smallModulus).Fq12Equal
          ((snark.exponentGroup smallModulus).Pairing verifierProof.PiC verifierSetup.Vk.Vkc)
          ((snark.exponentGroup smallModulus).Pairing verifierProof.PiCp
            (snark.exponentGroup smallModulus).G2G) = true ∧
        (snark.exponentGroup smallModulus).Fq12Equal
          ((snark.exponentGroup smallModulus).Pairing
            ((snark.exponentGroup smallModulus).G1Add
              (snark.specVkx (snark.exponentGroup smallModulus) verifierSetup verifierProof)
              verifierProof.PiA) verifierProof.PiB)
          ((snark.exponentGroup smallModulus).Fq12Mul
            ((snark.exponentGroup smallModulus).Pairing verifierProof.PiH verifierSetup.Vk.Vkz)
            ((snark.exponentGroup smallModulus).Pairing verifierProof.PiC
              (snark.exponentGroup smallModulus).G2G)) = true ∧
        (snark.exponentGroup smallModulus).Fq12Equal
          ((snark.exponentGroup smallModulus).Fq12Mul
            ((snark.exponentGroup smallModulus).Pairing
              ((snark.exponentGroup smallModulus).G1Add
                ((snark.exponentGroup smallModulus).G1Add
                  (snark.specVkx (snark.exponentGroup smallModulus) verifierSetup verifierProof)
                  verifierProof.PiA) verifierProof.PiC)
              verifierSetup.Vk.G2Kbg)
            ((snark.exponentGroup smallModulus).Pairing verifierSetup.Vk.G1Kbg
              verifierProof.PiB))
          ((snark.exponentGroup smallModulus).Pairing verifierProof.PiKp
            verifierSetup.Vk.G2Kg) = true)) ∧
    ∀ (circuit2 : circuitcompiler.Circuit) (printVer2 : Bool),
      snark.VerifyProof (snark.exponentGroup smallModulus) circuit2 verifierSetup verifierProof
          printVer2
        = snark.VerifyProof (snark.exponentGroup smallModulus) circuitS2 verifierSetup
          verifierProof true) :=
  ⟨rfl, by decide,
    verifier_decision smallModulus (snark.exponentGroup smallModulus) circuitS2 verifierSetup
      verifierProof true (by decide)⟩

/-- C28 (defect): whatever `NPublic` is, a proof returned by `GenerateProofs`
carries the one-element slice `w[1:2]` as its public signals. -/
theorem public_signals_fixed_slice (p : Nat) (bn : snark.Bn128 p)
    (circuit : circuitcompiler.Circuit) (setup : snark.Setup bn) (hx w : List (FP p))
    (proof : snark.Proof bn) (h : snark.GenerateProofs bn circuit setup hx w = .ok proof) :
    proof.PublicSignals = (w.drop 1).take 1 := by
  unfold snark.GenerateProofs at h
  simp only [bind, Except.bind, pure, Except.pure] at h
  split at h
  · cases h
  split at h
  · cases h
  split at h
  · cases h
  split at h
  · cases h
  rename_i ps hps
  cases h
  unfold snark.sliceOneTwo at hps
  split at hps
  · cases hps
    rfl
  · cases hps

set_option maxRecDepth 1000000 in
/-- C28 failing input: `twoPublicCircuit` has `NPublic = 2` and the witness
`[1, 7, 8, 9]` has the public entries `7, 8`, but the proof carries `[7]`. -/
theorem public_signals_fixed_slice_witness :
    twoPublicCircuit.NPublic = 2 ∧
    snark.GenerateProofs (snark.exponentGroup Modulus381) twoPublicCircuit twoPublicSetup []
      [1, 7, 8, 9] = .ok twoPublicProof ∧
    twoPublicProof.PublicSignals = [7] ∧
    (([1, 7, 8, 9] : List (FP Modulus381)).drop 1).take 2 = [7, 8] ∧
    twoPublicProof.PublicSignals = (([1, 7, 8, 9] : List (FP Modulus381)).drop 1).take 1 :=
  ⟨rfl, rfl, rfl, rfl,
    public_signals_fixed_slice Modulus381 (snark.exponentGroup Modulus381) twoPublicCircuit
      twoPublicSetup [] [1, 7, 8, 9] twoPublicProof rfl⟩

set_option maxRecDepth 1000000 in
/-- C30 counterexample: for scenario S2 over the logarithm group on the
BLS12-381 modulus, with the draw `t = 2`, the setup returned by
`GenerateTrustedSetup` still holds `T = 2`, which is not zero, together with
the other draws. -/
theorem toxic_waste_counterexample :
    ∃ setup, snark.GenerateTrustedSetup (snark.exponentGroup Modulus381)
        (sampleDraws Modulus381) 4 circuitS2
        [[0], [0], [1], [0]] [[0], [0], [0], [1]] [[0], [1], [0], [0]] [-1, 1] = .ok setup ∧
      setup.Toxic.T = 2 ∧ (2 : FP Modulus381) ≠ 0 ∧ setup.Toxic.Ka = 3 ∧
      (3 : FP Modulus381) ≠ 0 :=
  ⟨_, rfl, rfl, by decide, rfl, by decide⟩

/-- C30 (amended): a setup returned by `GenerateTrustedSetup` holds the
toxic waste: the eight fields `T`, `Ka`, `Kb`, `Kc`, `Kbeta`, `Kgamma`,
`RhoA`, `RhoB` of `Setup.Toxic` are the values drawn, and `RhoC` is the
product of `RhoA` and `RhoB`. -/
theorem toxic_waste_is_returned (p : Nat) (bn : snark.Bn128 p) (s : snark.Samples p)
    (witnessLength : Int) (circuit : circuitcompiler.Circuit)
    (alphas betas gammas : List (List (FP p))) (zx : List (FP p)) (setup : snark.Setup bn)
    (h : snark.GenerateTrustedSetup bn s witnessLength circuit alphas betas gammas zx
      = .ok setup) :
    setup.Toxic.T = s.t ∧ setup.Toxic.Ka = s.ka ∧ setup.Toxic.Kb = s.kb ∧
    setup.Toxic.Kc = s.kc ∧ setup.Toxic.Kbeta = s.kbeta ∧ setup.Toxic.Kgamma = s.kgamma ∧
    setup.Toxic.RhoA = s.rhoA ∧ setup.Toxic.RhoB = s.rhoB ∧
    setup.Toxic.RhoC = s.rhoA * s.rhoB := by
  unfold snark.GenerateTrustedSetup at h
  simp only [bind, Except.bind, pure, Except.pure] at h
  split at h
  · cases h
  cases h
  exact ⟨rfl, rfl, rfl, rfl, rfl, rfl, rfl, rfl, rfl⟩

/-- C30 witness: scenario S2 over the logarithm group modulo 101 with the
draws `sampleDraws`; the returned setup is `setupS2`. -/
theorem toxic_waste_is_returned_witness :
    snark.GenerateTrustedSetup (snark.exponentGroup smallModulus) (sampleDraws smallModulus) 4
        circuitS2 [[0], [0], [1], [0]] [[0], [0], [0], [1]] [[0], [1], [0], [0]] [-1, 1]
      = .ok setupS2 ∧
    setupS2.Toxic.T = (sampleDraws smallModulus).t ∧
    setupS2.Toxic.Ka = (sampleDraws smallModulus).ka ∧
    setupS2.Toxic.Kb = (sampleDraws smallModulus).kb ∧
    setupS2.Toxic.Kc = (sampleDraws smallModulus).kc ∧
    setupS2.Toxic.Kbeta = (sampleDraws smallModulus).kbeta ∧
    setupS2.Toxic.Kgamma = (sampleDraws smallModulus).kgamma ∧
    setupS2.Toxic.RhoA = (sampleDraws smallModulus).rhoA ∧
    setupS2.Toxic.RhoB = (sampleDraws smallModulus).rhoB ∧
    setupS2.Toxic.RhoC = (sampleDraws smallModulus).rhoA * (sampleDraws smallModulus).rhoB :=
  ⟨rfl, toxic_waste_is_returned smallModulus (snark.exponentGroup smallModulus)
    (sampleDraws smallModulus) 4 circuitS2 [[0], [0], [1], [0]] [[0], [0], [0], [1]]
    [[0], [1], [0], [0]] [-1, 1] setupS2 rfl⟩

set_option maxRecDepth 1000000 in
/-- C27 (defect): scenarios S2 (`out = a * b`, inputs 3 and 4) and S1
(input 3) are valid, their witnesses are `[1, 12, 3, 4]` and
`[1, 35, 3, 9, 27, 30]`, and with the draw `t = 2` the whole pipeline over
the logarithm group on the BLS12-381 modulus ends with `VerifyProof`
returning `false`. -/
theorem completeness_fails_on_scenarios :
    circuitS2.CalculateWitness [3, 4] = .ok ([1, 12, 3, 4], none) ∧
    snark.proveAndVerify (snark.exponentGroup Modulus381) (sampleDraws Modulus381)
      circuitS2 [3, 4] = .ok (some false) ∧
    circuitS1.CalculateWitness [3] = .ok ([1, 35, 3, 9, 27, 30], none) ∧
    snark.proveAndVerify (snark.exponentGroup Modulus381) (sampleDraws Modulus381)
      circuitS1 [3] = .ok (some false) :=
  ⟨rfl, rfl, rfl, rfl⟩

section DivTermination

variable {p : Nat}

/-- The loop of `Div` for a non-empty divisor, started with enough
iterations allowed and a quotient slice that is long enough: it returns, its
log lists `pos` from `len(rem) - len(b)` down to `0` with the product as
long as the remainder and the remainder one shorter each time, and the
logged loop returns the same quotient and remainder. -/
theorem r1csqap.PolynomialField.DivLoopLog_spec (pf : PolynomialField)
    (b : List (FP p)) (hb : b ≠ []) :
    ∀ (fuel : Nat) (r rem : List (FP p)) (log : List (Nat × Nat × Nat)),
      rem.length + 1 ≤ fuel → rem.length + 1 ≤ r.length + b.length →
      ∃ q rem', pf.DivLoop b fuel r rem = .ok (q, rem') ∧
        pf.DivLoopLog b fuel r rem log = .ok (q, rem',
          log ++ (List.range (rem.length + 1 - b.length)).map fun k =>
            (rem.length - b.length - k, rem.length - k, rem.length - k)) ∧
        q.length = r.length ∧ rem'.length = min rem.length (b.length - 1) := by
  have hbpos : 0 < b.length := List.length_pos.mpr hb
  intro fuel
  induction fuel with
  | zero => intro r rem log h; omega
  | succ n ih =>
    intro r rem log hfuel hr
    unfold PolynomialField.DivLoop PolynomialField.DivLoopLog
    by_cases hge : rem.length ≥ b.length
    · have hrem : rem ≠ [] := by
        intro e
        have h0 : rem.length = 0 := by rw [e]; rfl
        omega
      rw [if_pos hge, if_pos hge, r1csqap.index_last rem hrem, r1csqap.index_last b hb]
      simp only [bind, Except.bind]
      have hpos : ¬ (rem.length - b.length ≥ r.length) := by omega
      rw [if_neg hpos, if_neg hpos]
      set l := pf.F.Div (rem.getD (rem.length - 1) 0) (b.getD (b.length - 1) 0) with hl
      set pos := rem.length - b.length with hposdef
      have hmul_len : (pf.Mul b (ArrayOfBigZeros p (pos : Int) ++ [l])).length = rem.length := by
        rw [r1csqap.PolynomialField.Mul_length]
        simp [r1csqap.ArrayOfBigZeros_length]
        omega
      set aux2 := pf.Sub rem (pf.Mul b (ArrayOfBigZeros p (pos : Int) ++ [l])) with haux2
      have haux2_len : aux2.length = rem.length := by
        rw [haux2, (r1csqap.PolynomialField.Sub_spec pf _ _).1, hmul_len]
        simp
      have hne : ¬ aux2.length = 0 := by omega
      rw [if_neg hne, if_neg hne, hmul_len]
      have hlen' : (aux2.take (aux2.length - 1)).length = rem.length - 1 := by
        rw [List.length_take, haux2_len]; omega
      have hA : (aux2.take (aux2.length - 1)).length + 1 ≤ n := by rw [hlen']; omega
      have hB : (aux2.take (aux2.length - 1)).length + 1 ≤ (r.set pos l).length + b.length := by
        rw [hlen', List.length_set]; omega
      obtain ⟨q, rem', hrun, hlog, hq, hrl⟩ := ih (r.set pos l) (aux2.take (aux2.length - 1))
        (log ++ [(pos, rem.length, rem.length)]) hA hB
      refine ⟨q, rem', hrun, ?_, by rw [hq, List.length_set], by rw [hrl, hlen']; omega⟩
      rw [hlog, hlen']
      have hcount : rem.length + 1 - b.length = (rem.length - 1 + 1 - b.length) + 1 := by omega
      rw [hcount, List.range_succ_eq_map, List.map_cons, List.map_map, List.append_assoc]
      have h0 : (rem.length - b.length - 0, rem.length - 0, rem.length - 0)
          = (pos, rem.length, rem.length) := by simp [hposdef]
      rw [h0]
      simp only [List.singleton_append]
      have hmap : List.map
          (fun k => (rem.length - 1 - b.length - k, rem.length - 1 - k, rem.length - 1 - k))
          (List.range (rem.length - 1 + 1 - b.length))
          = List.map ((fun k => (pos - k, rem.length - k, rem.length - k)) ∘ Nat.succ)
            (List.range (rem.length - 1 + 1 - b.length)) := by
        apply List.map_congr_left
        intro k _
        simp only [Function.comp, Prod.mk.injEq]
        omega
      rw [hmap]
    · rw [if_neg hge, if_neg hge]
      have h0 : rem.length + 1 - b.length = 0 := by omega
      refine ⟨r, rem, rfl, ?_, rfl, by omega⟩
      rw [h0]
      simp

end DivTermination

/-- C32 (termination of long division): for every `a` and every non-empty
`b`, `Div a b` returns.  The log of its loop has `max(0, |a| - |b| + 1)`
entries (`Int.toNat` sends a negative number to `0`); entry `k` records `pos = |a| - |b| - k`, a product
`Mul(b, aux1)` of length `|a| - k` and a remainder of the same length
`|a| - k`, so the remainder loses one coefficient per iteration; the
remainder returned is shorter than `b`. -/
theorem div_loop_terminates (p : Nat) (pf : PolynomialField) (a b : List (FP p))
    (hb : b ≠ []) :
    ∃ q rem, pf.Div a b = .ok (q, rem) ∧
      pf.DivLog a b = .ok (q, rem,
        (List.range ((a.length : Int) - (b.length : Int) + 1).toNat).map fun k =>
          (a.length - b.length - k, a.length - k, a.length - k)) ∧
      rem.length < b.length ∧
      q.length = ((a.length : Int) - (b.length : Int) + 1).toNat := by
  have hbpos : 0 < b.length := List.length_pos.mpr hb
  have hn : ((a.length : Int) - (b.length : Int) + 1).toNat
      = a.length + 1 - b.length := by omega
  have hr : (ArrayOfBigZeros p ((a.length : Int) - (b.length : Int) + 1)).length
      = a.length + 1 - b.length := by
    rw [r1csqap.ArrayOfBigZeros_length]; omega
  obtain ⟨q, rem, hrun, hlog, hq, hrl⟩ := r1csqap.PolynomialField.DivLoopLog_spec pf b hb
    (a.length + 1) (ArrayOfBigZeros p ((a.length : Int) - (b.length : Int) + 1)) a []
    le_rfl (by rw [hr]; omega)
  refine ⟨q, rem, hrun, ?_, by rw [hrl]; omega, by rw [hq, hr, hn]⟩
  unfold PolynomialField.DivLog
  simp only []
  rw [hlog, hn, List.nil_append]

/-- C32 witness: `x^2 + x + 1` divided by `x - 1` over the prime 101; the
loop body runs twice, with `pos = 1` and then `pos = 0`. -/
theorem div_loop_terminates_witness :
    ([100, 1] : List (FP smallModulus)) ≠ [] ∧
    (NewPolynomialField (NewFq smallModulus)).DivLog ([1, 1, 1] : List (FP smallModulus))
      [100, 1] = .ok ([2, 1], [3], [(1, 3, 3), (0, 2, 2)]) ∧
    ∃ q rem, (NewPolynomialField (NewFq smallModulus)).Div
        ([1, 1, 1] : List (FP smallModulus)) [100, 1] = .ok (q, rem) ∧
      (NewPolynomialField (NewFq smallModulus)).DivLog ([1, 1, 1] : List (FP smallModulus))
        [100, 1] = .ok (q, rem,
          (List.range ((([1, 1, 1] : List (FP smallModulus)).length : Int)
              - (([100, 1] : List (FP smallModulus)).length : Int) + 1).toNat).map fun k =>
            (([1, 1, 1] : List (FP smallModulus)).length
                - ([100, 1] : List (FP smallModulus)).length - k,
              ([1, 1, 1] : List (FP smallModulus)).length - k,
              ([1, 1, 1] : List (FP smallModulus)).length - k)) ∧
      rem.length < ([100, 1] : List (FP smallModulus)).length ∧
      q.length = ((([1, 1, 1] : List (FP smallModulus)).length : Int)
        - (([100, 1] : List (FP smallModulus)).length : Int) + 1).toNat :=
  ⟨by simp, rfl,
    div_loop_terminates smallModulus (NewPolynomialField (NewFq smallModulus)) [1, 1, 1]
      [100, 1] (by simp)⟩

/-- C31 (input-count check): when the number of inputs differs from
`len(circ.Inputs)`, `CalculateWitness` returns the empty witness with the
error `given inputs != circuit.Inputs`, and it does so whatever the
constraints are, so none is evaluated; when the numbers agree, a returned
result never carries an error. -/
theorem input_count_check (circ : circuitcompiler.Circuit) (inputs : List Int) :
    (inputs.length ≠ circ.Inputs.length →
      circ.CalculateWitness inputs = .ok ([], some "given inputs != circuit.Inputs") ∧
      ∀ cs : List circuitcompiler.Constraint,
        ({ circ with Constraints := cs } : circuitcompiler.Circuit).CalculateWitness inputs
          = .ok ([], some "given inputs != circuit.Inputs")) ∧
    (inputs.length = circ.Inputs.length →
      ∀ (w : List Int) (e : Option String),
        circ.CalculateWitness inputs = .ok (w, e) → e = none) := by
  constructor
  · intro h
    constructor
    · unfold circuitcompiler.Circuit.CalculateWitness
      rw [if_pos h]
    · intro cs
      unfold circuitcompiler.Circuit.CalculateWitness
      rw [if_pos h]
  · intro h w e hrun
    unfold circuitcompiler.Circuit.CalculateWitness at hrun
    rw [if_neg (by simpa using h)] at hrun
    simp only [bind, Except.bind, pure, Except.pure] at hrun
    split at hrun
    · cases hrun
    split at hrun
    · cases hrun
    split at hrun
    · cases hrun
    cases hrun
    rfl

/-- C31 witness: `divCircuit` (`out = x / y`) takes two inputs.  With the
single input `[1]` the call returns the error and the empty witness; with
`[1, 0]` the count is right and the division by zero panics, which shows that
the constraint is not evaluated in the first call; with `[6, 3]` the witness
is returned without an error. -/
theorem input_count_check_witness :
    ([1] : List Int).length ≠ divCircuit.Inputs.length ∧
    divCircuit.CalculateWitness [1] = .ok ([], some "given inputs != circuit.Inputs") ∧
    divCircuit.CalculateWitness [1, 0] = .error .divisionByZero ∧
    ([6, 3] : List Int).length = divCircuit.Inputs.length ∧
    divCircuit.CalculateWitness [6, 3] = .ok ([1, 2, 6, 3], none) ∧
    (none : Option String) = none :=
  ⟨by decide, ((input_count_check divCircuit [1]).1 (by decide)).1, rfl, by decide, rfl,
    (input_count_check divCircuit [6, 3]).2 (by decide) [1, 2, 6, 3] none rfl⟩
